import Mathlib

/-! # A verification development for the search engine of `src/Leet/Leet.cpp`

The C++ program is embedded shallowly:

* `std::string` is a list of characters (`Str`), ordered lexicographically; a
  `char` is a `Char`, and the test `c >= '\0' && c < ' '` is `c.toNat < 32`;
* `std::map` and `std::set` are association lists and lists kept in strictly
  ascending key order, so that iteration order is the order of the list;
* `double` is an arbitrary linearly ordered field `R` (exact arithmetic) and
  the natural logarithm is a parameter `log : R → R`;
* a C++ exception is the `error` case of a result; a method that mutates the
  server returns the result together with the server as it is when the call
  ends, whether it returned or threw;
* `int` is `Int`; where a conversion to `size_t` or 32-bit wrap-around occurs in
  the source it is written out (`toSizeT`, `wrapInt`).
-/

set_option linter.unusedSectionVars false

namespace Leet

/-- The type `std::string`: a sequence of characters. -/
abbrev Str := List Char

/-- The exceptions thrown by the program. -/
inductive Error where
  | invalid_argument
  | out_of_range
  deriving DecidableEq, Repr

/-! ## `std::map` and `std::set` -/

namespace StdMap

variable {K V : Type}

/-- The keys of a map, in iteration order. -/
def keys (m : List (K × V)) : List K := m.map Prod.fst

/-- The lookup `map::find`. -/
def find? [LinearOrder K] : List (K × V) → K → Option V
  | [], _ => none
  | (k', v) :: rest, k => if k' = k then some v else find? rest k

/-- The member `map::count`: 1 when the key is present and 0 otherwise. -/
def count [LinearOrder K] (m : List (K × V)) (k : K) : Nat :=
  if (find? m k).isSome then 1 else 0

/-- The member `map::at`, which throws `std::out_of_range` for a missing key. -/
def atKey [LinearOrder K] (m : List (K × V)) (k : K) : Except Error V :=
  match find? m k with
  | some v => .ok v
  | none => .error .out_of_range

/-- The update `m[k] = f(m[k])`, where `f none` stands for the value built from
a freshly value-initialised entry: `operator[]` inserts the key at its place
in key order when it is missing. -/
def modify [LinearOrder K] (k : K) (f : Option V → V) : List (K × V) → List (K × V)
  | [] => [(k, f none)]
  | (k', v) :: rest =>
    if k < k' then (k, f none) :: (k', v) :: rest
    else if k = k' then (k, f (some v)) :: rest
    else (k', v) :: modify k f rest

/-- The member `map::emplace`: inserts the pair unless the key is present. -/
def emplace [LinearOrder K] (k : K) (v : V) (m : List (K × V)) : List (K × V) :=
  modify k (fun o => o.getD v) m

/-- The member `map::erase(key)`. -/
def erase [LinearOrder K] (k : K) : List (K × V) → List (K × V)
  | [] => []
  | (k', v) :: rest => if k' = k then rest else (k', v) :: erase k rest

end StdMap

namespace StdSet

variable {K : Type}

/-- The member `set::insert`. -/
def insert [LinearOrder K] (k : K) : List K → List K
  | [] => [k]
  | k' :: rest =>
    if k < k' then k :: k' :: rest
    else if k = k' then k' :: rest
    else k' :: insert k rest

/-- The member `set::count`. -/
def count [LinearOrder K] (s : List K) (k : K) : Nat :=
  if k ∈ s then 1 else 0

end StdSet

/-! ## Free functions and plain data -/

/-- The constant `MAX_RESULT_DOCUMENT_COUNT`. -/
def MAX_RESULT_DOCUMENT_COUNT : Nat := 5

/-- The loop of `SplitIntoWords`: `word` is the word being read and `words`
the words already pushed. -/
def SplitIntoWords.loop : List Char → Str → List Str → List Str
  | [], word, words => if !word.isEmpty then words ++ [word] else words
  | c :: cs, word, words =>
    if c = ' ' then
      if !word.isEmpty then SplitIntoWords.loop cs [] (words ++ [word])
      else SplitIntoWords.loop cs word words
    else SplitIntoWords.loop cs (word ++ [c]) words

/-- The function `SplitIntoWords`. -/
def SplitIntoWords (text : Str) : List Str :=
  SplitIntoWords.loop text [] []

/-- The struct `Document`. -/
structure Document (R : Type) where
  id : Int
  relevance : R
  rating : Int

/-- The function `MakeUniqueNonEmptyStrings`. -/
def MakeUniqueNonEmptyStrings (strings : List Str) : List Str :=
  strings.foldl (fun non_empty_strings str =>
    if !str.isEmpty then StdSet.insert str non_empty_strings else non_empty_strings) []

/-- The enumeration `DocumentStatus`. -/
inductive DocumentStatus where
  | ACTUAL
  | IRRELEVANT
  | BANNED
  | REMOVED
  deriving DecidableEq, Repr

/-- The struct `SearchServer::DocumentData`. -/
structure DocumentData where
  rating : Int
  status : DocumentStatus
  deriving DecidableEq, Repr

/-- The data members of `SearchServer`. -/
structure SearchServer (R : Type) where
  stop_words_ : List Str
  word_to_document_freqs_ : List (Str × List (Int × R))
  documents_ : List (Int × DocumentData)
  document_ids_ : List Int

/-- The struct `SearchServer::QueryWord`. -/
structure QueryWord where
  data : Str
  is_minus : Bool
  is_stop : Bool
  deriving DecidableEq, Repr

/-- The struct `SearchServer::Query`. -/
structure Query where
  plus_words : List Str
  minus_words : List Str
  deriving DecidableEq, Repr

/-- Value of an `int` expression after wrap-around to 32 bits. -/
def wrapInt (x : Int) : Int := (x + 2 ^ 31) % 2 ^ 32 - 2 ^ 31

/-- Conversion of an `int` to `size_t` (64 bits). -/
def toSizeT (x : Int) : Nat := (x % 2 ^ 64).toNat

/-- The member `vector::at`, which throws `std::out_of_range`. -/
def vectorAt {α : Type} (v : List α) (n : Nat) : Except Error α :=
  match v.get? n with
  | some a => .ok a
  | none => .error .out_of_range

/-- The algorithm `std::sort` with the comparison `comp`, as a stable insertion
sort: `sort.place comp x l` puts `x` in front of the first element of `l` that
does not go before `x`. -/
def sort.place {α : Type} (comp : α → α → Bool) (x : α) : List α → List α
  | [] => [x]
  | y :: ys => if comp y x then y :: sort.place comp x ys else x :: y :: ys

/-- The algorithm `std::sort`, see `sort.place`. -/
def sort {α : Type} (comp : α → α → Bool) : List α → List α
  | [] => []
  | x :: xs => sort.place comp x (sort comp xs)

/-- The method `IsValidWord`. -/
def IsValidWord (word : Str) : Bool :=
  !(word.any fun c => decide (0 ≤ c.toNat) && decide (c.toNat < 32))

section Server

variable {R : Type} [LinearOrderedField R]

/-- The constructor `SearchServer(const StringContainer& stop_words)`. -/
def SearchServer.new (stop_words : List Str) : Except Error (SearchServer R) :=
  let stop_words_ := MakeUniqueNonEmptyStrings stop_words
  if !(stop_words_.all IsValidWord)
  then .error .invalid_argument
  else .ok { stop_words_ := stop_words_, word_to_document_freqs_ := [],
             documents_ := [], document_ids_ := [] }

/-- The constructor `SearchServer(const string& stop_words_text)`. -/
def SearchServer.ofText (stop_words_text : Str) : Except Error (SearchServer R) :=
  SearchServer.new (SplitIntoWords stop_words_text)

/-- The method `IsStopWord`. -/
def IsStopWord (s : SearchServer R) (word : Str) : Bool :=
  decide (StdSet.count s.stop_words_ word > 0)

/-- The method `SplitIntoWordsNoStop`. -/
def SplitIntoWordsNoStop (s : SearchServer R) (text : Str) : Except Error (List Str) :=
  (SplitIntoWords text).foldlM (fun words word =>
    if !IsValidWord word then .error .invalid_argument
    else if !IsStopWord s word then .ok (words ++ [word])
    else .ok words) []

/-- The method `ComputeAverageRating`. -/
def ComputeAverageRating (ratings : List Int) : Int :=
  if ratings.isEmpty then 0
  else
    let rating_sum := ratings.foldl (fun rating_sum rating => wrapInt (rating_sum + rating)) 0
    Int.tdiv rating_sum (wrapInt ratings.length)

/-- The method `AddDocument`. The second component is the server when the call
ends. -/
def AddDocument (s : SearchServer R) (document_id : Int) (document : Str)
    (status : DocumentStatus) (ratings : List Int) : Except Error Unit × SearchServer R :=
  if document_id < 0 ∨ StdMap.count s.documents_ document_id > 0 then
    (.error .invalid_argument, s)
  else
    match SplitIntoWordsNoStop s document with
    | .error e => (.error e, s)
    | .ok words =>
      let inv_word_count : R := 1 / (words.length : R)
      let freqs := words.foldl (fun freqs word =>
        StdMap.modify word (fun postings =>
          StdMap.modify document_id (fun freq => freq.getD 0 + inv_word_count)
            (postings.getD [])) freqs) s.word_to_document_freqs_
      (.ok (),
        { s with
          word_to_document_freqs_ := freqs
          documents_ := StdMap.emplace document_id
            { rating := ComputeAverageRating ratings, status := status } s.documents_
          document_ids_ := s.document_ids_ ++ [document_id] })

/-- The method `GetDocumentCount`. -/
def GetDocumentCount (s : SearchServer R) : Nat :=
  s.documents_.length

/-- The method `GetDocumentId`. -/
def GetDocumentId (s : SearchServer R) (index : Int) : Except Error Int :=
  vectorAt s.document_ids_ (toSizeT index)

/-- The method `ParseQueryWord`. -/
def ParseQueryWord (s : SearchServer R) (text : Str) : Except Error QueryWord :=
  if text.isEmpty then .error .invalid_argument
  else
    let is_minus := decide (text.head? = some '-')
    let word := if is_minus then text.drop 1 else text
    if word.isEmpty || decide (word.head? = some '-') || !IsValidWord word then
      .error .invalid_argument
    else .ok { data := word, is_minus := is_minus, is_stop := IsStopWord s word }

/-- The method `ParseQuery`. -/
def ParseQuery (s : SearchServer R) (text : Str) : Except Error Query :=
  (SplitIntoWords text).foldlM (fun result word => do
    let query_word ← ParseQueryWord s word
    if !query_word.is_stop then
      if query_word.is_minus then
        pure { result with minus_words := StdSet.insert query_word.data result.minus_words }
      else
        pure { result with plus_words := StdSet.insert query_word.data result.plus_words }
    else pure result) { plus_words := [], minus_words := [] }

/-- The method `ComputeWordInverseDocumentFreq`. -/
def ComputeWordInverseDocumentFreq (log : R → R) (s : SearchServer R) (word : Str) :
    Except Error R := do
  let postings ← StdMap.atKey s.word_to_document_freqs_ word
  pure (log ((GetDocumentCount s : R) * 1 / (postings.length : R)))

/-- The method `FindAllDocuments`. -/
def FindAllDocuments (log : R → R) (s : SearchServer R) (query : Query)
    (document_predicate : Int → DocumentStatus → Int → Bool) :
    Except Error (List (Document R)) := do
  let document_to_relevance ← query.plus_words.foldlM (fun document_to_relevance word =>
    if StdMap.count s.word_to_document_freqs_ word = 0 then pure document_to_relevance
    else do
      let inverse_document_freq ← ComputeWordInverseDocumentFreq log s word
      let postings ← StdMap.atKey s.word_to_document_freqs_ word
      postings.foldlM (fun document_to_relevance posting => do
        let document_data ← StdMap.atKey s.documents_ posting.1
        if document_predicate posting.1 document_data.status document_data.rating then
          pure (StdMap.modify posting.1
            (fun relevance => relevance.getD 0 + posting.2 * inverse_document_freq)
            document_to_relevance)
        else pure document_to_relevance) document_to_relevance)
    ([] : List (Int × R))
  let document_to_relevance ← query.minus_words.foldlM (fun document_to_relevance word =>
    if StdMap.count s.word_to_document_freqs_ word = 0 then pure document_to_relevance
    else do
      let postings ← StdMap.atKey s.word_to_document_freqs_ word
      pure (postings.foldl (fun document_to_relevance posting =>
        StdMap.erase posting.1 document_to_relevance) document_to_relevance))
    document_to_relevance
  document_to_relevance.mapM fun entry => do
    let document_data ← StdMap.atKey s.documents_ entry.1
    pure { id := entry.1, relevance := entry.2, rating := document_data.rating }

/-- The comparison passed to `std::sort` in `FindTopDocuments`. -/
def compareDocuments (lhs rhs : Document R) : Bool :=
  if |lhs.relevance - rhs.relevance| < 1 / 1000000 then decide (lhs.rating > rhs.rating)
  else decide (lhs.relevance > rhs.relevance)

/-- The method `FindTopDocuments(raw_query, document_predicate)`. -/
def FindTopDocuments (log : R → R) (s : SearchServer R) (raw_query : Str)
    (document_predicate : Int → DocumentStatus → Int → Bool) :
    Except Error (List (Document R)) := do
  let query ← ParseQuery s raw_query
  let matched_documents ← FindAllDocuments log s query document_predicate
  let matched_documents := sort compareDocuments matched_documents
  if matched_documents.length > MAX_RESULT_DOCUMENT_COUNT then
    pure (matched_documents.take MAX_RESULT_DOCUMENT_COUNT)
  else pure matched_documents

/-- The method `FindTopDocuments(raw_query, status)`. -/
def FindTopDocumentsByStatus (log : R → R) (s : SearchServer R) (raw_query : Str)
    (status : DocumentStatus) : Except Error (List (Document R)) :=
  FindTopDocuments log s raw_query fun _ document_status _ => decide (document_status = status)

/-- The method `FindTopDocuments(raw_query)`. -/
def FindTopDocumentsActual (log : R → R) (s : SearchServer R) (raw_query : Str) :
    Except Error (List (Document R)) :=
  FindTopDocumentsByStatus log s raw_query DocumentStatus.ACTUAL

/-- The second loop of `MatchDocument`, which clears the matched words and
stops at the first minus word that has a posting for the document. -/
def MatchDocument.minusLoop (s : SearchServer R) (document_id : Int) :
    List Str → List Str → Except Error (List Str)
  | [], matched_words => pure matched_words
  | word :: rest, matched_words =>
    if StdMap.count s.word_to_document_freqs_ word = 0 then
      MatchDocument.minusLoop s document_id rest matched_words
    else do
      let postings ← StdMap.atKey s.word_to_document_freqs_ word
      if StdMap.count postings document_id ≠ 0 then pure []
      else MatchDocument.minusLoop s document_id rest matched_words

/-- The method `MatchDocument`. -/
def MatchDocument (s : SearchServer R) (raw_query : Str) (document_id : Int) :
    Except Error (List Str × DocumentStatus) := do
  let query ← ParseQuery s raw_query
  let matched_words ← query.plus_words.foldlM (fun matched_words word =>
    if StdMap.count s.word_to_document_freqs_ word = 0 then pure matched_words
    else do
      let postings ← StdMap.atKey s.word_to_document_freqs_ word
      if StdMap.count postings document_id ≠ 0 then pure (matched_words ++ [word])
      else pure matched_words) ([] : List Str)
  let matched_words ← MatchDocument.minusLoop s document_id query.minus_words matched_words
  let document_data ← StdMap.atKey s.documents_ document_id
  pure (matched_words, document_data.status)

end Server

/-! ## Auxiliary definitions: well-formed maps, call sequences, the invariant -/

/-- A map is well formed when its keys are strictly ascending. -/
def StdMap.WF {K V : Type} [LinearOrder K] (m : List (K × V)) : Prop := (StdMap.keys m).Sorted (· < ·)

/-- The arguments of one call of `AddDocument`. -/
structure AddCall where
  document_id : Int
  document : Str
  status : DocumentStatus
  ratings : List Int

section Aux

variable {R : Type} [LinearOrderedField R]

/-- The words of a document that `AddDocument` indexes. -/
def indexedWords (s : SearchServer R) (document : Str) : List Str :=
  (SplitIntoWords document).filter (fun w => !IsStopWord s w)

/-- The body of the loop of `AddDocument`. -/
def addFreq (document_id : Int) (inv_word_count : R)
    (freqs : List (Str × List (Int × R))) (word : Str) : List (Str × List (Int × R)) :=
  StdMap.modify word (fun postings =>
    StdMap.modify document_id (fun freq => freq.getD 0 + inv_word_count)
      (postings.getD [])) freqs

/-- The server that `AddDocument` leaves when it returns. -/
def added (s : SearchServer R) (document_id : Int) (words : List Str)
    (status : DocumentStatus) (ratings : List Int) : SearchServer R :=
  { s with
    word_to_document_freqs_ :=
      words.foldl (addFreq document_id (1 / (words.length : R))) s.word_to_document_freqs_
    documents_ := StdMap.emplace document_id
      { rating := ComputeAverageRating ratings, status := status } s.documents_
    document_ids_ := s.document_ids_ ++ [document_id] }

/-- The condition under which `AddDocument` throws. -/
def rejected (s : SearchServer R) (document_id : Int) (document : Str) : Prop :=
  document_id < 0 ∨ document_id ∈ StdMap.keys s.documents_ ∨
    ∃ w ∈ SplitIntoWords document, ∃ c ∈ w, c.toNat < 32

/-- The call `AddDocument` with the arguments `c`. -/
def addCall (s : SearchServer R) (c : AddCall) : Except Error Unit × SearchServer R :=
  AddDocument s c.document_id c.document c.status c.ratings

/-- The server after a sequence of `AddDocument` calls, in which a call that
throws is caught and the sequence goes on. -/
def run (s : SearchServer R) : List AddCall → SearchServer R
  | [] => s
  | c :: cs => run (addCall s c).2 cs

/-- The calls of a sequence that returned without throwing, in call order. -/
def succeeded (s : SearchServer R) : List AddCall → List AddCall
  | [] => []
  | c :: cs =>
    match (addCall s c).1 with
    | .ok _ => c :: succeeded (addCall s c).2 cs
    | .error _ => succeeded (addCall s c).2 cs

/-- A server is reachable when it results from a successful construction
followed by `AddDocument` calls. -/
def Reachable (s : SearchServer R) : Prop :=
  ∃ (stop_words : List Str) (s₀ : SearchServer R) (calls : List AddCall),
    SearchServer.new stop_words = .ok s₀ ∧ run s₀ calls = s

/-- The invariant of the data members. -/
structure Inv (s : SearchServer R) : Prop where
  freqs_wf : StdMap.WF s.word_to_document_freqs_
  postings_wf : ∀ w p, StdMap.find? s.word_to_document_freqs_ w = some p → StdMap.WF p
  postings_ne : ∀ w p, StdMap.find? s.word_to_document_freqs_ w = some p → p ≠ []
  postings_ids : ∀ w p, StdMap.find? s.word_to_document_freqs_ w = some p →
    ∀ id ∈ StdMap.keys p, id ∈ StdMap.keys s.documents_
  documents_wf : StdMap.WF s.documents_
  ids_perm : s.document_ids_.Perm (StdMap.keys s.documents_)
  ids_nonneg : ∀ id ∈ StdMap.keys s.documents_, 0 ≤ id
  no_stop : ∀ w ∈ StdMap.keys s.word_to_document_freqs_, w ∉ s.stop_words_

end Aux

section AuxFind

variable {R : Type} [LinearOrderedField R]

/-- The body of the inner loop of the first loop of `FindAllDocuments`. -/
def scorePosting (s : SearchServer R) (document_predicate : Int → DocumentStatus → Int → Bool)
    (inverse_document_freq : R) (document_to_relevance : List (Int × R)) (posting : Int × R) :
    Except Error (List (Int × R)) := do
  let document_data ← StdMap.atKey s.documents_ posting.1
  if document_predicate posting.1 document_data.status document_data.rating then
    pure (StdMap.modify posting.1
      (fun relevance => relevance.getD 0 + posting.2 * inverse_document_freq)
      document_to_relevance)
  else pure document_to_relevance

/-- The body of the first loop of `FindAllDocuments`. -/
def scoreWord (log : R → R) (s : SearchServer R)
    (document_predicate : Int → DocumentStatus → Int → Bool)
    (document_to_relevance : List (Int × R)) (word : Str) : Except Error (List (Int × R)) :=
  if StdMap.count s.word_to_document_freqs_ word = 0 then pure document_to_relevance
  else do
    let inverse_document_freq ← ComputeWordInverseDocumentFreq log s word
    let postings ← StdMap.atKey s.word_to_document_freqs_ word
    postings.foldlM (scorePosting s document_predicate inverse_document_freq)
      document_to_relevance

/-- The body of the second loop of `FindAllDocuments`. -/
def vetoWord (s : SearchServer R) (document_to_relevance : List (Int × R)) (word : Str) :
    Except Error (List (Int × R)) :=
  if StdMap.count s.word_to_document_freqs_ word = 0 then pure document_to_relevance
  else do
    let postings ← StdMap.atKey s.word_to_document_freqs_ word
    pure (postings.foldl (fun document_to_relevance posting =>
      StdMap.erase posting.1 document_to_relevance) document_to_relevance)

/-- The effect of the second loop of `FindAllDocuments` for one word. -/
def vetoed (s : SearchServer R) (document_to_relevance : List (Int × R)) (word : Str) :
    List (Int × R) :=
  match StdMap.find? s.word_to_document_freqs_ word with
  | none => document_to_relevance
  | some postings => postings.foldl (fun document_to_relevance posting =>
      StdMap.erase posting.1 document_to_relevance) document_to_relevance

/-- The body of the last loop of `FindAllDocuments`. -/
def toDocument (s : SearchServer R) (entry : Int × R) : Except Error (Document R) := do
  let document_data ← StdMap.atKey s.documents_ entry.1
  pure { id := entry.1, relevance := entry.2, rating := document_data.rating }

/-- The document `d` has a posting for the word `w`. -/
def hasPosting (s : SearchServer R) (w : Str) (d : Int) : Prop :=
  ∃ postings, StdMap.find? s.word_to_document_freqs_ w = some postings ∧
    d ∈ StdMap.keys postings

end AuxFind

section AuxExamples

variable (R : Type) [LinearOrderedField R]

/-- The server that the constructor builds from a text of valid stop words. -/
def built (stop_words_text : Str) : SearchServer R :=
  { stop_words_ := MakeUniqueNonEmptyStrings (SplitIntoWords stop_words_text)
    word_to_document_freqs_ := []
    documents_ := []
    document_ids_ := [] }

/-- A server without stop words that holds the documents 1 "cat dog" and 2 "dog". -/
def catDogServer : SearchServer R :=
  run (built R [])
    [ { document_id := 1, document := "cat dog".toList, status := .ACTUAL, ratings := [] },
      { document_id := 2, document := "dog".toList, status := .ACTUAL, ratings := [] } ]

/-- A server without stop words that holds the document 5 "big dog sparrow". -/
def sparrowServer : SearchServer R :=
  run (built R [])
    [ { document_id := 5, document := "big dog sparrow".toList, status := .ACTUAL,
        ratings := [] } ]

/-- A server with the stop words "and in at" that holds the document
2 "curly dog and fancy collar". -/
def curlyServer : SearchServer R :=
  run (built R "and in at".toList)
    [ { document_id := 2, document := "curly dog and fancy collar".toList, status := .ACTUAL,
        ratings := [1, 2, 3] } ]

end AuxExamples

section AuxHits

variable {R : Type} [LinearOrderedField R]

/-- The document that `catDogServer` returns for the query "dog -cat". -/
def catDogHit (log : R → R) : Document R :=
  { id := 2
    relevance := 0 + (0 + 1 / ((1 : ℕ) : R)) * log (((2 : ℕ) : R) * 1 / ((2 : ℕ) : R))
    rating := 0 }

/-- The predicate of `FindTopDocuments(raw_query)`: the status is ACTUAL. -/
def actualOnly : Int → DocumentStatus → Int → Bool :=
  fun _ document_status _ => decide (document_status = DocumentStatus.ACTUAL)

end AuxHits


section AuxParse

variable {R : Type} [LinearOrderedField R]

/-- The word that `ParseQueryWord` keeps of a token: the token without its
leading '-' when it has one. -/
def stripped (t : Str) : Str :=
  if t.head? = some '-' then t.drop 1 else t

/-- The body of the loop of `ParseQuery`. -/
def parseStep (s : SearchServer R) (result : Query) (word : Str) : Except Error Query := do
  let query_word ← ParseQueryWord s word
  if !query_word.is_stop then
    if query_word.is_minus then
      pure { result with minus_words := StdSet.insert query_word.data result.minus_words }
    else
      pure { result with plus_words := StdSet.insert query_word.data result.plus_words }
  else pure result

/-- The effect of the loop body of `ParseQuery` for a token that is accepted. -/
def noted (s : SearchServer R) (result : Query) (t : Str) : Query :=
  if IsStopWord s (stripped t) then result
  else if t.head? = some '-' then
    { result with minus_words := StdSet.insert (stripped t) result.minus_words }
  else { result with plus_words := StdSet.insert (stripped t) result.plus_words }

/-- The test made in both loops of `MatchDocument`: the index has the word and
its postings have the document. -/
def postedIn (s : SearchServer R) (document_id : Int) (word : Str) : Bool :=
  match StdMap.find? s.word_to_document_freqs_ word with
  | none => false
  | some postings => (StdMap.find? postings document_id).isSome

end AuxParse

/-- The tokens that `ParseQueryWord` rejects: the token "-", a token that
begins with "--", and a token that, without its leading '-', holds a character
with code below 32. -/
def badToken (t : Str) : Prop :=
  t = ['-'] ∨ (∃ r, t = '-' :: '-' :: r) ∨ ∃ c ∈ stripped t, c.toNat < 32

/-- The body of the first loop of `MatchDocument`. -/
def matchStep {R : Type} [LinearOrderedField R] (s : SearchServer R) (document_id : Int)
    (matched_words : List Str) (word : Str) : Except Error (List Str) :=
  if StdMap.count s.word_to_document_freqs_ word = 0 then pure matched_words
  else do
    let postings ← StdMap.atKey s.word_to_document_freqs_ word
    if StdMap.count postings document_id ≠ 0 then pure (matched_words ++ [word])
    else pure matched_words

/-- The sum, over all the terms of the index, of the term frequency stored for
the document: a term without a posting for the document counts for 0. -/
def termFrequencySum {R : Type} [LinearOrderedField R] (s : SearchServer R)
    (document_id : Int) : R :=
  (s.word_to_document_freqs_.map fun entry => (StdMap.find? entry.2 document_id).getD 0).sum

/-! ## Auxiliary definitions for the tokens, the scoring and the helpers -/

/-- The maximal runs of characters that are not separators, in order: the
text is cut at every separator and the empty pieces are dropped. -/
def runsOutside (separator : Char → Bool) (text : Str) : List Str :=
  (text.splitOnP separator).filter fun w => !w.isEmpty

/-- The whitespace characters named by the specification: space, tab and
newline. -/
def isWhitespace (c : Char) : Bool :=
  c == ' ' || c == '\t' || c == '\n'

section AuxScore

variable {R : Type} [LinearOrderedField R]

/-- The term frequency stored for a word and a document,
`word_to_document_freqs_[word][document_id]`, when there is such a posting. -/
def posting? (freqs : List (Str × List (Int × R))) (word : Str) (document_id : Int) :
    Option R :=
  match StdMap.find? freqs word with
  | none => none
  | some postings => StdMap.find? postings document_id

/-- The predicate of a query holds on a stored document, with its status and
its rating. -/
def admits (s : SearchServer R) (p : Int → DocumentStatus → Int → Bool) (d : Int) : Bool :=
  match StdMap.find? s.documents_ d with
  | none => false
  | some document_data => p d document_data.status document_data.rating

/-- The number of postings of a word, `word_to_document_freqs_.at(word).size()`. -/
def postingCount (s : SearchServer R) (word : Str) : Nat :=
  match StdMap.find? s.word_to_document_freqs_ word with
  | none => 0
  | some postings => postings.length

/-- What the first loop of `FindAllDocuments` adds to the relevance of the
document `d` for the plus-word `word`, when it adds something. -/
def contribution (log : R → R) (s : SearchServer R) (p : Int → DocumentStatus → Int → Bool)
    (word : Str) (d : Int) : Option R :=
  match posting? s.word_to_document_freqs_ word d with
  | none => none
  | some term_freq =>
    if admits s p d then
      some (term_freq * log ((GetDocumentCount s : R) * 1 / (postingCount s word : R)))
    else none

end AuxScore

section AuxReference

variable (R : Type) [LinearOrderedField R]

/-- The server of `main`: the stop words "and in at" and the five documents. -/
def referenceServer : SearchServer R :=
  run (built R "and in at".toList)
    [ { document_id := 1, document := "curly cat curly tail".toList, status := .ACTUAL,
        ratings := [7, 2, 7] },
      { document_id := 2, document := "curly dog and fancy collar".toList, status := .ACTUAL,
        ratings := [1, 2, 3] },
      { document_id := 3, document := "big cat fancy collar ".toList, status := .ACTUAL,
        ratings := [1, 2, 8] },
      { document_id := 4, document := "big dog sparrow Eugene".toList, status := .ACTUAL,
        ratings := [1, 3, 2] },
      { document_id := 5, document := "big dog sparrow Vasiliy".toList, status := .ACTUAL,
        ratings := [1, 1, 1] } ]

end AuxReference

section AuxReferenceHits

variable {R : Type} [LinearOrderedField R]

/-- The entry of document 1 in the result of `referenceServer` for "curly dog". -/
def referenceHit1 (log : R → R) : Document R :=
  { id := 1
    relevance := 0 + (0 + 1 / ((4 : ℕ) : R) + 1 / ((4 : ℕ) : R))
      * log (((5 : ℕ) : R) * 1 / ((2 : ℕ) : R))
    rating := 5 }

/-- The entry of document 2 in the result of `referenceServer` for "curly dog". -/
def referenceHit2 (log : R → R) : Document R :=
  { id := 2
    relevance := 0 + (0 + 1 / ((4 : ℕ) : R)) * log (((5 : ℕ) : R) * 1 / ((2 : ℕ) : R))
      + (0 + 1 / ((4 : ℕ) : R)) * log (((5 : ℕ) : R) * 1 / ((3 : ℕ) : R))
    rating := 2 }

/-- The entry of document 4 in the result of `referenceServer` for "curly dog". -/
def referenceHit4 (log : R → R) : Document R :=
  { id := 4
    relevance := 0 + (0 + 1 / ((4 : ℕ) : R)) * log (((5 : ℕ) : R) * 1 / ((3 : ℕ) : R))
    rating := 2 }

/-- The entry of document 5 in the result of `referenceServer` for "curly dog". -/
def referenceHit5 (log : R → R) : Document R :=
  { id := 5
    relevance := 0 + (0 + 1 / ((4 : ℕ) : R)) * log (((5 : ℕ) : R) * 1 / ((3 : ℕ) : R))
    rating := 1 }

end AuxReferenceHits

/-! ## `RequestQueue` and `Paginator` -/

/-- The data members of `RequestQueue`, the reference to the server apart: the
methods below take the server as an argument. -/
structure RequestQueue where
  requests_ : List Bool
  empty_req_ : Int

/-- The constant `RequestQueue::min_in_day_`. -/
def RequestQueue.min_in_day_ : Nat := 1440

/-- The constructor of `RequestQueue`. It initialises the reference to the
server and nothing else: `empty_req_` has no initialiser, so its first value
is indeterminate; it is the argument `indeterminate`. -/
def RequestQueue.new (indeterminate : Int) : RequestQueue :=
  { requests_ := [], empty_req_ := indeterminate }

section AuxQueue

variable {R : Type} [LinearOrderedField R]

/-- The method `RequestQueue::AddFindRequest(raw_query)`. The second component
is the queue when the call ends. -/
def RequestQueue.AddFindRequest (log : R → R) (s : SearchServer R) (q : RequestQueue)
    (raw_query : Str) : Except Error Unit × RequestQueue :=
  if q.requests_.isEmpty ∨ q.requests_.length < RequestQueue.min_in_day_ then
    match FindTopDocumentsActual log s raw_query with
    | .error e => (.error e, q)
    | .ok a =>
      if a.isEmpty ∨ a.length = 0 then
        (.ok (), { requests_ := q.requests_ ++ [false],
                   empty_req_ := wrapInt (q.empty_req_ + 1) })
      else (.ok (), { q with requests_ := q.requests_ ++ [true] })
  else
    let empty_req_ : Int :=
      if q.requests_.head? = some false then wrapInt (q.empty_req_ - 1) else q.empty_req_
    let requests_ := q.requests_.tail
    match FindTopDocumentsActual log s raw_query with
    | .error e => (.error e, { requests_ := requests_, empty_req_ := empty_req_ })
    | .ok a =>
      if a.isEmpty ∨ a.length = 0 then
        (.ok (), { requests_ := requests_ ++ [false], empty_req_ := wrapInt (empty_req_ + 1) })
      else (.ok (), { requests_ := requests_ ++ [true], empty_req_ := empty_req_ })

/-- The method `RequestQueue::GetNoResultRequests`. -/
def RequestQueue.GetNoResultRequests (q : RequestQueue) : Int :=
  q.empty_req_

/-- The queue after a sequence of `AddFindRequest` calls on the same server. -/
def runRequests (log : R → R) (s : SearchServer R) (q : RequestQueue) :
    List Str → RequestQueue
  | [] => q
  | raw_query :: rest =>
    runRequests log s (RequestQueue.AddFindRequest log s q raw_query).2 rest

/-- The result of `FindTopDocuments(raw_query)` is a non-empty list. -/
def hasResults (log : R → R) (s : SearchServer R) (raw_query : Str) : Bool :=
  match FindTopDocumentsActual log s raw_query with
  | .ok a => !a.isEmpty
  | .error _ => false

end AuxQueue

/-- The last `n` elements of a list. -/
def lastN {α : Type} (n : Nat) (l : List α) : List α :=
  l.drop (l.length - n)

/-- The queries of `main`: 1439 times "empty request", then "curly dog",
"big collar" and "sparrow". -/
def mainQueries : List Str :=
  List.replicate 1439 "empty request".toList
    ++ ["curly dog".toList, "big collar".toList, "sparrow".toList]

/-- The data members of `Paginator` that its methods read. -/
structure Paginator (α : Type) where
  size_p : Int
  alldoc_ : List α
  docsort_ : List (List α)
  page_size_ : Nat

/-- The constructor of `Paginator`, for a range with the elements `c`. The
`int` member `size_p` first takes the length of the range; the remainder and
the quotient by `page_size` are computed in `size_t`. (A `resize` beyond
`max_size()` throws; this is not modelled.) -/
def Paginator.new {α : Type} (c : List α) (page_size : Nat) : Paginator α :=
  let size_p : Int := wrapInt c.length
  let size_p : Int :=
    if toSizeT size_p % page_size ≠ 0 then
      wrapInt (wrapInt (Int.ofNat (toSizeT size_p / page_size)) + 1)
    else wrapInt (Int.ofNat (toSizeT size_p / page_size))
  { size_p := size_p
    alldoc_ := c
    docsort_ := List.replicate (toSizeT size_p) []
    page_size_ := page_size }

/-- The statement `docsort_[lists].insert(docsort_[lists].begin() + x, doc)`.
It has no defined behaviour, here `none`, unless `lists` is the index of a
page and `x` a position in it or its end. -/
def Paginator.insertAt {α : Type} (docsort_ : List (List α)) (lists x : Int) (doc : α) :
    Option (List (List α)) :=
  if 0 ≤ lists ∧ 0 ≤ x then
    match docsort_.get? lists.toNat with
    | some page =>
      if x.toNat ≤ page.length then
        some (docsort_.set lists.toNat (page.take x.toNat ++ doc :: page.drop x.toNat))
      else none
    | none => none
  else none

/-- The loop of `Paginator::Sort`, with the variables `x` and `lists`. -/
def Paginator.Sort.loop {α : Type} (convert_pageS : Int) :
    List α → Int → Int → List (List α) → Option (List (List α))
  | [], _, _, docsort_ => some docsort_
  | doc :: rest, x, lists, docsort_ =>
    let inserted : Option (Int × List (List α)) :=
      if x < convert_pageS then
        match Paginator.insertAt docsort_ lists x doc with
        | some docsort_ => some (wrapInt (x + 1), docsort_)
        | none => none
      else some (x, docsort_)
    match inserted with
    | none => none
    | some (x, docsort_) =>
      if x = convert_pageS then
        Paginator.Sort.loop convert_pageS rest 0 (wrapInt (lists + 1)) docsort_
      else Paginator.Sort.loop convert_pageS rest x lists docsort_

/-- The method `Paginator::Sort`. -/
def Paginator.Sort {α : Type} (pg : Paginator α) : Option (List (List α)) :=
  Paginator.Sort.loop (wrapInt pg.page_size_) pg.alldoc_ 0 0 pg.docsort_

/-- The function `Paginate`. -/
def Paginate {α : Type} (c : List α) (page_size : Nat) : Option (List (List α)) :=
  (Paginator.new c page_size).Sort

/-- The first `n` pages of `l` when `l` is cut every `page_size` elements; a
page after the end of `l` is empty. -/
def fill {α : Type} (page_size : Nat) : List α → Nat → List (List α)
  | _, 0 => []
  | l, n + 1 => l.take page_size :: fill page_size (l.drop page_size) n

/-- The output of `FindAllDocuments` on `catDogServer` for the plus-word "dog":
both documents, each with the relevance `tf * log (2 / 2)`. -/
def catDogBoth {R : Type} [LinearOrderedField R] (log : R → R) : List (Document R) :=
  [ { id := 1
      relevance := 0 + (0 + 1 / ((2 : ℕ) : R)) * log (((2 : ℕ) : R) * 1 / ((2 : ℕ) : R))
      rating := 0 },
    { id := 2
      relevance := 0 + (0 + 1 / ((1 : ℕ) : R)) * log (((2 : ℕ) : R) * 1 / ((2 : ℕ) : R))
      rating := 0 } ]

/-- The first `AddDocument` call of `catDogServer`. -/
def catDogCall1 : AddCall :=
  { document_id := 1, document := "cat dog".toList, status := .ACTUAL, ratings := [] }

/-- The second `AddDocument` call of `catDogServer`. -/
def catDogCall2 : AddCall :=
  { document_id := 2, document := "dog".toList, status := .ACTUAL, ratings := [] }

/-! ## Facts about the maps -/

namespace StdMap

variable {K V : Type} [LinearOrder K]

theorem WF_nil : WF ([] : List (K × V)) := by simp [WF, keys]

theorem WF_cons {k : K} {v : V} {m : List (K × V)} :
    WF ((k, v) :: m) ↔ (∀ k' ∈ keys m, k < k') ∧ WF m := by
  simp [WF, keys]

theorem find?_eq_none_iff (m : List (K × V)) (k : K) : find? m k = none ↔ k ∉ keys m := by
  induction m with
  | nil => simp [find?, keys]
  | cons p m ih =>
    obtain ⟨k', v⟩ := p
    by_cases h : k' = k
    · simp [find?, keys, h]
    · have h' : ¬ k = k' := fun e => h e.symm
      simpa [find?, keys, h, h'] using ih

theorem find?_isSome_iff (m : List (K × V)) (k : K) : (find? m k).isSome ↔ k ∈ keys m := by
  rw [← not_iff_not, ← find?_eq_none_iff]
  cases find? m k <;> simp

theorem mem_of_find? {m : List (K × V)} {k : K} {v : V} (h : find? m k = some v) :
    (k, v) ∈ m := by
  induction m with
  | nil => simp [find?] at h
  | cons p m ih =>
    obtain ⟨k', v'⟩ := p
    by_cases hk : k' = k
    · simp [find?, hk] at h
      simp [hk, h]
    · simp [find?, hk] at h
      exact List.mem_cons_of_mem _ (ih h)

theorem find?_of_mem {m : List (K × V)} (wf : WF m) {k : K} {v : V} (h : (k, v) ∈ m) :
    find? m k = some v := by
  induction m with
  | nil => simp at h
  | cons p m ih =>
    obtain ⟨k', v'⟩ := p
    rw [WF_cons] at wf
    rcases List.mem_cons.1 h with e | e
    · cases e
      simp [find?]
    · have hk : k ∈ keys m := List.mem_map.2 ⟨(k, v), e, rfl⟩
      have hne : ¬ k' = k := ne_of_lt (wf.1 k hk)
      simp [find?, hne, ih wf.2 e]

theorem count_eq_zero_iff (m : List (K × V)) (k : K) : count m k = 0 ↔ find? m k = none := by
  unfold count
  cases find? m k <;> simp

theorem count_ne_zero_iff (m : List (K × V)) (k : K) : count m k ≠ 0 ↔ k ∈ keys m := by
  rw [Ne, count_eq_zero_iff, find?_eq_none_iff, not_not]

theorem count_pos_iff (m : List (K × V)) (k : K) : count m k > 0 ↔ k ∈ keys m := by
  rw [gt_iff_lt, Nat.pos_iff_ne_zero, count_ne_zero_iff]

theorem atKey_eq_ok_iff (m : List (K × V)) (k : K) (v : V) :
    atKey m k = .ok v ↔ find? m k = some v := by
  unfold atKey
  cases find? m k <;> simp

theorem atKey_eq_error_iff (m : List (K × V)) (k : K) (e : Error) :
    atKey m k = .error e ↔ (find? m k = none ∧ e = .out_of_range) := by
  unfold atKey
  cases find? m k <;> simp [eq_comm]

theorem keys_modify (k : K) (f : Option V → V) (m : List (K × V)) (k' : K) :
    k' ∈ keys (modify k f m) ↔ k' = k ∨ k' ∈ keys m := by
  induction m with
  | nil => simp [modify, keys]
  | cons p m ih =>
    obtain ⟨k₁, v₁⟩ := p
    unfold modify
    split
    · simp [keys]
    · split
      · rename_i h
        subst h
        simp [keys]
      · have : k' ∈ keys ((k₁, v₁) :: modify k f m) ↔ k' = k₁ ∨ k' ∈ keys (modify k f m) := by
          simp [keys]
        rw [this, ih]
        simp [keys]
        tauto

theorem WF_modify (k : K) (f : Option V → V) {m : List (K × V)} (wf : WF m) :
    WF (modify k f m) := by
  induction m with
  | nil => simp [modify, WF, keys]
  | cons p m ih =>
    obtain ⟨k₁, v₁⟩ := p
    have wf' := WF_cons.1 wf
    unfold modify
    split
    · rename_i h
      rw [WF_cons]
      refine ⟨?_, wf⟩
      intro k' hk'
      simp only [keys, List.map_cons, List.mem_cons] at hk'
      rcases hk' with e | e
      · rw [e]; exact h
      · exact lt_trans h (wf'.1 k' e)
    · split
      · rename_i h₁ h₂
        subst h₂
        rw [WF_cons]
        exact wf'
      · rename_i h₁ h₂
        rw [WF_cons]
        refine ⟨?_, ih wf'.2⟩
        intro k' hk'
        rcases (keys_modify k f m k').1 hk' with e | e
        · rw [e]
          exact lt_of_le_of_ne (not_lt.1 h₁) (fun e' => h₂ e'.symm)
        · exact wf'.1 k' e

theorem find?_modify_ne (k : K) (f : Option V → V) (m : List (K × V)) {k' : K} (h : k' ≠ k) :
    find? (modify k f m) k' = find? m k' := by
  have h' : ¬ k = k' := fun e => h e.symm
  induction m with
  | nil => simp [modify, find?, h']
  | cons p m ih =>
    obtain ⟨k₁, v₁⟩ := p
    unfold modify
    split
    · simp [find?, h']
    · split
      · rename_i h₁ h₂
        subst h₂
        simp [find?, h']
      · simp [find?, ih]

theorem find?_modify_self (k : K) (f : Option V → V) {m : List (K × V)} (wf : WF m) :
    find? (modify k f m) k = some (f (find? m k)) := by
  induction m with
  | nil => simp [modify, find?]
  | cons p m ih =>
    obtain ⟨k₁, v₁⟩ := p
    have wf' := WF_cons.1 wf
    unfold modify
    split
    · rename_i h
      have : ¬ k₁ = k := fun e => (ne_of_lt h) e.symm
      have hn : find? m k = none := by
        rw [find?_eq_none_iff]
        intro hk
        exact lt_asymm h (wf'.1 k hk)
      simp [find?, this, hn]
    · split
      · rename_i h₁ h₂
        subst h₂
        simp [find?]
      · rename_i h₁ h₂
        have : ¬ k₁ = k := fun e => h₂ e.symm
        simp [find?, this, ih wf'.2]

theorem keys_erase_subset (k : K) (m : List (K × V)) {k' : K} (h : k' ∈ keys (erase k m)) :
    k' ∈ keys m := by
  induction m with
  | nil => simpa [erase] using h
  | cons p m ih =>
    obtain ⟨k₁, v₁⟩ := p
    unfold erase at h
    split at h
    · simp [keys] at h ⊢
      exact Or.inr h
    · simp only [keys, List.map_cons, List.mem_cons] at h ⊢
      rcases h with e | e
      · exact Or.inl e
      · exact Or.inr (ih e)

theorem WF_erase (k : K) {m : List (K × V)} (wf : WF m) : WF (erase k m) := by
  induction m with
  | nil => simpa [erase] using wf
  | cons p m ih =>
    obtain ⟨k₁, v₁⟩ := p
    have wf' := WF_cons.1 wf
    unfold erase
    split
    · exact wf'.2
    · rw [WF_cons]
      exact ⟨fun k' hk' => wf'.1 k' (keys_erase_subset k m hk'), ih wf'.2⟩

theorem keys_erase (k : K) {m : List (K × V)} (wf : WF m) (k' : K) :
    k' ∈ keys (erase k m) ↔ k' ≠ k ∧ k' ∈ keys m := by
  induction m with
  | nil => simp [erase, keys]
  | cons p m ih =>
    obtain ⟨k₁, v₁⟩ := p
    have wf' := WF_cons.1 wf
    unfold erase
    split
    · rename_i h
      subst h
      constructor
      · intro hk
        exact ⟨ne_of_gt (wf'.1 k' hk), by simp [keys] at hk ⊢; exact Or.inr hk⟩
      · rintro ⟨hne, hk⟩
        simp only [keys, List.map_cons, List.mem_cons] at hk
        rcases hk with e | e
        · exact absurd e hne
        · exact e
    · rename_i h
      have e1 : k' ∈ keys ((k₁, v₁) :: erase k m) ↔ k' = k₁ ∨ k' ∈ keys (erase k m) := by
        simp [keys]
      have e2 : k' ∈ keys ((k₁, v₁) :: m) ↔ k' = k₁ ∨ k' ∈ keys m := by simp [keys]
      rw [e1, e2, ih wf'.2]
      constructor
      · rintro (e | ⟨a, b⟩)
        · exact ⟨by rw [e]; exact h, Or.inl e⟩
        · exact ⟨a, Or.inr b⟩
      · rintro ⟨a, e | b⟩
        · exact Or.inl e
        · exact Or.inr ⟨a, b⟩

theorem find?_erase_ne (k : K) (m : List (K × V)) {k' : K} (h : k' ≠ k) :
    find? (erase k m) k' = find? m k' := by
  induction m with
  | nil => simp [erase]
  | cons p m ih =>
    obtain ⟨k₁, v₁⟩ := p
    unfold erase
    split
    · rename_i h₁
      subst h₁
      have : ¬ k₁ = k' := fun e => h e.symm
      simp [find?, this]
    · simp [find?, ih]

theorem keys_nodup {m : List (K × V)} (wf : WF m) : (keys m).Nodup :=
  List.Sorted.nodup wf

end StdMap

namespace StdSet

variable {K : Type} [LinearOrder K]

theorem mem_insert (k : K) (s : List K) (k' : K) : k' ∈ insert k s ↔ k' = k ∨ k' ∈ s := by
  induction s with
  | nil => simp [insert]
  | cons a s ih =>
    unfold insert
    split
    · simp
    · split
      · rename_i h
        subst h
        simp
      · simp [ih]
        tauto

theorem sorted_insert (k : K) {s : List K} (h : s.Sorted (· < ·)) :
    (insert k s).Sorted (· < ·) := by
  induction s with
  | nil => simp [insert]
  | cons a s ih =>
    have h' := List.sorted_cons.1 h
    unfold insert
    split
    · rename_i h₁
      refine List.sorted_cons.2 ⟨?_, h⟩
      intro b hb
      rcases List.mem_cons.1 hb with e | e
      · rw [e]; exact h₁
      · exact lt_trans h₁ (h'.1 b e)
    · split
      · exact h
      · rename_i h₁ h₂
        refine List.sorted_cons.2 ⟨?_, ih h'.2⟩
        intro b hb
        rcases (mem_insert k s b).1 hb with e | e
        · rw [e]
          exact lt_of_le_of_ne (not_lt.1 h₁) (fun e' => h₂ e'.symm)
        · exact h'.1 b e

theorem count_pos_iff_mem (s : List K) (k : K) : count s k > 0 ↔ k ∈ s := by
  unfold count
  split <;> simp [*]

end StdSet

/-! ## Facts about splitting and word validation -/

theorem SplitIntoWords.loop_join (cs : List Char) (word : Str) (words : List Str) :
    (SplitIntoWords.loop cs word words).flatten
      = words.flatten ++ word ++ cs.filter (fun c => decide (c ≠ ' ')) := by
  induction cs generalizing word words with
  | nil =>
    unfold SplitIntoWords.loop
    cases word <;> simp
  | cons c cs ih =>
    unfold SplitIntoWords.loop
    by_cases hc : c = ' '
    · cases word with
      | nil => simp [hc, ih]
      | cons a w => simp [hc, ih]
    · simp [hc, ih]

theorem SplitIntoWords.loop_nonempty (cs : List Char) (word : Str) (words : List Str)
    (w : Str) (hw : w ∈ SplitIntoWords.loop cs word words) : w ∈ words ∨ w ≠ [] := by
  induction cs generalizing word words with
  | nil =>
    unfold SplitIntoWords.loop at hw
    cases word with
    | nil => simp at hw; exact Or.inl hw
    | cons a x =>
      simp at hw
      rcases hw with h | h
      · exact Or.inl h
      · exact Or.inr (by rw [h]; simp)
  | cons c cs ih =>
    unfold SplitIntoWords.loop at hw
    by_cases hc : c = ' '
    · cases word with
      | nil =>
        simp [hc] at hw
        exact ih _ _ hw
      | cons a x =>
        simp [hc] at hw
        rcases ih _ _ hw with h | h
        · simp at h
          rcases h with h | h
          · exact Or.inl h
          · exact Or.inr (by rw [h]; simp)
        · exact Or.inr h
    · simp [hc] at hw
      exact ih _ _ hw

theorem SplitIntoWords_ne_nil {text : Str} {w : Str} (hw : w ∈ SplitIntoWords text) : w ≠ [] := by
  rcases SplitIntoWords.loop_nonempty text [] [] w hw with h | h
  · simp at h
  · exact h

/-- The characters of the words of a text are its characters other than the space. -/
theorem mem_SplitIntoWords_iff (text : Str) (c : Char) :
    (∃ w ∈ SplitIntoWords text, c ∈ w) ↔ (c ∈ text ∧ c ≠ ' ') := by
  have h := SplitIntoWords.loop_join text [] []
  have : (∃ w ∈ SplitIntoWords text, c ∈ w) ↔ c ∈ (SplitIntoWords text).flatten := by
    simp [List.mem_flatten]
  rw [this]
  unfold SplitIntoWords
  rw [h]
  simp

theorem IsValidWord_eq_false_iff (word : Str) :
    IsValidWord word = false ↔ ∃ c ∈ word, c.toNat < 32 := by
  simp [IsValidWord]

theorem IsValidWord_eq_true_iff (word : Str) :
    IsValidWord word = true ↔ ∀ c ∈ word, 32 ≤ c.toNat := by
  simp [IsValidWord]

section ServerFacts

variable {R : Type} [LinearOrderedField R]

theorem IsStopWord_eq_true_iff (s : SearchServer R) (word : Str) :
    IsStopWord s word = true ↔ word ∈ s.stop_words_ := by
  simp [IsStopWord, StdSet.count_pos_iff_mem]

theorem SplitIntoWordsNoStop.foldlM_eq (s : SearchServer R) (tokens : List Str) (acc : List Str) :
    tokens.foldlM (fun words word =>
      if !IsValidWord word then (.error .invalid_argument : Except Error (List Str))
      else if !IsStopWord s word then .ok (words ++ [word])
      else .ok words) acc
    = if tokens.all IsValidWord then
        .ok (acc ++ tokens.filter (fun w => !IsStopWord s w))
      else .error .invalid_argument := by
  induction tokens generalizing acc with
  | nil => simp [pure, Except.pure]
  | cons t ts ih =>
    rw [List.foldlM_cons]
    by_cases hv : IsValidWord t = true
    · by_cases hs : IsStopWord s t = true
      · simp [hv, hs, bind, Except.bind] at ih ⊢
        rw [ih]
      · simp [hv, hs, bind, Except.bind] at ih ⊢
        rw [ih]
        simp
    · simp [hv, bind, Except.bind]

theorem SplitIntoWordsNoStop_eq (s : SearchServer R) (text : Str) :
    SplitIntoWordsNoStop s text
      = if (SplitIntoWords text).all IsValidWord then
          .ok ((SplitIntoWords text).filter (fun w => !IsStopWord s w))
        else .error .invalid_argument := by
  unfold SplitIntoWordsNoStop
  rw [SplitIntoWordsNoStop.foldlM_eq]
  simp

end ServerFacts

/-! ## Facts about `AddDocument` -/

section AddFacts

variable {R : Type} [LinearOrderedField R]

theorem AddDocument_of_rejected (s : SearchServer R) (document_id : Int) (document : Str)
    (status : DocumentStatus) (ratings : List Int) (h : rejected s document_id document) :
    AddDocument s document_id document status ratings = (.error .invalid_argument, s) := by
  unfold AddDocument
  by_cases h₁ : document_id < 0 ∨ StdMap.count s.documents_ document_id > 0
  · rw [if_pos h₁]
  · rw [if_neg h₁, SplitIntoWordsNoStop_eq]
    rw [StdMap.count_pos_iff] at h₁
    rcases h with h | h | ⟨w, hw, hc⟩
    · exact absurd (Or.inl h) h₁
    · exact absurd (Or.inr h) h₁
    · have : ¬ ((SplitIntoWords document).all IsValidWord = true) := by
        intro hall
        rw [List.all_eq_true] at hall
        have := hall w hw
        rw [IsValidWord_eq_true_iff] at this
        obtain ⟨c, hc, hlt⟩ := hc
        exact absurd (this c hc) (by omega)
      rw [if_neg this]

theorem AddDocument_of_not_rejected (s : SearchServer R) (document_id : Int) (document : Str)
    (status : DocumentStatus) (ratings : List Int) (h : ¬ rejected s document_id document) :
    AddDocument s document_id document status ratings
      = (.ok (), added s document_id (indexedWords s document) status ratings) := by
  unfold AddDocument
  unfold rejected at h
  push_neg at h
  have h₁ : ¬ (document_id < 0 ∨ StdMap.count s.documents_ document_id > 0) := by
    rw [StdMap.count_pos_iff]
    push_neg
    exact ⟨h.1, h.2.1⟩
  rw [if_neg h₁, SplitIntoWordsNoStop_eq]
  have : (SplitIntoWords document).all IsValidWord = true := by
    rw [List.all_eq_true]
    intro w hw
    rw [IsValidWord_eq_true_iff]
    exact h.2.2 w hw
  rw [if_pos this]
  rfl

end AddFacts

/-! ## Sequences of calls and the invariant of the server -/

section Reach

variable {R : Type} [LinearOrderedField R]

theorem StdMap.modify_ne_nil {K V : Type} [LinearOrder K] (k : K) (f : Option V → V)
    (m : List (K × V)) : StdMap.modify k f m ≠ [] := by
  cases m with
  | nil => simp [StdMap.modify]
  | cons p m =>
    obtain ⟨k₁, v₁⟩ := p
    unfold StdMap.modify
    split
    · simp
    · split <;> simp

theorem StdMap.keys_modify_perm {K V : Type} [LinearOrder K] (k : K) (f : Option V → V)
    (m : List (K × V)) (h : k ∉ StdMap.keys m) :
    (StdMap.keys (StdMap.modify k f m)).Perm (k :: StdMap.keys m) := by
  induction m with
  | nil => simp [StdMap.modify, StdMap.keys]
  | cons p m ih =>
    obtain ⟨k₁, v₁⟩ := p
    have hk : k ≠ k₁ ∧ k ∉ StdMap.keys m := by
      simp only [StdMap.keys, List.map_cons, List.mem_cons, not_or] at h
      exact h
    unfold StdMap.modify
    split
    · exact List.Perm.refl _
    · rw [if_neg hk.1]
      have : StdMap.keys ((k₁, v₁) :: StdMap.modify k f m)
          = k₁ :: StdMap.keys (StdMap.modify k f m) := rfl
      rw [this]
      exact ((ih hk.2).cons k₁).trans (List.Perm.swap k k₁ _)

theorem StdMap.find?_nil {K V : Type} [LinearOrder K] (k : K) :
    StdMap.find? ([] : List (K × V)) k = none := rfl

/-- One step of the loop of `AddDocument` keeps the part of the invariant that
concerns the index, for any set `D` of ids that holds the new id. -/
theorem addFreq_keeps (document_id : Int) (inv : R) (stop : List Str) (D : List Int)
    (hD : document_id ∈ D) (freqs : List (Str × List (Int × R))) (word : Str)
    (hword : word ∉ stop)
    (wf : StdMap.WF freqs)
    (hp : ∀ w p, StdMap.find? freqs w = some p →
      StdMap.WF p ∧ p ≠ [] ∧ ∀ id ∈ StdMap.keys p, id ∈ D)
    (hs : ∀ w ∈ StdMap.keys freqs, w ∉ stop) :
    StdMap.WF (addFreq document_id inv freqs word) ∧
    (∀ w p, StdMap.find? (addFreq document_id inv freqs word) w = some p →
      StdMap.WF p ∧ p ≠ [] ∧ ∀ id ∈ StdMap.keys p, id ∈ D) ∧
    (∀ w ∈ StdMap.keys (addFreq document_id inv freqs word), w ∉ stop) := by
  refine ⟨StdMap.WF_modify _ _ wf, ?_, ?_⟩
  · intro w p hfind
    unfold addFreq at hfind
    by_cases hw : w = word
    · subst hw
      rw [StdMap.find?_modify_self _ _ wf] at hfind
      have hfind := (Option.some.inj hfind).symm
      have hold : StdMap.WF ((StdMap.find? freqs w).getD []) ∧
          ∀ id ∈ StdMap.keys ((StdMap.find? freqs w).getD []), id ∈ D := by
        cases h : StdMap.find? freqs w with
        | none => simp [StdMap.WF_nil, StdMap.keys]
        | some q => exact ⟨(hp w q h).1, (hp w q h).2.2⟩
      rw [hfind]
      refine ⟨StdMap.WF_modify _ _ hold.1, StdMap.modify_ne_nil _ _ _, ?_⟩
      intro id hid
      rcases (StdMap.keys_modify _ _ _ _).1 hid with e | e
      · rw [e]; exact hD
      · exact hold.2 id e
    · rw [StdMap.find?_modify_ne _ _ _ hw] at hfind
      exact hp w p hfind
  · intro w hw
    unfold addFreq at hw
    rcases (StdMap.keys_modify _ _ _ _).1 hw with e | e
    · rw [e]; exact hword
    · exact hs w e

theorem foldl_addFreq_keeps (document_id : Int) (inv : R) (stop : List Str) (D : List Int)
    (hD : document_id ∈ D) (words : List Str) (freqs : List (Str × List (Int × R)))
    (hwords : ∀ w ∈ words, w ∉ stop)
    (wf : StdMap.WF freqs)
    (hp : ∀ w p, StdMap.find? freqs w = some p →
      StdMap.WF p ∧ p ≠ [] ∧ ∀ id ∈ StdMap.keys p, id ∈ D)
    (hs : ∀ w ∈ StdMap.keys freqs, w ∉ stop) :
    StdMap.WF (words.foldl (addFreq document_id inv) freqs) ∧
    (∀ w p, StdMap.find? (words.foldl (addFreq document_id inv) freqs) w = some p →
      StdMap.WF p ∧ p ≠ [] ∧ ∀ id ∈ StdMap.keys p, id ∈ D) ∧
    (∀ w ∈ StdMap.keys (words.foldl (addFreq document_id inv) freqs), w ∉ stop) := by
  induction words generalizing freqs with
  | nil => exact ⟨wf, hp, hs⟩
  | cons x xs ih =>
    rw [List.foldl_cons]
    obtain ⟨a, b, c⟩ := addFreq_keeps document_id inv stop D hD freqs x
      (hwords x (List.mem_cons_self _ _)) wf hp hs
    exact ih _ (fun w hw => hwords w (List.mem_cons_of_mem _ hw)) a b c

theorem indexedWords_not_stop (s : SearchServer R) (document : Str) :
    ∀ w ∈ indexedWords s document, w ∉ s.stop_words_ := by
  intro w hw
  unfold indexedWords at hw
  rw [List.mem_filter] at hw
  intro hmem
  have := (IsStopWord_eq_true_iff s w).2 hmem
  simp [this] at hw

theorem Inv_new (stop_words : List Str) (s₀ : SearchServer R)
    (h : SearchServer.new stop_words = .ok s₀) : Inv s₀ := by
  unfold SearchServer.new at h
  simp only [] at h
  split at h
  · cases h
  · cases h
    constructor <;> simp [StdMap.WF_nil, StdMap.find?_nil, StdMap.keys]

theorem Inv_added (s : SearchServer R) (hs : Inv s) (document_id : Int) (document : Str)
    (status : DocumentStatus) (ratings : List Int) (h : ¬ rejected s document_id document) :
    Inv (added s document_id (indexedWords s document) status ratings) := by
  unfold rejected at h
  push_neg at h
  have hkeys : ∀ id, id ∈ StdMap.keys (StdMap.emplace document_id
      ({ rating := ComputeAverageRating ratings, status := status } : DocumentData)
      s.documents_) ↔ id = document_id ∨ id ∈ StdMap.keys s.documents_ :=
    fun id => StdMap.keys_modify _ _ _ _
  obtain ⟨a, b, c⟩ := foldl_addFreq_keeps document_id
    (1 / ((indexedWords s document).length : R)) s.stop_words_
    (StdMap.keys (StdMap.emplace document_id
      ({ rating := ComputeAverageRating ratings, status := status } : DocumentData)
      s.documents_))
    ((hkeys _).2 (Or.inl rfl)) (indexedWords s document) s.word_to_document_freqs_
    (indexedWords_not_stop s document) hs.freqs_wf
    (fun w p hf => ⟨hs.postings_wf w p hf, hs.postings_ne w p hf,
      fun id hid => (hkeys id).2 (Or.inr (hs.postings_ids w p hf id hid))⟩)
    hs.no_stop
  constructor
  · exact a
  · exact fun w p hf => (b w p hf).1
  · exact fun w p hf => (b w p hf).2.1
  · exact fun w p hf => (b w p hf).2.2
  · exact StdMap.WF_modify _ _ hs.documents_wf
  · show (s.document_ids_ ++ [document_id]).Perm _
    refine List.Perm.trans ?_ (StdMap.keys_modify_perm _ _ _ h.2.1).symm
    refine List.Perm.trans List.perm_append_comm ?_
    exact List.Perm.cons _ hs.ids_perm
  · intro id hid
    rcases (hkeys id).1 hid with e | e
    · rw [e]; exact h.1
    · exact hs.ids_nonneg id e
  · exact c

theorem Inv_addCall (s : SearchServer R) (hs : Inv s) (c : AddCall) : Inv (addCall s c).2 := by
  unfold addCall
  by_cases h : rejected s c.document_id c.document
  · rw [AddDocument_of_rejected _ _ _ _ _ h]
    exact hs
  · rw [AddDocument_of_not_rejected _ _ _ _ _ h]
    exact Inv_added s hs _ _ _ _ h

theorem Inv_run (s : SearchServer R) (hs : Inv s) (calls : List AddCall) : Inv (run s calls) := by
  induction calls generalizing s with
  | nil => exact hs
  | cons c cs ih => exact ih _ (Inv_addCall s hs c)

theorem Reachable.inv {s : SearchServer R} (h : Reachable s) : Inv s := by
  obtain ⟨stop_words, s₀, calls, h₀, rfl⟩ := h
  exact Inv_run s₀ (Inv_new stop_words s₀ h₀) calls

end Reach

/-! ## C1: failure of `AddDocument` -/

section Claim1

variable {R : Type} [LinearOrderedField R]

theorem rejected_iff (s : SearchServer R) (document_id : Int) (document : Str) :
    rejected s document_id document ↔
      (document_id < 0 ∨ StdMap.count s.documents_ document_id > 0 ∨
        ∃ w ∈ SplitIntoWords document, ∃ c ∈ w, c.toNat < 32) := by
  unfold rejected
  rw [StdMap.count_pos_iff]

theorem control_in_word_iff (document : Str) :
    (∃ w ∈ SplitIntoWords document, ∃ c ∈ w, c.toNat < 32) ↔ ∃ c ∈ document, c.toNat < 32 := by
  constructor
  · rintro ⟨w, hw, c, hc, hlt⟩
    exact ⟨c, ((mem_SplitIntoWords_iff document c).1 ⟨w, hw, hc⟩).1, hlt⟩
  · rintro ⟨c, hc, hlt⟩
    have hne : c ≠ ' ' := by
      intro e
      rw [e] at hlt
      exact absurd hlt (by decide)
    obtain ⟨w, hw, hcw⟩ := (mem_SplitIntoWords_iff document c).2 ⟨hc, hne⟩
    exact ⟨w, hw, c, hcw, hlt⟩

/-- C1: a call `AddDocument(id, text, status, ratings)` throws exactly when
`id < 0`, or `id` is already stored, or some space-delimited token of the text
holds a character with code below 32 (which is the same as the text holding
such a character); and when it throws, the server, hence `GetDocumentCount`,
is exactly what it was before the call. -/
theorem C1_AddDocument_fails_iff (s : SearchServer R) (document_id : Int) (document : Str)
    (status : DocumentStatus) (ratings : List Int) :
    ((∃ e, (AddDocument s document_id document status ratings).1 = .error e) ↔
      (document_id < 0 ∨ StdMap.count s.documents_ document_id > 0 ∨
        ∃ w ∈ SplitIntoWords document, ∃ c ∈ w, c.toNat < 32)) ∧
    ((∃ w ∈ SplitIntoWords document, ∃ c ∈ w, c.toNat < 32) ↔
      ∃ c ∈ document, c.toNat < 32) ∧
    ((∃ e, (AddDocument s document_id document status ratings).1 = .error e) →
      (AddDocument s document_id document status ratings).2 = s ∧
      GetDocumentCount (AddDocument s document_id document status ratings).2
        = GetDocumentCount s) := by
  rw [← rejected_iff]
  by_cases h : rejected s document_id document
  · rw [AddDocument_of_rejected _ _ _ _ _ h]
    exact ⟨⟨fun _ => h, fun _ => ⟨_, rfl⟩⟩, control_in_word_iff document, fun _ => ⟨rfl, rfl⟩⟩
  · rw [AddDocument_of_not_rejected _ _ _ _ _ h]
    refine ⟨⟨?_, fun h' => absurd h' h⟩, control_in_word_iff document, ?_⟩
    · rintro ⟨e, he⟩
      cases he
    · rintro ⟨e, he⟩
      cases he

end Claim1

/-! ## Facts about `std::sort` and `FindAllDocuments` -/

theorem sort.place_perm {α : Type} (comp : α → α → Bool) (x : α) (l : List α) :
    (sort.place comp x l).Perm (x :: l) := by
  induction l with
  | nil => simp [sort.place]
  | cons y ys ih =>
    unfold sort.place
    split
    · exact (ih.cons y).trans (List.Perm.swap x y ys)
    · exact List.Perm.refl _

theorem sort_perm {α : Type} (comp : α → α → Bool) (l : List α) : (sort comp l).Perm l := by
  induction l with
  | nil => simp [sort]
  | cons x xs ih =>
    unfold sort
    exact (sort.place_perm comp x _).trans (ih.cons x)

theorem foldlM_ok {α β : Type} (f : β → α → β) (l : List α) (b : β) :
    l.foldlM (fun b a => (Except.ok (f b a) : Except Error β)) b = .ok (l.foldl f b) := by
  induction l generalizing b with
  | nil => rfl
  | cons a l ih => rw [List.foldlM_cons]; exact ih _

theorem foldlM_keeps {α β : Type} (P : β → Prop) (f : β → α → Except Error β)
    (hf : ∀ b a b', P b → f b a = .ok b' → P b') (l : List α) (b r : β) (hb : P b)
    (h : l.foldlM f b = .ok r) : P r := by
  induction l generalizing b with
  | nil =>
    cases h
    exact hb
  | cons a l ih =>
    rw [List.foldlM_cons] at h
    cases hfa : f b a with
    | error e => rw [hfa] at h; cases h
    | ok b' =>
      rw [hfa] at h
      exact ih b' (hf b a b' hb hfa) h

section FindFacts

variable {R : Type} [LinearOrderedField R]

theorem FindAllDocuments_eq (log : R → R) (s : SearchServer R) (query : Query)
    (document_predicate : Int → DocumentStatus → Int → Bool) :
    FindAllDocuments log s query document_predicate
      = (do
          let a ← query.plus_words.foldlM (scoreWord log s document_predicate) []
          let b ← query.minus_words.foldlM (vetoWord s) a
          b.mapM (toDocument s)) := rfl

theorem scorePosting_WF (s : SearchServer R) (p : Int → DocumentStatus → Int → Bool) (idf : R)
    (m : List (Int × R)) (e : Int × R) (m' : List (Int × R)) (wf : StdMap.WF m)
    (h : scorePosting s p idf m e = .ok m') : StdMap.WF m' := by
  unfold scorePosting at h
  cases hd : StdMap.atKey s.documents_ e.1 with
  | error x => rw [hd] at h; cases h
  | ok d =>
    rw [hd] at h
    simp only [bind, Except.bind, pure, Except.pure] at h
    split at h
    · cases h
      exact StdMap.WF_modify _ _ wf
    · cases h
      exact wf

theorem scoreWord_WF (log : R → R) (s : SearchServer R) (p : Int → DocumentStatus → Int → Bool)
    (m : List (Int × R)) (w : Str) (m' : List (Int × R)) (wf : StdMap.WF m)
    (h : scoreWord log s p m w = .ok m') : StdMap.WF m' := by
  unfold scoreWord at h
  split at h
  · cases h
    exact wf
  · cases hi : ComputeWordInverseDocumentFreq log s w with
    | error x => rw [hi] at h; cases h
    | ok idf =>
      cases hp : StdMap.atKey s.word_to_document_freqs_ w with
      | error x => rw [hi, hp] at h; cases h
      | ok postings =>
        rw [hi, hp] at h
        exact foldlM_keeps StdMap.WF _ (fun b a b' hb hf => scorePosting_WF s p idf b a b' hb hf)
          postings m m' wf h

theorem vetoWord_eq (s : SearchServer R) (m : List (Int × R)) (w : Str) :
    vetoWord s m w = .ok (vetoed s m w) := by
  unfold vetoWord vetoed
  by_cases h : StdMap.count s.word_to_document_freqs_ w = 0
  · rw [if_pos h]
    rw [StdMap.count_eq_zero_iff] at h
    rw [h]
    rfl
  · rw [if_neg h]
    rw [StdMap.count_eq_zero_iff] at h
    cases hf : StdMap.find? s.word_to_document_freqs_ w with
    | none => exact absurd hf h
    | some postings =>
      have : StdMap.atKey s.word_to_document_freqs_ w = .ok postings :=
        (StdMap.atKey_eq_ok_iff _ _ _).2 hf
      rw [this]
      rfl

theorem foldlM_vetoWord (s : SearchServer R) (words : List Str) (m : List (Int × R)) :
    words.foldlM (vetoWord s) m = .ok (words.foldl (vetoed s) m) := by
  have : vetoWord s = fun b a => (Except.ok (vetoed s b a) : Except Error _) := by
    funext b a
    exact vetoWord_eq s b a
  rw [this]
  exact foldlM_ok _ _ _

theorem erase_postings (postings : List (Int × R)) (m : List (Int × R)) (wf : StdMap.WF m) :
    StdMap.WF (postings.foldl (fun m e => StdMap.erase e.1 m) m) ∧
    (∀ id, id ∈ StdMap.keys (postings.foldl (fun m e => StdMap.erase e.1 m) m) ↔
      (id ∈ StdMap.keys m ∧ id ∉ StdMap.keys postings)) ∧
    (∀ id, id ∉ StdMap.keys postings →
      StdMap.find? (postings.foldl (fun m e => StdMap.erase e.1 m) m) id = StdMap.find? m id) := by
  induction postings generalizing m with
  | nil => simp [wf, StdMap.keys]
  | cons e es ih =>
    rw [List.foldl_cons]
    obtain ⟨a, b, c⟩ := ih (StdMap.erase e.1 m) (StdMap.WF_erase _ wf)
    refine ⟨a, ?_, ?_⟩
    · intro id
      rw [b id, StdMap.keys_erase _ wf]
      simp only [StdMap.keys, List.map_cons, List.mem_cons, not_or]
      tauto
    · intro id hid
      simp only [StdMap.keys, List.map_cons, List.mem_cons, not_or] at hid
      rw [c id hid.2, StdMap.find?_erase_ne _ _ hid.1]

theorem vetoed_spec (s : SearchServer R) (m : List (Int × R)) (w : Str) (wf : StdMap.WF m) :
    StdMap.WF (vetoed s m w) ∧
    (∀ id, id ∈ StdMap.keys (vetoed s m w) ↔ (id ∈ StdMap.keys m ∧ ¬ hasPosting s w id)) ∧
    (∀ id, ¬ hasPosting s w id → StdMap.find? (vetoed s m w) id = StdMap.find? m id) := by
  unfold vetoed hasPosting
  cases hf : StdMap.find? s.word_to_document_freqs_ w with
  | none => simp [wf]
  | some postings =>
    obtain ⟨a, b, c⟩ := erase_postings postings m wf
    refine ⟨a, ?_, ?_⟩
    · intro id
      simp only [Option.some.injEq, exists_eq_left']
      exact b id
    · intro id hid
      simp only [Option.some.injEq, exists_eq_left'] at hid
      exact c id hid

theorem foldl_vetoed_spec (s : SearchServer R) (words : List Str) (m : List (Int × R))
    (wf : StdMap.WF m) :
    StdMap.WF (words.foldl (vetoed s) m) ∧
    (∀ id, id ∈ StdMap.keys (words.foldl (vetoed s) m) ↔
      (id ∈ StdMap.keys m ∧ ∀ w ∈ words, ¬ hasPosting s w id)) ∧
    (∀ id, (∀ w ∈ words, ¬ hasPosting s w id) →
      StdMap.find? (words.foldl (vetoed s) m) id = StdMap.find? m id) := by
  induction words generalizing m with
  | nil => simp [wf]
  | cons w ws ih =>
    rw [List.foldl_cons]
    obtain ⟨a, b, c⟩ := vetoed_spec s m w wf
    obtain ⟨a', b', c'⟩ := ih (vetoed s m w) a
    refine ⟨a', ?_, ?_⟩
    · intro id
      rw [b' id, b id]
      simp only [List.mem_cons, forall_eq_or_imp]
      tauto
    · intro id hid
      simp only [List.mem_cons, forall_eq_or_imp] at hid
      rw [c' id hid.2, c id hid.1]

theorem mapM_toDocument (s : SearchServer R) (m : List (Int × R)) (docs : List (Document R))
    (h : m.mapM (toDocument s) = .ok docs) :
    docs.map (fun d => (d.id, d.relevance)) = m ∧
    ∀ d ∈ docs, ∃ data, StdMap.find? s.documents_ d.id = some data ∧ d.rating = data.rating := by
  induction m generalizing docs with
  | nil =>
    rw [List.mapM_nil] at h
    cases h
    simp
  | cons e es ih =>
    rw [List.mapM_cons] at h
    cases hd : toDocument s e with
    | error x => rw [hd] at h; cases h
    | ok d =>
      cases hr : es.mapM (toDocument s) with
      | error x => rw [hd, hr] at h; cases h
      | ok ds =>
        rw [hd, hr] at h
        cases h
        obtain ⟨a, b⟩ := ih ds hr
        unfold toDocument at hd
        cases hk : StdMap.atKey s.documents_ e.1 with
        | error x => rw [hk] at hd; cases hd
        | ok data =>
          rw [hk] at hd
          cases hd
          refine ⟨by simp [a], ?_⟩
          intro d hd
          rcases List.mem_cons.1 hd with h1 | h1
          · subst h1
            exact ⟨data, (StdMap.atKey_eq_ok_iff _ _ _).1 hk, rfl⟩
          · exact b d h1

/-- What `FindAllDocuments` returns: the entries of a well-formed map from ids
to relevances, of which the second loop has removed every id with a posting
for a minus word. -/
theorem FindAllDocuments_ok (log : R → R) (s : SearchServer R) (query : Query)
    (p : Int → DocumentStatus → Int → Bool) (docs : List (Document R))
    (h : FindAllDocuments log s query p = .ok docs) :
    ∃ a : List (Int × R),
      query.plus_words.foldlM (scoreWord log s p) [] = .ok a ∧ StdMap.WF a ∧
      docs.map (fun d => (d.id, d.relevance)) = query.minus_words.foldl (vetoed s) a ∧
      ∀ d ∈ docs, ∃ data, StdMap.find? s.documents_ d.id = some data ∧
        d.rating = data.rating := by
  rw [FindAllDocuments_eq] at h
  cases ha : query.plus_words.foldlM (scoreWord log s p) [] with
  | error x => rw [ha] at h; cases h
  | ok a =>
    rw [ha] at h
    simp only [bind, Except.bind] at h
    rw [foldlM_vetoWord] at h
    simp only [] at h
    have wf : StdMap.WF a :=
      foldlM_keeps StdMap.WF _ (fun b w b' hb hf => scoreWord_WF log s p b w b' hb hf)
        _ _ _ StdMap.WF_nil ha
    obtain ⟨e1, e2⟩ := mapM_toDocument s _ docs h
    exact ⟨a, rfl, wf, e1, e2⟩

theorem ids_eq_keys (docs : List (Document R)) (m : List (Int × R))
    (h : docs.map (fun d => (d.id, d.relevance)) = m) :
    docs.map (fun d => d.id) = StdMap.keys m := by
  rw [← h]
  simp [StdMap.keys]

end FindFacts

/-! ## C2, C3, C4: the result of `FindTopDocuments` -/

section TopFacts

variable {R : Type} [LinearOrderedField R]

theorem FindTopDocuments_eq (log : R → R) (s : SearchServer R) (raw_query : Str)
    (p : Int → DocumentStatus → Int → Bool) :
    FindTopDocuments log s raw_query p
      = (do
          let query ← ParseQuery s raw_query
          let matched_documents ← FindAllDocuments log s query p
          pure ((sort compareDocuments matched_documents).take MAX_RESULT_DOCUMENT_COUNT)) := by
  unfold FindTopDocuments
  cases hq : ParseQuery s raw_query with
  | error e => rfl
  | ok query =>
    cases hall : FindAllDocuments log s query p with
    | error e =>
      simp only [bind, Except.bind, hall]
    | ok all =>
      simp only [bind, Except.bind, hall]
      by_cases h : (sort compareDocuments all).length > MAX_RESULT_DOCUMENT_COUNT
      · rw [if_pos h]
      · rw [if_neg h, List.take_of_length_le (not_lt.1 h)]

theorem FindTopDocuments_of_ok (log : R → R) (s : SearchServer R) (raw_query : Str)
    (p : Int → DocumentStatus → Int → Bool) (query : Query) (all : List (Document R))
    (hq : ParseQuery s raw_query = .ok query)
    (hall : FindAllDocuments log s query p = .ok all) :
    FindTopDocuments log s raw_query p
      = .ok ((sort compareDocuments all).take MAX_RESULT_DOCUMENT_COUNT) := by
  rw [FindTopDocuments_eq, hq]
  simp only [bind, Except.bind]
  rw [hall]
  rfl

theorem FindTopDocuments_ok (log : R → R) (s : SearchServer R) (raw_query : Str)
    (p : Int → DocumentStatus → Int → Bool) (docs : List (Document R))
    (h : FindTopDocuments log s raw_query p = .ok docs) :
    ∃ query all, ParseQuery s raw_query = .ok query ∧
      FindAllDocuments log s query p = .ok all ∧
      docs = (sort compareDocuments all).take MAX_RESULT_DOCUMENT_COUNT := by
  rw [FindTopDocuments_eq] at h
  cases hq : ParseQuery s raw_query with
  | error e => rw [hq] at h; cases h
  | ok query =>
    rw [hq] at h
    simp only [bind, Except.bind] at h
    cases hall : FindAllDocuments log s query p with
    | error e => rw [hall] at h; cases h
    | ok all =>
      rw [hall] at h
      cases h
      exact ⟨query, all, rfl, hall, rfl⟩

end TopFacts

section TopClaims

variable {R : Type} [LinearOrderedField R]

theorem FindAllDocuments_no_minus (log : R → R) (s : SearchServer R) (query : Query)
    (p : Int → DocumentStatus → Int → Bool) (all : List (Document R))
    (h : FindAllDocuments log s query p = .ok all) :
    ∀ d ∈ all, ∀ w ∈ query.minus_words, ¬ hasPosting s w d.id := by
  obtain ⟨a, _, wf, e, _⟩ := FindAllDocuments_ok log s query p all h
  intro d hd w hw
  have : d.id ∈ StdMap.keys (query.minus_words.foldl (vetoed s) a) := by
    rw [← ids_eq_keys all _ e]
    exact List.mem_map.2 ⟨d, hd, rfl⟩
  exact ((foldl_vetoed_spec s query.minus_words a wf).2.1 d.id).1 this |>.2 w hw

/-- C2: no document returned by `FindTopDocuments` has a posting for a
minus-word of the parsed query, whatever the server, the query and the
predicate, hence also when the document matches a plus-word or the word is
both a plus-word and a minus-word. With the documents 1 "cat dog" and 2 "dog"
and no stop words, `FindTopDocuments("dog -cat")` returns exactly one
document, the one with id 2. -/
theorem C2_minus_word_vetoes :
    (∀ (log : R → R) (s : SearchServer R) (raw_query : Str)
        (p : Int → DocumentStatus → Int → Bool) (query : Query) (docs : List (Document R)),
        ParseQuery s raw_query = .ok query →
        FindTopDocuments log s raw_query p = .ok docs →
        ∀ d ∈ docs, ∀ w ∈ query.minus_words, ¬ hasPosting s w d.id) ∧
    (∀ log : R → R,
      (FindTopDocumentsActual log (catDogServer R) "dog -cat".toList).map
        (List.map fun d => d.id) = .ok [2]) := by
  refine ⟨?_, fun log => rfl⟩
  intro log s raw_query p query docs hq h d hd w hw
  obtain ⟨query', all, hq', hall, rfl⟩ := FindTopDocuments_ok log s raw_query p docs h
  rw [hq] at hq'
  cases hq'
  have hmem : d ∈ all :=
    (sort_perm compareDocuments all).subset (List.mem_of_mem_take hd)
  exact FindAllDocuments_no_minus log s query p all hall d hmem w hw

end TopClaims

/-- A use of C2 on the documents 1 "cat dog" and 2 "dog": the query "dog -cat"
parses into the plus-word "dog" and the minus-word "cat", and the only
document returned is 2. -/
theorem C2_minus_word_vetoes_witness :
    ParseQuery (catDogServer ℝ) "dog -cat".toList
        = .ok { plus_words := ["dog".toList], minus_words := ["cat".toList] } ∧
    FindTopDocuments Real.log (catDogServer ℝ) "dog -cat".toList actualOnly
      = .ok [catDogHit Real.log] ∧
    ∀ d ∈ [catDogHit Real.log], ∀ w ∈ ["cat".toList], ¬ hasPosting (catDogServer ℝ) w d.id :=
  ⟨rfl, rfl,
    C2_minus_word_vetoes.1 Real.log (catDogServer ℝ) "dog -cat".toList actualOnly
      { plus_words := ["dog".toList], minus_words := ["cat".toList] }
      [catDogHit Real.log] rfl rfl⟩

/-! ## Facts about `ParseQuery` -/

section ParseFacts

variable {R : Type} [LinearOrderedField R]

theorem ParseQuery_eq (s : SearchServer R) (text : Str) :
    ParseQuery s text
      = (SplitIntoWords text).foldlM (parseStep s) { plus_words := [], minus_words := [] } :=
  rfl

theorem ParseQueryWord_of_bad (s : SearchServer R) (t : Str) (h : badToken t) :
    ParseQueryWord s t = .error .invalid_argument := by
  unfold ParseQueryWord
  rcases h with h | ⟨r, h⟩ | ⟨c, hc, hlt⟩
  · subst h
    rfl
  · subst h
    rfl
  · cases t with
    | nil => rfl
    | cons a r =>
      have hv : IsValidWord (stripped (a :: r)) = false :=
        (IsValidWord_eq_false_iff _).2 ⟨c, hc, hlt⟩
      unfold stripped at hv
      by_cases ha : a = '-'
      · subst ha
        simp only [List.head?_cons, if_true, List.drop_one, List.tail_cons] at hv
        simp [hv]
      · simp only [List.head?_cons, Option.some.injEq, ha, if_false] at hv
        simp [ha, hv]

theorem ParseQueryWord_of_not_bad (s : SearchServer R) (t : Str) (ht : t ≠ [])
    (h : ¬ badToken t) :
    ParseQueryWord s t
      = .ok { data := stripped t, is_minus := decide (t.head? = some '-'),
              is_stop := IsStopWord s (stripped t) } := by
  unfold badToken at h
  push_neg at h
  obtain ⟨h1, h2, h3⟩ := h
  have hv : IsValidWord (stripped t) = true :=
    (IsValidWord_eq_true_iff _).2 (fun c hc => h3 c hc)
  cases t with
  | nil => exact absurd rfl ht
  | cons a r =>
    unfold ParseQueryWord
    unfold stripped at hv ⊢
    by_cases ha : a = '-'
    · subst ha
      simp only [List.head?_cons, if_true, List.drop_one, List.tail_cons] at hv
      cases r with
      | nil => exact absurd rfl h1
      | cons b r' =>
        have hb : b ≠ '-' := by
          intro e
          subst e
          exact h2 r' rfl
        simp [hv, hb]
    · simp only [List.head?_cons, Option.some.injEq, ha, if_false] at hv
      simp [ha, hv]

theorem parseStep_of_bad (s : SearchServer R) (q : Query) (t : Str) (h : badToken t) :
    parseStep s q t = .error .invalid_argument := by
  unfold parseStep
  rw [ParseQueryWord_of_bad s t h]
  rfl

theorem parseStep_of_not_bad (s : SearchServer R) (q : Query) (t : Str) (ht : t ≠ [])
    (h : ¬ badToken t) : parseStep s q t = .ok (noted s q t) := by
  unfold parseStep noted
  rw [ParseQueryWord_of_not_bad s t ht h]
  simp only [bind, Except.bind]
  by_cases hs : IsStopWord s (stripped t) = true
  · simp [hs, pure, Except.pure]
  · by_cases hm : t.head? = some '-'
    · simp [hs, hm, pure, Except.pure]
    · simp [hs, hm, pure, Except.pure]

theorem foldlM_parseStep_error (s : SearchServer R) (tokens : List Str) (q : Query)
    (hne : ∀ t ∈ tokens, t ≠ []) (h : ∃ t ∈ tokens, badToken t) :
    tokens.foldlM (parseStep s) q = .error .invalid_argument := by
  induction tokens generalizing q with
  | nil =>
    obtain ⟨t, ht, _⟩ := h
    cases ht
  | cons a l ih =>
    rw [List.foldlM_cons]
    by_cases ha : badToken a
    · rw [parseStep_of_bad s q a ha]
      rfl
    · rw [parseStep_of_not_bad s q a (hne a (List.mem_cons_self _ _)) ha]
      simp only [bind, Except.bind]
      apply ih _ (fun t ht => hne t (List.mem_cons_of_mem _ ht))
      obtain ⟨t, ht, hb⟩ := h
      rcases List.mem_cons.1 ht with e | e
      · subst e
        exact absurd hb ha
      · exact ⟨t, e, hb⟩

theorem foldlM_parseStep_ok (s : SearchServer R) (tokens : List Str) (q : Query)
    (hne : ∀ t ∈ tokens, t ≠ []) (h : ¬ ∃ t ∈ tokens, badToken t) :
    tokens.foldlM (parseStep s) q = .ok (tokens.foldl (noted s) q) := by
  induction tokens generalizing q with
  | nil => rfl
  | cons a l ih =>
    rw [List.foldlM_cons]
    have ha : ¬ badToken a := fun hb => h ⟨a, List.mem_cons_self _ _, hb⟩
    rw [parseStep_of_not_bad s q a (hne a (List.mem_cons_self _ _)) ha]
    simp only [bind, Except.bind, List.foldl_cons]
    exact ih _ (fun t ht => hne t (List.mem_cons_of_mem _ ht))
      (fun ⟨t, ht, hb⟩ => h ⟨t, List.mem_cons_of_mem _ ht, hb⟩)

theorem stripped_of_minus (t : Str) (h : t.head? = some '-') : stripped t = t.drop 1 := by
  unfold stripped
  rw [if_pos h]

theorem stripped_of_not_minus (t : Str) (h : ¬ t.head? = some '-') : stripped t = t := by
  unfold stripped
  rw [if_neg h]

theorem noted_spec (s : SearchServer R) (q : Query) (t : Str) :
    (∀ w, w ∈ (noted s q t).plus_words ↔
      (w ∈ q.plus_words ∨ (t.head? ≠ some '-' ∧ t ∉ s.stop_words_ ∧ w = t))) ∧
    (∀ w, w ∈ (noted s q t).minus_words ↔
      (w ∈ q.minus_words ∨ (t.head? = some '-' ∧ t.drop 1 ∉ s.stop_words_ ∧ w = t.drop 1))) ∧
    (q.plus_words.Sorted (· < ·) → (noted s q t).plus_words.Sorted (· < ·)) ∧
    (q.minus_words.Sorted (· < ·) → (noted s q t).minus_words.Sorted (· < ·)) := by
  unfold noted
  by_cases hm : t.head? = some '-'
  · rw [stripped_of_minus t hm]
    by_cases hs : IsStopWord s (t.drop 1) = true
    · have hs' := (IsStopWord_eq_true_iff s _).1 hs
      rw [if_pos hs]
      refine ⟨fun w => ?_, fun w => ?_, fun h => h, fun h => h⟩
      · constructor
        · exact Or.inl
        · rintro (h | ⟨h, _⟩)
          · exact h
          · exact absurd hm h
      · constructor
        · exact Or.inl
        · rintro (h | ⟨_, h, _⟩)
          · exact h
          · exact absurd hs' h
    · have hs' : t.drop 1 ∉ s.stop_words_ := fun h => hs ((IsStopWord_eq_true_iff s _).2 h)
      rw [if_neg hs, if_pos hm]
      refine ⟨fun w => ?_, fun w => ?_, fun h => h, fun h => StdSet.sorted_insert _ h⟩
      · constructor
        · exact Or.inl
        · rintro (h | ⟨h, _⟩)
          · exact h
          · exact absurd hm h
      · show w ∈ StdSet.insert (t.drop 1) q.minus_words ↔ _
        rw [StdSet.mem_insert]
        constructor
        · rintro (h | h)
          · exact Or.inr ⟨hm, hs', h⟩
          · exact Or.inl h
        · rintro (h | ⟨_, _, h⟩)
          · exact Or.inr h
          · exact Or.inl h
  · rw [stripped_of_not_minus t hm]
    by_cases hs : IsStopWord s t = true
    · have hs' := (IsStopWord_eq_true_iff s _).1 hs
      rw [if_pos hs]
      refine ⟨fun w => ?_, fun w => ?_, fun h => h, fun h => h⟩
      · constructor
        · exact Or.inl
        · rintro (h | ⟨_, h, _⟩)
          · exact h
          · exact absurd hs' h
      · constructor
        · exact Or.inl
        · rintro (h | ⟨h, _⟩)
          · exact h
          · exact absurd h hm
    · have hs' : t ∉ s.stop_words_ := fun h => hs ((IsStopWord_eq_true_iff s _).2 h)
      rw [if_neg hs, if_neg hm]
      refine ⟨fun w => ?_, fun w => ?_, fun h => StdSet.sorted_insert _ h, fun h => h⟩
      · show w ∈ StdSet.insert t q.plus_words ↔ _
        rw [StdSet.mem_insert]
        constructor
        · rintro (h | h)
          · exact Or.inr ⟨hm, hs', h⟩
          · exact Or.inl h
        · rintro (h | ⟨_, _, h⟩)
          · exact Or.inr h
          · exact Or.inl h
      · constructor
        · exact Or.inl
        · rintro (h | ⟨h, _⟩)
          · exact h
          · exact absurd h hm

theorem foldl_noted_spec (s : SearchServer R) (tokens : List Str) (q : Query) :
    (∀ w, w ∈ (tokens.foldl (noted s) q).plus_words ↔
      (w ∈ q.plus_words ∨ ∃ t ∈ tokens, t.head? ≠ some '-' ∧ t ∉ s.stop_words_ ∧ w = t)) ∧
    (∀ w, w ∈ (tokens.foldl (noted s) q).minus_words ↔
      (w ∈ q.minus_words ∨
        ∃ t ∈ tokens, t.head? = some '-' ∧ t.drop 1 ∉ s.stop_words_ ∧ w = t.drop 1)) ∧
    (q.plus_words.Sorted (· < ·) → (tokens.foldl (noted s) q).plus_words.Sorted (· < ·)) ∧
    (q.minus_words.Sorted (· < ·) → (tokens.foldl (noted s) q).minus_words.Sorted (· < ·)) := by
  induction tokens generalizing q with
  | nil => simp
  | cons a l ih =>
    rw [List.foldl_cons]
    obtain ⟨a1, a2, a3, a4⟩ := noted_spec s q a
    obtain ⟨b1, b2, b3, b4⟩ := ih (noted s q a)
    refine ⟨?_, ?_, fun h => b3 (a3 h), fun h => b4 (a4 h)⟩
    · intro w
      rw [b1 w, a1 w]
      simp only [List.mem_cons, exists_eq_or_imp]
      exact or_assoc
    · intro w
      rw [b2 w, a2 w]
      simp only [List.mem_cons, exists_eq_or_imp]
      exact or_assoc

/-- The two cases of `ParseQuery`. -/
theorem ParseQuery_cases (s : SearchServer R) (text : Str) :
    ((∃ t ∈ SplitIntoWords text, badToken t) ∧ ParseQuery s text = .error .invalid_argument) ∨
    ((¬ ∃ t ∈ SplitIntoWords text, badToken t) ∧
      ParseQuery s text = .ok ((SplitIntoWords text).foldl (noted s)
        { plus_words := [], minus_words := [] })) := by
  have hne : ∀ t ∈ SplitIntoWords text, t ≠ [] := fun t ht => SplitIntoWords_ne_nil ht
  by_cases h : ∃ t ∈ SplitIntoWords text, badToken t
  · left
    refine ⟨h, ?_⟩
    rw [ParseQuery_eq]
    exact foldlM_parseStep_error s (SplitIntoWords text) _ hne h
  · right
    refine ⟨h, ?_⟩
    rw [ParseQuery_eq]
    exact foldlM_parseStep_ok s (SplitIntoWords text) _ hne h

end ParseFacts

/-! ## Facts about `MatchDocument` -/

section MatchFacts

variable {R : Type} [LinearOrderedField R]

theorem postedIn_iff (s : SearchServer R) (document_id : Int) (word : Str) :
    postedIn s document_id word = true ↔ hasPosting s word document_id := by
  unfold postedIn hasPosting
  cases StdMap.find? s.word_to_document_freqs_ word with
  | none => simp
  | some postings => simp [StdMap.find?_isSome_iff]

/-- The body of either loop of `MatchDocument` finds the postings of a word
that the index has. -/
theorem lookup_word (s : SearchServer R) (document_id : Int) (word : Str) :
    (StdMap.count s.word_to_document_freqs_ word = 0 ∧ postedIn s document_id word = false) ∨
    (∃ postings, StdMap.count s.word_to_document_freqs_ word ≠ 0 ∧
      StdMap.atKey s.word_to_document_freqs_ word = .ok postings ∧
      (StdMap.count postings document_id ≠ 0 ↔ postedIn s document_id word = true)) := by
  unfold postedIn
  cases hf : StdMap.find? s.word_to_document_freqs_ word with
  | none => exact Or.inl ⟨(StdMap.count_eq_zero_iff _ _).2 hf, rfl⟩
  | some postings =>
    refine Or.inr ⟨postings, ?_, (StdMap.atKey_eq_ok_iff _ _ _).2 hf, ?_⟩
    · rw [Ne, StdMap.count_eq_zero_iff, hf]
      simp
    · rw [StdMap.count_ne_zero_iff, StdMap.find?_isSome_iff]

theorem matchStep_eq (s : SearchServer R) (document_id : Int) (acc : List Str) (w : Str) :
    matchStep s document_id acc w
      = .ok (if postedIn s document_id w = true then acc ++ [w] else acc) := by
  unfold matchStep
  rcases lookup_word s document_id w with ⟨h0, hp⟩ | ⟨postings, h0, hat, hp⟩
  · rw [if_pos h0, hp]
    rfl
  · rw [if_neg h0, hat]
    by_cases hc : StdMap.count postings document_id ≠ 0
    · simp only [pure, Except.pure, bind, Except.bind, if_pos hc]
      rw [if_pos (hp.1 hc)]
    · have hp' : ¬ postedIn s document_id w = true := fun h => hc (hp.2 h)
      simp only [pure, Except.pure, bind, Except.bind, if_neg hc]
      rw [if_neg hp']

theorem foldl_matched (f : Str → Bool) (words : List Str) (acc : List Str) :
    words.foldl (fun acc w => if f w = true then acc ++ [w] else acc) acc
      = acc ++ words.filter f := by
  induction words generalizing acc with
  | nil => simp
  | cons w ws ih =>
    rw [List.foldl_cons, ih, List.filter_cons]
    by_cases h : f w = true
    · rw [if_pos h, if_pos h]
      simp
    · rw [if_neg h, if_neg h]

theorem MatchDocument.plusLoop_eq (s : SearchServer R) (document_id : Int) (words : List Str)
    (acc : List Str) :
    words.foldlM (matchStep s document_id) acc
      = .ok (acc ++ words.filter (postedIn s document_id)) := by
  have : matchStep s document_id = fun acc w =>
      (Except.ok (if postedIn s document_id w = true then acc ++ [w] else acc) :
        Except Error (List Str)) := by
    funext acc w
    exact matchStep_eq s document_id acc w
  rw [this, foldlM_ok, foldl_matched]

theorem MatchDocument.minusLoop_eq (s : SearchServer R) (document_id : Int) (words : List Str)
    (matched : List Str) :
    MatchDocument.minusLoop s document_id words matched
      = .ok (if words.any (postedIn s document_id) then [] else matched) := by
  induction words with
  | nil => rfl
  | cons w ws ih =>
    unfold MatchDocument.minusLoop
    rcases lookup_word s document_id w with ⟨h0, hp⟩ | ⟨postings, h0, hat, hp⟩
    · rw [if_pos h0, ih, List.any_cons, hp, Bool.false_or]
    · rw [if_neg h0, hat]
      by_cases hc : StdMap.count postings document_id ≠ 0
      · have hp' := hp.1 hc
        simp only [pure, Except.pure, bind, Except.bind, if_pos hc]
        rw [List.any_cons, hp']
        rfl
      · have hp' : postedIn s document_id w = false := by
          cases h : postedIn s document_id w
          · rfl
          · exact absurd (hp.2 h) hc
        simp only [pure, Except.pure, bind, Except.bind, if_neg hc]
        rw [ih, List.any_cons, hp', Bool.false_or]

/-- What `MatchDocument` does for a query that parses. -/
theorem MatchDocument_of_parsed (s : SearchServer R) (raw_query : Str) (document_id : Int)
    (query : Query) (hq : ParseQuery s raw_query = .ok query) :
    MatchDocument s raw_query document_id
      = (StdMap.atKey s.documents_ document_id).map fun document_data =>
          (if query.minus_words.any (postedIn s document_id) then []
            else query.plus_words.filter (postedIn s document_id), document_data.status) := by
  have h : MatchDocument s raw_query document_id = (do
      let query ← ParseQuery s raw_query
      let matched_words ← query.plus_words.foldlM (matchStep s document_id) []
      let matched_words ← MatchDocument.minusLoop s document_id query.minus_words matched_words
      let document_data ← StdMap.atKey s.documents_ document_id
      pure (matched_words, document_data.status)) := rfl
  rw [h, hq]
  simp only [bind, Except.bind]
  rw [MatchDocument.plusLoop_eq]
  simp only [List.nil_append]
  rw [MatchDocument.minusLoop_eq]
  simp only []
  cases StdMap.atKey s.documents_ document_id <;> rfl

theorem MatchDocument_of_not_parsed (s : SearchServer R) (raw_query : Str) (document_id : Int)
    (e : Error) (hq : ParseQuery s raw_query = .error e) :
    MatchDocument s raw_query document_id = .error e := by
  unfold MatchDocument
  rw [hq]
  rfl

theorem FindTopDocuments_of_not_parsed (log : R → R) (s : SearchServer R) (raw_query : Str)
    (p : Int → DocumentStatus → Int → Bool) (e : Error) (hq : ParseQuery s raw_query = .error e) :
    FindTopDocuments log s raw_query p = .error e := by
  unfold FindTopDocuments
  rw [hq]
  rfl

end MatchFacts

/-! ## C6, C8, C9: matching and parsing -/

section MatchClaims

variable {R : Type} [LinearOrderedField R]

/-- C6: when the query parses, the document is stored, and some minus-word of
the parsed query has a posting for the document, `MatchDocument` returns the
empty word list together with the stored status of the document, whatever
plus-words match. With the document 5 "big dog sparrow", the query
"dog -sparrow" and the id 5 the result is the empty list with the status. -/
theorem C6_minus_word_empties_match :
    (∀ (s : SearchServer R) (raw_query : Str) (query : Query) (document_id : Int)
        (document_data : DocumentData),
        ParseQuery s raw_query = .ok query →
        StdMap.find? s.documents_ document_id = some document_data →
        (∃ w ∈ query.minus_words, hasPosting s w document_id) →
        MatchDocument s raw_query document_id = .ok ([], document_data.status)) ∧
    MatchDocument (sparrowServer R) "dog -sparrow".toList 5 = .ok ([], DocumentStatus.ACTUAL) := by
  refine ⟨?_, rfl⟩
  intro s raw_query query document_id document_data hq hd ⟨w, hw, hp⟩
  rw [MatchDocument_of_parsed s raw_query document_id query hq,
    (StdMap.atKey_eq_ok_iff _ _ _).2 hd]
  have : query.minus_words.any (postedIn s document_id) = true :=
    List.any_eq_true.2 ⟨w, hw, (postedIn_iff s document_id w).2 hp⟩
  rw [this]
  rfl

/-- C8: `ParseQuery` throws exactly when some space-delimited token of the text
is "-", or begins with "--", or, without its leading '-' when it has one,
holds a character with code below 32. When it throws, `FindTopDocuments` and
`MatchDocument` throw the same exception and return nothing. When it returns,
`plus_words` is exactly the set of the tokens without a leading '-' that are
not stop words, and `minus_words` is exactly the set of the tokens with a
leading '-', stripped of it, that are not stop words; both are kept in
strictly ascending order, hence without repetition. -/
theorem C8_ParseQuery_fails_iff (s : SearchServer R) (text : Str) :
    ((∃ e, ParseQuery s text = .error e) ↔
      ∃ t ∈ SplitIntoWords text,
        t = "-".toList ∨ (∃ r, t = '-' :: '-' :: r) ∨
          ∃ c ∈ (if t.head? = some '-' then t.drop 1 else t), c.toNat < 32) ∧
    (∀ e, ParseQuery s text = .error e →
      (∀ (log : R → R) (p : Int → DocumentStatus → Int → Bool),
        FindTopDocuments log s text p = .error e) ∧
      (∀ document_id, MatchDocument s text document_id = .error e)) ∧
    (∀ query, ParseQuery s text = .ok query →
      (∀ w, w ∈ query.plus_words ↔
        ∃ t ∈ SplitIntoWords text, t.head? ≠ some '-' ∧ t ∉ s.stop_words_ ∧ w = t) ∧
      (∀ w, w ∈ query.minus_words ↔
        ∃ t ∈ SplitIntoWords text,
          t.head? = some '-' ∧ t.drop 1 ∉ s.stop_words_ ∧ w = t.drop 1) ∧
      query.plus_words.Sorted (· < ·) ∧ query.minus_words.Sorted (· < ·)) := by
  have hbad : (∃ t ∈ SplitIntoWords text,
        t = "-".toList ∨ (∃ r, t = '-' :: '-' :: r) ∨
          ∃ c ∈ (if t.head? = some '-' then t.drop 1 else t), c.toNat < 32)
      ↔ ∃ t ∈ SplitIntoWords text, badToken t := Iff.rfl
  rw [hbad]
  refine ⟨?_, ?_, ?_⟩
  · rcases ParseQuery_cases s text with ⟨h, he⟩ | ⟨h, ho⟩
    · exact ⟨fun _ => h, fun _ => ⟨_, he⟩⟩
    · refine ⟨?_, fun h' => absurd h' h⟩
      rintro ⟨e, he⟩
      rw [ho] at he
      cases he
  · intro e he
    exact ⟨fun log p => FindTopDocuments_of_not_parsed log s text p e he,
      fun document_id => MatchDocument_of_not_parsed s text document_id e he⟩
  · intro query hq
    rcases ParseQuery_cases s text with ⟨_, he⟩ | ⟨_, ho⟩
    · rw [he] at hq
      cases hq
    · rw [ho] at hq
      cases hq
      obtain ⟨a, b, c, d⟩ := foldl_noted_spec s (SplitIntoWords text)
        { plus_words := [], minus_words := [] }
      refine ⟨fun w => ?_, fun w => ?_, c (List.sorted_nil), d (List.sorted_nil)⟩
      · rw [a w]
        simp
      · rw [b w]
        simp

/-- C9: no stop word is a plus-word or a minus-word of a parsed query, no stop
word is a key of the index of a reachable server, and no stop word is in the
word list that `MatchDocument` returns. With the stop words "and in at", the
document "curly dog and fancy collar" and the query "and curly",
`MatchDocument` returns exactly the word "curly". -/
theorem C9_stop_words_excluded :
    (∀ (s : SearchServer R) (raw_query : Str) (query : Query),
        ParseQuery s raw_query = .ok query →
        ∀ w ∈ s.stop_words_, w ∉ query.plus_words ∧ w ∉ query.minus_words) ∧
    (∀ s : SearchServer R, Reachable s →
        ∀ w ∈ s.stop_words_, w ∉ StdMap.keys s.word_to_document_freqs_) ∧
    (∀ (s : SearchServer R) (raw_query : Str) (document_id : Int) (words : List Str)
        (status : DocumentStatus),
        MatchDocument s raw_query document_id = .ok (words, status) →
        ∀ w ∈ s.stop_words_, w ∉ words) ∧
    MatchDocument (curlyServer R) "and curly".toList 2
      = .ok (["curly".toList], DocumentStatus.ACTUAL) := by
  have hparse : ∀ (s : SearchServer R) (raw_query : Str) (query : Query),
      ParseQuery s raw_query = .ok query →
      ∀ w ∈ s.stop_words_, w ∉ query.plus_words ∧ w ∉ query.minus_words := by
    intro s raw_query query hq w hw
    obtain ⟨a, b, _, _⟩ := (C8_ParseQuery_fails_iff s raw_query).2.2 query hq
    constructor
    · intro h
      obtain ⟨t, _, _, hstop, e⟩ := (a w).1 h
      rw [e] at hw
      exact hstop hw
    · intro h
      obtain ⟨t, _, _, hstop, e⟩ := (b w).1 h
      rw [e] at hw
      exact hstop hw
  refine ⟨hparse, ?_, ?_, rfl⟩
  · intro s hs w hw hkey
    exact hs.inv.no_stop w hkey hw
  · intro s raw_query document_id words status h w hw hmem
    cases hq : ParseQuery s raw_query with
    | error e =>
      rw [MatchDocument_of_not_parsed s raw_query document_id e hq] at h
      cases h
    | ok query =>
      rw [MatchDocument_of_parsed s raw_query document_id query hq] at h
      cases hd : StdMap.atKey s.documents_ document_id with
      | error e =>
        rw [hd] at h
        cases h
      | ok data =>
        rw [hd] at h
        simp only [Except.map] at h
        have hwords := congrArg Prod.fst (Except.ok.inj h)
        simp only [] at hwords
        rw [← hwords] at hmem
        split at hmem
        · cases hmem
        · exact (hparse s raw_query query hq w hw).1 (List.mem_filter.1 hmem).1

end MatchClaims

/-! ## Facts about sequences of calls -/

section RunFacts

variable {R : Type} [LinearOrderedField R]

theorem succeeded_cons_rejected (s : SearchServer R) (c : AddCall) (cs : List AddCall)
    (h : rejected s c.document_id c.document) :
    (addCall s c).2 = s ∧ run s (c :: cs) = run s cs ∧
      succeeded s (c :: cs) = succeeded s cs := by
  have e : addCall s c = (.error .invalid_argument, s) :=
    AddDocument_of_rejected s _ _ _ _ h
  refine ⟨by rw [e], ?_, ?_⟩
  · show run (addCall s c).2 cs = _
    rw [e]
  · show (match (addCall s c).1 with
      | .ok _ => c :: succeeded (addCall s c).2 cs
      | .error _ => succeeded (addCall s c).2 cs) = _
    rw [e]

theorem succeeded_cons_added (s : SearchServer R) (c : AddCall) (cs : List AddCall)
    (h : ¬ rejected s c.document_id c.document) :
    (addCall s c).2 = added s c.document_id (indexedWords s c.document) c.status c.ratings ∧
    run s (c :: cs)
      = run (added s c.document_id (indexedWords s c.document) c.status c.ratings) cs ∧
    succeeded s (c :: cs)
      = c :: succeeded (added s c.document_id (indexedWords s c.document) c.status c.ratings)
          cs := by
  have e : addCall s c
      = (.ok (), added s c.document_id (indexedWords s c.document) c.status c.ratings) :=
    AddDocument_of_not_rejected s _ _ _ _ h
  refine ⟨by rw [e], ?_, ?_⟩
  · show run (addCall s c).2 cs = _
    rw [e]
  · show (match (addCall s c).1 with
      | .ok _ => c :: succeeded (addCall s c).2 cs
      | .error _ => succeeded (addCall s c).2 cs) = _
    rw [e]

theorem succeeded_subset (s : SearchServer R) (calls : List AddCall) :
    ∀ c ∈ succeeded s calls, c ∈ calls := by
  induction calls generalizing s with
  | nil => intro c hc; cases hc
  | cons a cs ih =>
    intro c hc
    by_cases h : rejected s a.document_id a.document
    · rw [(succeeded_cons_rejected s a cs h).2.2] at hc
      exact List.mem_cons_of_mem _ (ih s c hc)
    · rw [(succeeded_cons_added s a cs h).2.2] at hc
      rcases List.mem_cons.1 hc with e | e
      · rw [e]; exact List.mem_cons_self _ _
      · exact List.mem_cons_of_mem _ (ih _ c e)

/-- The id list after a sequence of calls: the ids of the calls that returned
are appended in call order. -/
theorem document_ids_run (s : SearchServer R) (calls : List AddCall) :
    (run s calls).document_ids_
      = s.document_ids_ ++ (succeeded s calls).map fun c => c.document_id := by
  induction calls generalizing s with
  | nil => simp [run, succeeded]
  | cons a cs ih =>
    by_cases h : rejected s a.document_id a.document
    · rw [(succeeded_cons_rejected s a cs h).2.1, (succeeded_cons_rejected s a cs h).2.2]
      exact ih s
    · rw [(succeeded_cons_added s a cs h).2.1, (succeeded_cons_added s a cs h).2.2, ih]
      simp [added]

/-- The store after a sequence of calls: a document is stored when it was
before or when a call that returned stored it, with the status of that call. -/
theorem documents_run (s : SearchServer R) (hs : Inv s) (calls : List AddCall)
    (id : Int) (d : DocumentData) :
    StdMap.find? (run s calls).documents_ id = some d ↔
      (StdMap.find? s.documents_ id = some d ∨
        ∃ c ∈ succeeded s calls, c.document_id = id ∧
          d = { rating := ComputeAverageRating c.ratings, status := c.status }) := by
  induction calls generalizing s with
  | nil => simp [run, succeeded]
  | cons a cs ih =>
    by_cases h : rejected s a.document_id a.document
    · rw [(succeeded_cons_rejected s a cs h).2.1, (succeeded_cons_rejected s a cs h).2.2]
      exact ih s hs
    · rw [(succeeded_cons_added s a cs h).2.1, (succeeded_cons_added s a cs h).2.2,
        ih _ (Inv_added s hs _ _ _ _ h)]
      have hfresh : StdMap.find? s.documents_ a.document_id = none := by
        rw [StdMap.find?_eq_none_iff]
        intro hmem
        exact h (Or.inr (Or.inl hmem))
      have hdocs : StdMap.find? (added s a.document_id (indexedWords s a.document) a.status
          a.ratings).documents_ id = some d ↔
          (StdMap.find? s.documents_ id = some d ∨
            (a.document_id = id ∧
              d = { rating := ComputeAverageRating a.ratings, status := a.status })) := by
        show StdMap.find? (StdMap.emplace a.document_id _ s.documents_) id = some d ↔ _
        unfold StdMap.emplace
        by_cases hid : id = a.document_id
        · subst hid
          rw [StdMap.find?_modify_self _ _ hs.documents_wf, hfresh]
          simp [eq_comm]
        · rw [StdMap.find?_modify_ne _ _ _ hid]
          have : ¬ a.document_id = id := fun e => hid e.symm
          simp [this]
      rw [hdocs]
      simp only [List.mem_cons, exists_eq_or_imp]
      exact or_assoc

/-- A list of pairwise distinct integers from 0 to `n - 1` has at most `n`
elements. -/
theorem length_le_of_nodup_of_bounded (l : List Int) (n : Nat) (hn : l.Nodup)
    (hb : ∀ x ∈ l, 0 ≤ x ∧ x < n) : l.length ≤ n := by
  have hinj : (l.map Int.toNat).Nodup := by
    refine List.Nodup.map_on ?_ hn
    intro x hx y hy hxy
    have hx' := (hb x hx).1
    have hy' := (hb y hy).1
    omega
  have hsub : (l.map Int.toNat).toFinset ⊆ Finset.range n := by
    intro k hk
    rw [List.mem_toFinset, List.mem_map] at hk
    obtain ⟨x, hx, rfl⟩ := hk
    rw [Finset.mem_range]
    have := hb x hx
    omega
  have hcard := Finset.card_le_card hsub
  rw [List.toFinset_card_of_nodup hinj, Finset.card_range, List.length_map] at hcard
  exact hcard

theorem keys_documents_run (s : SearchServer R) (hs : Inv s) (calls : List AddCall) (id : Int) :
    id ∈ StdMap.keys (run s calls).documents_ ↔
      (id ∈ StdMap.keys s.documents_ ∨ ∃ c ∈ succeeded s calls, c.document_id = id) := by
  rw [← StdMap.find?_isSome_iff, ← StdMap.find?_isSome_iff, Option.isSome_iff_exists,
    Option.isSome_iff_exists]
  constructor
  · rintro ⟨d, hd⟩
    rcases (documents_run s hs calls id d).1 hd with h | ⟨c, hc, e, _⟩
    · exact Or.inl ⟨d, h⟩
    · exact Or.inr ⟨c, hc, e⟩
  · rintro (⟨d, hd⟩ | ⟨c, hc, e⟩)
    · exact ⟨d, (documents_run s hs calls id d).2 (Or.inl hd)⟩
    · exact ⟨_, (documents_run s hs calls id _).2 (Or.inr ⟨c, hc, e, rfl⟩)⟩

end RunFacts

/-! ## C7, C10: the document store and the id list -/

section StoreClaims

variable {R : Type} [LinearOrderedField R]

theorem new_ok (stop_words : List Str) (s₀ : SearchServer R)
    (h : SearchServer.new stop_words = .ok s₀) :
    s₀.word_to_document_freqs_ = [] ∧ s₀.documents_ = [] ∧ s₀.document_ids_ = [] := by
  unfold SearchServer.new at h
  simp only [] at h
  split at h
  · cases h
  · cases h
    exact ⟨rfl, rfl, rfl⟩

theorem vectorAt_of_none {α : Type} (v : List α) (n : Nat) (h : v.get? n = none) :
    vectorAt v n = .error .out_of_range := by
  unfold vectorAt
  rw [h]

theorem vectorAt_of_some {α : Type} (v : List α) (n : Nat) (a : α) (h : v.get? n = some a) :
    vectorAt v n = .ok a := by
  unfold vectorAt
  rw [h]

/-- C7: for a server built by the constructor and a sequence of `AddDocument`
calls, and a query that parses, `MatchDocument(query, id)` throws exactly when
no call that returned had this id; and when a call that returned had this id,
the status in the result is the status passed to that call. -/
theorem C7_MatchDocument_fails_iff (stop_words : List Str) (s₀ : SearchServer R)
    (calls : List AddCall) (raw_query : Str) (query : Query) (document_id : Int)
    (h₀ : SearchServer.new stop_words = .ok s₀)
    (hq : ParseQuery (run s₀ calls) raw_query = .ok query) :
    ((∃ e, MatchDocument (run s₀ calls) raw_query document_id = .error e) ↔
      ∀ c ∈ succeeded s₀ calls, c.document_id ≠ document_id) ∧
    (∀ c ∈ succeeded s₀ calls, c.document_id = document_id →
      ∃ words, MatchDocument (run s₀ calls) raw_query document_id = .ok (words, c.status)) := by
  have hinv := Inv_new stop_words s₀ h₀
  have hempty := (new_ok stop_words s₀ h₀).2.1
  have hdoc := fun d => documents_run s₀ hinv calls document_id d
  simp only [hempty, StdMap.find?_nil, false_or, reduceCtorEq] at hdoc
  rw [MatchDocument_of_parsed _ raw_query document_id query hq]
  constructor
  · constructor
    · rintro ⟨e, he⟩ c hc hid
      have := (hdoc _).2 ⟨c, hc, hid, rfl⟩
      rw [(StdMap.atKey_eq_ok_iff _ _ _).2 this] at he
      cases he
    · intro hnone
      cases hf : StdMap.find? (run s₀ calls).documents_ document_id with
      | none =>
        have : StdMap.atKey (run s₀ calls).documents_ document_id = .error .out_of_range :=
          (StdMap.atKey_eq_error_iff _ _ _).2 ⟨hf, rfl⟩
        rw [this]
        exact ⟨_, rfl⟩
      | some d =>
        obtain ⟨c, hc, hid, _⟩ := (hdoc d).1 hf
        exact absurd hid (hnone c hc)
  · intro c hc hid
    have := (hdoc _).2 ⟨c, hc, hid, rfl⟩
    rw [(StdMap.atKey_eq_ok_iff _ _ _).2 this]
    exact ⟨_, rfl⟩

/-- C10: for a server built by the constructor and a sequence of `AddDocument`
calls whose ids are 32-bit `int`s, and a 32-bit `int` index, `GetDocumentId`
throws exactly when `index < 0` or `index >= GetDocumentCount()`; otherwise it
returns the id of the call number `index + 1` among the calls that returned,
in call order. `GetDocumentCount` is the number of calls that returned and the
length of the id list. -/
theorem C10_GetDocumentId (stop_words : List Str) (s₀ : SearchServer R)
    (calls : List AddCall) (index : Int)
    (h₀ : SearchServer.new stop_words = .ok s₀)
    (hids : ∀ c ∈ calls, c.document_id < 2 ^ 31)
    (hindex : -2 ^ 31 ≤ index ∧ index < 2 ^ 31) :
    ((∃ e, GetDocumentId (run s₀ calls) index = .error e) ↔
      (index < 0 ∨ index ≥ GetDocumentCount (run s₀ calls))) ∧
    (∀ id, GetDocumentId (run s₀ calls) index = .ok id ↔
      (0 ≤ index ∧
        ((succeeded s₀ calls).map fun c => c.document_id).get? index.toNat = some id)) ∧
    GetDocumentCount (run s₀ calls) = (succeeded s₀ calls).length ∧
    GetDocumentCount (run s₀ calls) = (run s₀ calls).document_ids_.length := by
  have hinv := Inv_run s₀ (Inv_new stop_words s₀ h₀) calls
  have hids_eq : (run s₀ calls).document_ids_
      = (succeeded s₀ calls).map fun c => c.document_id := by
    rw [document_ids_run, (new_ok stop_words s₀ h₀).2.2]
    rfl
  have hcount : GetDocumentCount (run s₀ calls) = (run s₀ calls).document_ids_.length := by
    unfold GetDocumentCount
    rw [hinv.ids_perm.length_eq]
    simp [StdMap.keys]
  have hlen : (run s₀ calls).document_ids_.length ≤ 2 ^ 31 := by
    apply length_le_of_nodup_of_bounded
    · exact hinv.ids_perm.nodup_iff.2 (StdMap.keys_nodup hinv.documents_wf)
    · intro x hx
      refine ⟨hinv.ids_nonneg x (hinv.ids_perm.subset hx), ?_⟩
      rw [hids_eq, List.mem_map] at hx
      obtain ⟨c, hc, rfl⟩ := hx
      have := hids c (succeeded_subset s₀ calls c hc)
      exact_mod_cast this
  have hget : GetDocumentId (run s₀ calls) index
      = vectorAt (run s₀ calls).document_ids_ (toSizeT index) := rfl
  rw [hget, hcount]
  rw [← hids_eq]
  obtain ⟨hlo, hhi⟩ := hindex
  by_cases hneg : index < 0
  · have hbig : (run s₀ calls).document_ids_.length ≤ toSizeT index := by
      unfold toSizeT
      omega
    rw [vectorAt_of_none _ _ (List.get?_eq_none.2 hbig)]
    refine ⟨⟨fun _ => Or.inl hneg, fun _ => ⟨_, rfl⟩⟩, ?_, ?_, rfl⟩
    · intro id
      constructor
      · intro h
        cases h
      · rintro ⟨h, _⟩
        omega
    · rw [hids_eq, List.length_map]
  · have hnat : toSizeT index = index.toNat := by
      unfold toSizeT
      omega
    rw [hnat]
    refine ⟨?_, ?_, ?_, rfl⟩
    · cases hg : (run s₀ calls).document_ids_.get? index.toNat with
      | none =>
        rw [vectorAt_of_none _ _ hg]
        have := List.get?_eq_none.1 hg
        exact ⟨fun _ => Or.inr (by omega), fun _ => ⟨_, rfl⟩⟩
      | some a =>
        rw [vectorAt_of_some _ _ _ hg]
        have hlt : index.toNat < (run s₀ calls).document_ids_.length := by
          by_contra hcon
          rw [List.get?_eq_none.2 (not_lt.1 hcon)] at hg
          cases hg
        constructor
        · rintro ⟨e, he⟩
          cases he
        · rintro (h | h)
          · exact absurd h hneg
          · omega
    · intro id
      cases hg : (run s₀ calls).document_ids_.get? index.toNat with
      | none =>
        rw [vectorAt_of_none _ _ hg]
        simp
      | some a =>
        rw [vectorAt_of_some _ _ _ hg]
        simp only [Except.ok.injEq, Option.some.injEq]
        constructor
        · intro h
          exact ⟨not_lt.1 hneg, h⟩
        · exact fun h => h.2
    · rw [hids_eq, List.length_map]

end StoreClaims

/-! ## C5: the term frequencies of a document -/

section FreqClaims

variable {R : Type} [LinearOrderedField R]

/-- The sum of `g` over the values of a map after `modify`. -/
theorem sum_modify {K V : Type} [LinearOrder K] (g : V → R) (k : K) (f : Option V → V)
    (m : List (K × V)) (wf : StdMap.WF m) :
    ((StdMap.modify k f m).map fun e => g e.2).sum
      = (m.map fun e => g e.2).sum - ((StdMap.find? m k).map g).getD 0
        + g (f (StdMap.find? m k)) := by
  induction m with
  | nil => simp [StdMap.modify, StdMap.find?]
  | cons p m ih =>
    obtain ⟨k₁, v₁⟩ := p
    have wf' := StdMap.WF_cons.1 wf
    unfold StdMap.modify
    split
    · rename_i h
      have hn : StdMap.find? ((k₁, v₁) :: m) k = none := by
        rw [StdMap.find?_eq_none_iff]
        intro hk
        simp only [StdMap.keys, List.map_cons, List.mem_cons] at hk
        rcases hk with e | e
        · exact absurd e (ne_of_lt h)
        · exact lt_asymm h (wf'.1 k e)
      rw [hn]
      simp only [List.map_cons, List.sum_cons, Option.map_none', Option.getD_none]
      ring
    · split
      · rename_i h₁ h₂
        subst h₂
        simp only [StdMap.find?, if_true, List.map_cons, List.sum_cons, Option.map_some',
          Option.getD_some]
        ring
      · rename_i h₁ h₂
        have hne : ¬ k₁ = k := fun e => h₂ e.symm
        simp only [StdMap.find?, hne, if_false, List.map_cons, List.sum_cons]
        rw [ih wf'.2]
        ring

theorem termFrequencySum_addFreq (document_id id : Int) (inv : R)
    (freqs : List (Str × List (Int × R))) (word : Str) (wf : StdMap.WF freqs)
    (hp : ∀ w p, StdMap.find? freqs w = some p → StdMap.WF p) :
    ((addFreq document_id inv freqs word).map fun e => (StdMap.find? e.2 id).getD 0).sum
      = (freqs.map fun e => (StdMap.find? e.2 id).getD 0).sum
        + (if id = document_id then inv else 0) := by
  unfold addFreq
  rw [sum_modify (fun p : List (Int × R) => (StdMap.find? p id).getD 0) word _ freqs wf]
  have hwf : StdMap.WF ((StdMap.find? freqs word).getD []) := by
    cases h : StdMap.find? freqs word with
    | none => exact StdMap.WF_nil
    | some q => exact hp word q h
  have hold : ((StdMap.find? freqs word).map
      (fun p : List (Int × R) => (StdMap.find? p id).getD 0)).getD 0
      = (StdMap.find? ((StdMap.find? freqs word).getD []) id).getD 0 := by
    cases StdMap.find? freqs word <;> rfl
  rw [hold]
  by_cases hid : id = document_id
  · subst hid
    rw [StdMap.find?_modify_self _ _ hwf, if_pos rfl]
    simp only [Option.getD_some]
    ring
  · rw [StdMap.find?_modify_ne _ _ _ hid, if_neg hid]
    ring

theorem termFrequencySum_foldl (document_id id : Int) (inv : R) (stop : List Str)
    (D : List Int) (hD : document_id ∈ D) (words : List Str)
    (freqs : List (Str × List (Int × R)))
    (hwords : ∀ w ∈ words, w ∉ stop) (wf : StdMap.WF freqs)
    (hp : ∀ w p, StdMap.find? freqs w = some p →
      StdMap.WF p ∧ p ≠ [] ∧ ∀ id ∈ StdMap.keys p, id ∈ D)
    (hs : ∀ w ∈ StdMap.keys freqs, w ∉ stop) :
    ((words.foldl (addFreq document_id inv) freqs).map
        fun e => (StdMap.find? e.2 id).getD 0).sum
      = (freqs.map fun e => (StdMap.find? e.2 id).getD 0).sum
        + (if id = document_id then (words.length : R) * inv else 0) := by
  induction words generalizing freqs with
  | nil => simp
  | cons x xs ih =>
    rw [List.foldl_cons]
    obtain ⟨a, b, c⟩ := addFreq_keeps document_id inv stop D hD freqs x
      (hwords x (List.mem_cons_self _ _)) wf hp hs
    rw [ih _ (fun w hw => hwords w (List.mem_cons_of_mem _ hw)) a b c,
      termFrequencySum_addFreq document_id id inv freqs x wf (fun w p h => (hp w p h).1)]
    by_cases hid : id = document_id
    · simp only [if_pos hid, List.length_cons, Nat.cast_add, Nat.cast_one]
      ring
    · simp only [if_neg hid, add_zero]

/-- The term frequencies after an accepted call: those of the new document sum
to the number of indexed words times the inverse of that number, those of any
other document are unchanged. -/
theorem termFrequencySum_added (s : SearchServer R) (hs : Inv s) (document_id : Int)
    (document : Str) (status : DocumentStatus) (ratings : List Int) (id : Int) :
    termFrequencySum (added s document_id (indexedWords s document) status ratings) id
      = termFrequencySum s id
        + (if id = document_id then
            ((indexedWords s document).length : R) * (1 / ((indexedWords s document).length : R))
          else 0) := by
  unfold termFrequencySum
  exact termFrequencySum_foldl document_id id _ s.stop_words_
    (document_id :: StdMap.keys s.documents_) (List.mem_cons_self _ _)
    (indexedWords s document) s.word_to_document_freqs_ (indexedWords_not_stop s document)
    hs.freqs_wf
    (fun w p hf => ⟨hs.postings_wf w p hf, hs.postings_ne w p hf,
      fun id hid => List.mem_cons_of_mem _ (hs.postings_ids w p hf id hid)⟩)
    hs.no_stop

theorem termFrequencySum_of_not_stored (s : SearchServer R) (hs : Inv s) (id : Int)
    (h : id ∉ StdMap.keys s.documents_) : termFrequencySum s id = 0 := by
  unfold termFrequencySum
  apply List.sum_eq_zero
  intro x hx
  rw [List.mem_map] at hx
  obtain ⟨e, he, rfl⟩ := hx
  have hf : StdMap.find? s.word_to_document_freqs_ e.1 = some e.2 :=
    StdMap.find?_of_mem hs.freqs_wf he
  have : StdMap.find? e.2 id = none := by
    rw [StdMap.find?_eq_none_iff]
    exact fun hmem => h (hs.postings_ids e.1 e.2 hf id hmem)
  rw [this]
  rfl

theorem termFrequencySum_run (s : SearchServer R) (hs : Inv s) (id : Int)
    (h : id ∈ StdMap.keys s.documents_) (calls : List AddCall) :
    termFrequencySum (run s calls) id = termFrequencySum s id := by
  induction calls generalizing s with
  | nil => rfl
  | cons a cs ih =>
    by_cases hr : rejected s a.document_id a.document
    · rw [(succeeded_cons_rejected s a cs hr).2.1]
      exact ih s hs h
    · rw [(succeeded_cons_added s a cs hr).2.1,
        ih _ (Inv_added s hs _ _ _ _ hr)
          ((StdMap.keys_modify _ _ _ _).2 (Or.inr h)),
        termFrequencySum_added s hs _ _ _ _ id]
      have hne : id ≠ a.document_id := by
        intro e
        rw [e] at h
        exact hr (Or.inr (Or.inl h))
      rw [if_neg hne, add_zero]

/-- C5 (as amended): for a reachable server and a call of `AddDocument` that
returns, for a text with at least one token that is not a stop word, the sum
over all index terms of the term frequency stored for the new document is 1,
right after the call and after any further sequence of calls. -/
theorem C5_term_frequencies_sum_to_one (s : SearchServer R) (document_id : Int)
    (document : Str) (status : DocumentStatus) (ratings : List Int) (later : List AddCall)
    (hs : Reachable s)
    (hok : (AddDocument s document_id document status ratings).1 = .ok ())
    (hword : ∃ w ∈ SplitIntoWords document, w ∉ s.stop_words_) :
    termFrequencySum (run (AddDocument s document_id document status ratings).2 later)
      document_id = 1 := by
  have hinv := hs.inv
  have hr : ¬ rejected s document_id document := by
    intro hr
    rw [AddDocument_of_rejected s _ _ status ratings hr] at hok
    cases hok
  rw [AddDocument_of_not_rejected s _ _ status ratings hr]
  have hfresh : document_id ∉ StdMap.keys s.documents_ := fun h => hr (Or.inr (Or.inl h))
  rw [termFrequencySum_run _ (Inv_added s hinv _ _ _ _ hr) document_id
      ((StdMap.keys_modify _ _ _ _).2 (Or.inl rfl)) later,
    termFrequencySum_added s hinv _ _ _ _ document_id,
    termFrequencySum_of_not_stored s hinv document_id hfresh, if_pos rfl, zero_add]
  have hpos : (indexedWords s document).length ≠ 0 := by
    obtain ⟨w, hw, hstop⟩ := hword
    have : w ∈ indexedWords s document := by
      unfold indexedWords
      rw [List.mem_filter]
      refine ⟨hw, ?_⟩
      have : ¬ IsStopWord s w = true := fun h => hstop ((IsStopWord_eq_true_iff s w).1 h)
      simpa using this
    exact List.length_pos.1 (List.length_pos_of_mem this) |> fun hne => by
      intro h0
      exact hne (List.length_eq_zero.1 h0)
  have hcast : ((indexedWords s document).length : R) ≠ 0 := Nat.cast_ne_zero.2 hpos
  field_simp

end FreqClaims

/-! ## C3: two documents whose relevances differ by less than 1e-6 -/

section CloseFacts

variable {R : Type} [LinearOrderedField R]

end CloseFacts

section CloseServer

variable {R : Type} [LinearOrderedField R]

theorem added_freqs (s : SearchServer R) (document_id : Int) (words : List Str)
    (status : DocumentStatus) (ratings : List Int) :
    (added s document_id words status ratings).word_to_document_freqs_
      = words.foldl (addFreq document_id (1 / (words.length : R)))
          s.word_to_document_freqs_ := rfl

end CloseServer

/-- A use of C1: on the server that holds the documents 1 and 2, a call of
`AddDocument` with the id 1 throws and leaves the server as it was. -/
theorem C1_AddDocument_fails_iff_witness :
    (∃ e, (AddDocument (catDogServer ℝ) 1 "bird".toList .ACTUAL [4]).1 = .error e) ∧
    (AddDocument (catDogServer ℝ) 1 "bird".toList .ACTUAL [4]).2 = catDogServer ℝ ∧
    GetDocumentCount (AddDocument (catDogServer ℝ) 1 "bird".toList .ACTUAL [4]).2
      = GetDocumentCount (catDogServer ℝ) :=
  ⟨⟨.invalid_argument, rfl⟩,
    (C1_AddDocument_fails_iff (catDogServer ℝ) 1 "bird".toList .ACTUAL [4]).2.2
      ⟨.invalid_argument, rfl⟩⟩

/-- C5, counterexample: on the server just built without stop words,
`AddDocument(1, "", ACTUAL, {})` returns, and the term frequencies stored for
document 1 sum to 0, not to 1: the document has no word, so the loop of
`AddDocument` stores no posting for it. -/
theorem C5_document_without_words :
    Reachable (built ℝ []) ∧
    (AddDocument (built ℝ []) 1 "".toList .ACTUAL []).1 = .ok () ∧
    termFrequencySum (AddDocument (built ℝ []) 1 "".toList .ACTUAL []).2 1 = 0 ∧
    termFrequencySum (AddDocument (built ℝ []) 1 "".toList .ACTUAL []).2 1 ≠ 1 := by
  have h : termFrequencySum (AddDocument (built ℝ []) 1 "".toList .ACTUAL []).2 1 = 0 := rfl
  refine ⟨⟨[], built ℝ [], [], rfl, rfl⟩, rfl, h, ?_⟩
  rw [h]
  exact zero_ne_one

/-- A use of C5: document 1 "cat dog" is added to the server just built
without stop words, then document 2 "dog"; the term frequencies of document 1
sum to 1. -/
theorem C5_term_frequencies_sum_to_one_witness :
    Reachable (built ℝ []) ∧
    (AddDocument (built ℝ []) 1 "cat dog".toList .ACTUAL []).1 = .ok () ∧
    (∃ w ∈ SplitIntoWords "cat dog".toList, w ∉ (built ℝ []).stop_words_) ∧
    termFrequencySum (run (AddDocument (built ℝ []) 1 "cat dog".toList .ACTUAL []).2
      [{ document_id := 2, document := "dog".toList, status := .ACTUAL, ratings := [] }]) 1
      = 1 :=
  ⟨⟨[], built ℝ [], [], rfl, rfl⟩, rfl, ⟨"cat".toList, by decide, by decide⟩,
    C5_term_frequencies_sum_to_one (built ℝ []) 1 "cat dog".toList .ACTUAL []
      [{ document_id := 2, document := "dog".toList, status := .ACTUAL, ratings := [] }]
      ⟨[], built ℝ [], [], rfl, rfl⟩ rfl ⟨"cat".toList, by decide, by decide⟩⟩

/-- A use of C6 on the document 5 "big dog sparrow" with the query
"dog -sparrow". -/
theorem C6_minus_word_empties_match_witness :
    ParseQuery (sparrowServer ℝ) "dog -sparrow".toList
        = .ok { plus_words := ["dog".toList], minus_words := ["sparrow".toList] } ∧
    StdMap.find? (sparrowServer ℝ).documents_ 5 = some { rating := 0, status := .ACTUAL } ∧
    (∃ w ∈ ["sparrow".toList], hasPosting (sparrowServer ℝ) w 5) ∧
    MatchDocument (sparrowServer ℝ) "dog -sparrow".toList 5 = .ok ([], DocumentStatus.ACTUAL) :=
  ⟨rfl, rfl,
    ⟨"sparrow".toList, List.mem_singleton.2 rfl, [(5, 0 + 1 / ((3 : ℕ) : ℝ))], rfl,
      List.mem_singleton.2 rfl⟩,
    C6_minus_word_empties_match.1 (sparrowServer ℝ) "dog -sparrow".toList
      { plus_words := ["dog".toList], minus_words := ["sparrow".toList] } 5
      { rating := 0, status := .ACTUAL } rfl rfl
      ⟨"sparrow".toList, List.mem_singleton.2 rfl, [(5, 0 + 1 / ((3 : ℕ) : ℝ))], rfl,
        List.mem_singleton.2 rfl⟩⟩

/-- A use of C7: after the calls for the documents 1 "cat dog" and 2 "dog",
`MatchDocument("dog", 1)` returns, with the status ACTUAL of the call. -/
theorem C7_MatchDocument_fails_iff_witness :
    (SearchServer.new [] : Except Error (SearchServer ℝ)) = .ok (built ℝ []) ∧
    ParseQuery (catDogServer ℝ) "dog".toList
        = .ok { plus_words := ["dog".toList], minus_words := [] } ∧
    ((∃ e, MatchDocument (catDogServer ℝ) "dog".toList 1 = .error e) ↔
      ∀ c ∈ succeeded (built ℝ [])
        [ { document_id := 1, document := "cat dog".toList, status := .ACTUAL, ratings := [] },
          { document_id := 2, document := "dog".toList, status := .ACTUAL, ratings := [] } ],
        c.document_id ≠ 1) ∧
    (∀ c ∈ succeeded (built ℝ [])
        [ { document_id := 1, document := "cat dog".toList, status := .ACTUAL, ratings := [] },
          { document_id := 2, document := "dog".toList, status := .ACTUAL, ratings := [] } ],
      c.document_id = 1 →
      ∃ words, MatchDocument (catDogServer ℝ) "dog".toList 1 = .ok (words, c.status)) :=
  ⟨rfl, rfl,
    C7_MatchDocument_fails_iff [] (built ℝ [])
      [ { document_id := 1, document := "cat dog".toList, status := .ACTUAL, ratings := [] },
        { document_id := 2, document := "dog".toList, status := .ACTUAL, ratings := [] } ]
      "dog".toList { plus_words := ["dog".toList], minus_words := [] } 1 rfl rfl⟩

/-- A use of C8: the query "dog --cat" is rejected, and with it
`FindTopDocuments` and `MatchDocument`; the query "dog -cat" parses into the
plus-word "dog" and the minus-word "cat". -/
theorem C8_ParseQuery_fails_iff_witness :
    ParseQuery (catDogServer ℝ) "dog --cat".toList = .error .invalid_argument ∧
    ((∀ (log : ℝ → ℝ) (p : Int → DocumentStatus → Int → Bool),
        FindTopDocuments log (catDogServer ℝ) "dog --cat".toList p
          = .error .invalid_argument) ∧
      (∀ document_id, MatchDocument (catDogServer ℝ) "dog --cat".toList document_id
          = .error .invalid_argument)) ∧
    ParseQuery (catDogServer ℝ) "dog -cat".toList
        = .ok { plus_words := ["dog".toList], minus_words := ["cat".toList] } ∧
    ((∀ w, w ∈ ["dog".toList] ↔
        ∃ t ∈ SplitIntoWords "dog -cat".toList,
          t.head? ≠ some '-' ∧ t ∉ (catDogServer ℝ).stop_words_ ∧ w = t) ∧
      (∀ w, w ∈ ["cat".toList] ↔
        ∃ t ∈ SplitIntoWords "dog -cat".toList,
          t.head? = some '-' ∧ t.drop 1 ∉ (catDogServer ℝ).stop_words_ ∧ w = t.drop 1) ∧
      ["dog".toList].Sorted (· < ·) ∧ ["cat".toList].Sorted (· < ·)) :=
  ⟨rfl,
    (C8_ParseQuery_fails_iff (catDogServer ℝ) "dog --cat".toList).2.1 .invalid_argument rfl,
    rfl,
    (C8_ParseQuery_fails_iff (catDogServer ℝ) "dog -cat".toList).2.2
      { plus_words := ["dog".toList], minus_words := ["cat".toList] } rfl⟩

/-- A use of C9 on the server with the stop words "and in at" and the document
2 "curly dog and fancy collar", with the query "and curly". -/
theorem C9_stop_words_excluded_witness :
    ParseQuery (curlyServer ℝ) "and curly".toList
        = .ok { plus_words := ["curly".toList], minus_words := [] } ∧
    (∀ w ∈ (curlyServer ℝ).stop_words_, w ∉ ["curly".toList] ∧ w ∉ ([] : List Str)) ∧
    Reachable (curlyServer ℝ) ∧
    (∀ w ∈ (curlyServer ℝ).stop_words_,
      w ∉ StdMap.keys (curlyServer ℝ).word_to_document_freqs_) ∧
    MatchDocument (curlyServer ℝ) "and curly".toList 2
      = .ok (["curly".toList], DocumentStatus.ACTUAL) ∧
    (∀ w ∈ (curlyServer ℝ).stop_words_, w ∉ ["curly".toList]) :=
  ⟨rfl,
    (@C9_stop_words_excluded ℝ _).1 (curlyServer ℝ) "and curly".toList
      { plus_words := ["curly".toList], minus_words := [] } rfl,
    ⟨SplitIntoWords "and in at".toList, built ℝ "and in at".toList, _, rfl, rfl⟩,
    (@C9_stop_words_excluded ℝ _).2.1 (curlyServer ℝ)
      ⟨SplitIntoWords "and in at".toList, built ℝ "and in at".toList, _, rfl, rfl⟩,
    rfl,
    (@C9_stop_words_excluded ℝ _).2.2.1 (curlyServer ℝ) "and curly".toList 2
      ["curly".toList] .ACTUAL rfl⟩

/-- A use of C10: after the calls for the documents 1 "cat dog" and 2 "dog",
the index 1 gives the id 2. -/
theorem C10_GetDocumentId_witness :
    (SearchServer.new [] : Except Error (SearchServer ℝ)) = .ok (built ℝ []) ∧
    (∀ c ∈ [ ({ document_id := 1, document := "cat dog".toList, status := .ACTUAL,
                ratings := [] } : AddCall),
             { document_id := 2, document := "dog".toList, status := .ACTUAL, ratings := [] } ],
      c.document_id < 2 ^ 31) ∧
    (-2 ^ 31 ≤ (1 : Int) ∧ (1 : Int) < 2 ^ 31) ∧
    GetDocumentId (catDogServer ℝ) 1 = .ok 2 ∧
    ((∃ e, GetDocumentId (catDogServer ℝ) 1 = .error e) ↔
      ((1 : Int) < 0 ∨ (1 : Int) ≥ GetDocumentCount (catDogServer ℝ))) :=
  ⟨rfl, by decide, by decide, rfl,
    (C10_GetDocumentId [] (built ℝ [])
      [ { document_id := 1, document := "cat dog".toList, status := .ACTUAL, ratings := [] },
        { document_id := 2, document := "dog".toList, status := .ACTUAL, ratings := [] } ]
      1 rfl (by decide) (by decide)).1⟩

/-! ## C16: the tokens of `SplitIntoWords` -/

theorem SplitIntoWords.loop_runs (cs : List Char) (word : Str) (words : List Str) :
    ∃ h t, cs.splitOnP (fun c => c == ' ') = h :: t ∧
      SplitIntoWords.loop cs word words
        = words ++ ((word ++ h) :: t).filter fun w => !w.isEmpty := by
  induction cs generalizing word words with
  | nil =>
    refine ⟨[], [], List.splitOnP_nil _, ?_⟩
    unfold SplitIntoWords.loop
    cases word <;> simp
  | cons c cs ih =>
    by_cases hc : c = ' '
    · subst hc
      cases word with
      | nil =>
        obtain ⟨h, t, e, hl⟩ := ih [] words
        refine ⟨[], h :: t, by rw [List.splitOnP_cons, e]; rfl, ?_⟩
        unfold SplitIntoWords.loop
        simp only [if_true, List.isEmpty_nil, Bool.not_true, Bool.false_eq_true, if_false]
        rw [hl]
        simp
      | cons a w =>
        obtain ⟨h, t, e, hl⟩ := ih [] (words ++ [a :: w])
        refine ⟨[], h :: t, by rw [List.splitOnP_cons, e]; rfl, ?_⟩
        unfold SplitIntoWords.loop
        simp only [if_true, List.isEmpty_cons, Bool.not_false]
        rw [hl]
        simp
    · obtain ⟨h, t, e, hl⟩ := ih (word ++ [c]) words
      have hb : (c == ' ') = false := by simpa using hc
      refine ⟨c :: h, t, by rw [List.splitOnP_cons, e, hb]; rfl, ?_⟩
      unfold SplitIntoWords.loop
      rw [if_neg hc, hl]
      simp

theorem SplitIntoWords_eq_runs (text : Str) :
    SplitIntoWords text = runsOutside (fun c => c == ' ') text := by
  obtain ⟨h, t, e, hl⟩ := SplitIntoWords.loop_runs text [] []
  unfold SplitIntoWords runsOutside
  rw [hl, e]
  simp

theorem SplitIntoWords.loop_no_space (cs : List Char) (word : Str) (words : List Str)
    (hword : ' ' ∉ word) (w : Str) (hw : w ∈ SplitIntoWords.loop cs word words) :
    w ∈ words ∨ ' ' ∉ w := by
  induction cs generalizing word words with
  | nil =>
    unfold SplitIntoWords.loop at hw
    cases word with
    | nil => simp at hw; exact Or.inl hw
    | cons a x =>
      simp at hw
      rcases hw with h | h
      · exact Or.inl h
      · exact Or.inr (by rw [h]; exact hword)
  | cons c cs ih =>
    unfold SplitIntoWords.loop at hw
    by_cases hc : c = ' '
    · cases word with
      | nil =>
        simp [hc] at hw
        exact ih _ _ hword hw
      | cons a x =>
        simp [hc] at hw
        rcases ih _ _ (by simp) hw with h | h
        · simp at h
          rcases h with h | h
          · exact Or.inl h
          · exact Or.inr (by rw [h]; exact hword)
        · exact Or.inr h
    · simp [hc] at hw
      refine ih _ _ ?_ hw
      intro hmem
      rcases List.mem_append.1 hmem with h | h
      · exact hword h
      · simp at h
        exact hc h.symm

/-- C16 (as amended): `SplitIntoWords`, through which `AddDocument` and
`ParseQuery` split their input, cuts the text at every space and only there:
its tokens are, in order, the maximal runs of characters other than the
space, so no token is empty or holds a space. -/
theorem C16_tokens_are_runs_between_spaces (text : Str) :
    SplitIntoWords text = runsOutside (fun c => c == ' ') text ∧
    (∀ w ∈ SplitIntoWords text, w ≠ [] ∧ ' ' ∉ w) := by
  refine ⟨SplitIntoWords_eq_runs text, fun w hw => ⟨SplitIntoWords_ne_nil hw, ?_⟩⟩
  rcases SplitIntoWords.loop_no_space text [] [] (by simp) w hw with h | h
  · simp at h
  · exact h

/-- C16, counterexample: the text "a", tab, "b" is not cut at the tab. Its
maximal runs of non-whitespace characters are "a" and "b", but
`SplitIntoWords` returns the single token "a", tab, "b", which holds a
whitespace character. -/
theorem C16_tab_is_not_a_separator :
    SplitIntoWords "a\tb".toList = ["a\tb".toList] ∧
    runsOutside isWhitespace "a\tb".toList = ["a".toList, "b".toList] ∧
    SplitIntoWords "a\tb".toList ≠ runsOutside isWhitespace "a\tb".toList ∧
    ∃ w ∈ SplitIntoWords "a\tb".toList, ∃ c ∈ w, isWhitespace c = true := by
  refine ⟨by decide, by decide, by decide, "a\tb".toList, by decide, '\t', by decide, by decide⟩

/-! ## C19: the words that `MatchDocument` returns -/

/-- C19: for a stored document and a query that parses, none of whose
minus-words has a posting for the document, the word list that `MatchDocument`
returns holds exactly the plus-words of the parsed query that have a posting
for the document, in strictly ascending lexicographic order, hence each once. -/
theorem C19_matched_words_sorted {R : Type} [LinearOrderedField R] (s : SearchServer R)
    (raw_query : Str) (query : Query) (document_id : Int) (document_data : DocumentData)
    (hq : ParseQuery s raw_query = .ok query)
    (hd : StdMap.find? s.documents_ document_id = some document_data)
    (hm : ∀ w ∈ query.minus_words, ¬ hasPosting s w document_id) :
    ∃ words, MatchDocument s raw_query document_id = .ok (words, document_data.status) ∧
      (∀ w, w ∈ words ↔ (w ∈ query.plus_words ∧ hasPosting s w document_id)) ∧
      words.Sorted (· < ·) ∧ words.Nodup := by
  have hany : query.minus_words.any (postedIn s document_id) = false := by
    rw [Bool.eq_false_iff]
    intro h
    obtain ⟨w, hw, hp⟩ := List.any_eq_true.1 h
    exact hm w hw ((postedIn_iff s document_id w).1 hp)
  have hsorted : (query.plus_words.filter (postedIn s document_id)).Sorted (· < ·) :=
    ((C8_ParseQuery_fails_iff s raw_query).2.2 query hq).2.2.1.filter _
  refine ⟨query.plus_words.filter (postedIn s document_id), ?_, ?_, hsorted, hsorted.nodup⟩
  · rw [MatchDocument_of_parsed s raw_query document_id query hq,
      (StdMap.atKey_eq_ok_iff _ _ _).2 hd, hany]
    rfl
  · intro w
    rw [List.mem_filter, postedIn_iff]

/-- A use of C19 on the server with the stop words "and in at" and the
document 2 "curly dog and fancy collar": the query "fancy curly cat" matches
the words "curly" and "fancy", in this order. -/
theorem C19_matched_words_sorted_witness :
    ParseQuery (curlyServer ℝ) "fancy curly cat".toList
        = .ok { plus_words := ["cat".toList, "curly".toList, "fancy".toList],
                minus_words := [] } ∧
    StdMap.find? (curlyServer ℝ).documents_ 2 = some { rating := 2, status := .ACTUAL } ∧
    MatchDocument (curlyServer ℝ) "fancy curly cat".toList 2
      = .ok (["curly".toList, "fancy".toList], DocumentStatus.ACTUAL) ∧
    ∃ words, MatchDocument (curlyServer ℝ) "fancy curly cat".toList 2
        = .ok (words, DocumentStatus.ACTUAL) ∧
      (∀ w, w ∈ words ↔
        (w ∈ ["cat".toList, "curly".toList, "fancy".toList] ∧
          hasPosting (curlyServer ℝ) w 2)) ∧
      words.Sorted (· < ·) ∧ words.Nodup :=
  ⟨rfl, rfl, rfl,
    C19_matched_words_sorted (curlyServer ℝ) "fancy curly cat".toList
      { plus_words := ["cat".toList, "curly".toList, "fancy".toList], minus_words := [] } 2
      { rating := 2, status := .ACTUAL } rfl rfl (fun w hw => by cases hw)⟩

/-! ## Facts about the postings -/

section PostingFacts

variable {R : Type} [LinearOrderedField R]

theorem hasPosting_iff (s : SearchServer R) (w : Str) (d : Int) :
    hasPosting s w d ↔ (posting? s.word_to_document_freqs_ w d).isSome := by
  unfold hasPosting posting?
  cases StdMap.find? s.word_to_document_freqs_ w with
  | none => simp
  | some postings => simp [StdMap.find?_isSome_iff]

theorem posting?_addFreq (document_id : Int) (inv : R) (freqs : List (Str × List (Int × R)))
    (x : Str) (wf : StdMap.WF freqs)
    (hp : ∀ w p, StdMap.find? freqs w = some p → StdMap.WF p) (w : Str) (d : Int) :
    posting? (addFreq document_id inv freqs x) w d
      = if w = x ∧ d = document_id then some ((posting? freqs w d).getD 0 + inv)
        else posting? freqs w d := by
  unfold posting? addFreq
  by_cases hw : w = x
  · subst hw
    rw [StdMap.find?_modify_self _ _ wf]
    have hwf : StdMap.WF ((StdMap.find? freqs w).getD []) := by
      cases h : StdMap.find? freqs w with
      | none => exact StdMap.WF_nil
      | some q => exact hp w q h
    by_cases hd : d = document_id
    · subst hd
      simp only [true_and, if_true]
      rw [StdMap.find?_modify_self _ _ hwf]
      cases StdMap.find? freqs w <;> rfl
    · simp only [hd, and_false, if_false]
      rw [StdMap.find?_modify_ne _ _ _ hd]
      cases StdMap.find? freqs w <;> rfl
  · simp only [hw, false_and, if_false]
    rw [StdMap.find?_modify_ne _ _ _ hw]

theorem posting?_foldl_addFreq (document_id : Int) (inv : R) (stop : List Str) (D : List Int)
    (hD : document_id ∈ D) (words : List Str) (freqs : List (Str × List (Int × R)))
    (hwords : ∀ w ∈ words, w ∉ stop) (wf : StdMap.WF freqs)
    (hp : ∀ w p, StdMap.find? freqs w = some p →
      StdMap.WF p ∧ p ≠ [] ∧ ∀ id ∈ StdMap.keys p, id ∈ D)
    (hs : ∀ w ∈ StdMap.keys freqs, w ∉ stop) (w : Str) (d : Int) :
    posting? (words.foldl (addFreq document_id inv) freqs) w d
      = if d = document_id ∧ w ∈ words then
          some ((posting? freqs w d).getD 0 + (words.count w : R) * inv)
        else posting? freqs w d := by
  induction words generalizing freqs with
  | nil => simp
  | cons x xs ih =>
    rw [List.foldl_cons]
    obtain ⟨a, b, c⟩ := addFreq_keeps document_id inv stop D hD freqs x
      (hwords x (List.mem_cons_self _ _)) wf hp hs
    rw [ih _ (fun w hw => hwords w (List.mem_cons_of_mem _ hw)) a b c,
      posting?_addFreq document_id inv freqs x wf (fun w p h => (hp w p h).1)]
    by_cases hd : d = document_id
    · by_cases hwx : w = x
      · subst hwx
        by_cases hmem : w ∈ xs
        · simp only [hd, hmem, and_self, if_true, true_and, List.mem_cons, true_or,
            Option.getD_some, List.count_cons_self, Nat.cast_add, Nat.cast_one]
          congr 1
          ring
        · have h0 : xs.count w = 0 := List.count_eq_zero.2 hmem
          simp only [hd, hmem, and_false, if_false, and_self, if_true, List.mem_cons, true_or,
            List.count_cons_self, h0, Nat.cast_add, Nat.cast_one, Nat.cast_zero]
          congr 1
          ring
      · have hxw : ¬ x = w := fun e => hwx e.symm
        have hcount : (x :: xs).count w = xs.count w := by
          rw [List.count_cons]
          simp [hxw]
        by_cases hmem : w ∈ xs
        · simp only [hd, hmem, and_self, if_true, hwx, false_and, if_false, List.mem_cons,
            or_true, hcount]
        · simp only [hd, hmem, and_false, if_false, hwx, false_and, List.mem_cons, or_self]
    · simp only [hd, false_and, and_false, if_false]

theorem indexedWords_congr (s s' : SearchServer R) (document : Str)
    (h : s'.stop_words_ = s.stop_words_) : indexedWords s' document = indexedWords s document := by
  unfold indexedWords
  congr 1
  funext w
  have : IsStopWord s' w = IsStopWord s w := by
    unfold IsStopWord
    rw [h]
  rw [this]

theorem stop_words_run (s : SearchServer R) (calls : List AddCall) :
    (run s calls).stop_words_ = s.stop_words_ := by
  induction calls generalizing s with
  | nil => rfl
  | cons a cs ih =>
    by_cases h : rejected s a.document_id a.document
    · rw [(succeeded_cons_rejected s a cs h).2.1]
      exact ih s
    · rw [(succeeded_cons_added s a cs h).2.1, ih]
      rfl

theorem posting?_of_not_stored (s : SearchServer R) (hs : Inv s) (w : Str) (d : Int)
    (h : d ∉ StdMap.keys s.documents_) : posting? s.word_to_document_freqs_ w d = none := by
  unfold posting?
  cases hf : StdMap.find? s.word_to_document_freqs_ w with
  | none => rfl
  | some postings =>
    simp only []
    rw [StdMap.find?_eq_none_iff]
    exact fun hmem => h (hs.postings_ids w postings hf d hmem)

/-- The postings after an accepted call: the new document gets a posting for
each of its indexed words, with the number of occurrences of the word times
the inverse of the number of indexed words; the other postings are kept. -/
theorem posting?_added (s : SearchServer R) (hs : Inv s) (document_id : Int)
    (document : Str) (status : DocumentStatus) (ratings : List Int)
    (h : ¬ rejected s document_id document) (w : Str) (d : Int) :
    posting? (added s document_id (indexedWords s document) status ratings).word_to_document_freqs_
        w d
      = if d = document_id ∧ w ∈ indexedWords s document then
          some (0 + ((indexedWords s document).count w : R)
            * (1 / ((indexedWords s document).length : R)))
        else posting? s.word_to_document_freqs_ w d := by
  have hfresh : document_id ∉ StdMap.keys s.documents_ := fun hm => h (Or.inr (Or.inl hm))
  rw [added_freqs, posting?_foldl_addFreq document_id _ s.stop_words_
    (document_id :: StdMap.keys s.documents_) (List.mem_cons_self _ _)
    (indexedWords s document) s.word_to_document_freqs_ (indexedWords_not_stop s document)
    hs.freqs_wf
    (fun w p hf => ⟨hs.postings_wf w p hf, hs.postings_ne w p hf,
      fun id hid => List.mem_cons_of_mem _ (hs.postings_ids w p hf id hid)⟩)
    hs.no_stop]
  by_cases hc : d = document_id ∧ w ∈ indexedWords s document
  · rw [if_pos hc, if_pos hc, hc.1, posting?_of_not_stored s hs w document_id hfresh]
    rfl
  · rw [if_neg hc, if_neg hc]

theorem posting?_run_of_stored (s : SearchServer R) (hs : Inv s) (w : Str) (d : Int)
    (h : d ∈ StdMap.keys s.documents_) (calls : List AddCall) :
    posting? (run s calls).word_to_document_freqs_ w d
      = posting? s.word_to_document_freqs_ w d := by
  induction calls generalizing s with
  | nil => rfl
  | cons a cs ih =>
    by_cases hr : rejected s a.document_id a.document
    · rw [(succeeded_cons_rejected s a cs hr).2.1]
      exact ih s hs h
    · rw [(succeeded_cons_added s a cs hr).2.1,
        ih _ (Inv_added s hs _ _ _ _ hr) ((StdMap.keys_modify _ _ _ _).2 (Or.inr h)),
        posting?_added s hs _ _ _ _ hr]
      have hne : d ≠ a.document_id := by
        intro e
        rw [e] at h
        exact hr (Or.inr (Or.inl h))
      simp only [hne, false_and, if_false]

/-- The postings after a sequence of calls, for the document of a call that
returned. -/
theorem posting?_run (s : SearchServer R) (hs : Inv s) (calls : List AddCall) (w : Str)
    (c : AddCall) (hc : c ∈ succeeded s calls) :
    posting? (run s calls).word_to_document_freqs_ w c.document_id
      = if w ∈ indexedWords s c.document then
          some (0 + ((indexedWords s c.document).count w : R)
            * (1 / ((indexedWords s c.document).length : R)))
        else none := by
  induction calls generalizing s with
  | nil => cases hc
  | cons a cs ih =>
    by_cases hr : rejected s a.document_id a.document
    · rw [(succeeded_cons_rejected s a cs hr).2.2] at hc
      rw [(succeeded_cons_rejected s a cs hr).2.1]
      exact ih s hs hc
    · rw [(succeeded_cons_added s a cs hr).2.2] at hc
      rw [(succeeded_cons_added s a cs hr).2.1]
      have hinv := Inv_added s hs a.document_id a.document a.status a.ratings hr
      rcases List.mem_cons.1 hc with e | e
      · subst e
        rw [posting?_run_of_stored _ hinv w c.document_id
            ((StdMap.keys_modify _ _ _ _).2 (Or.inl rfl)) cs,
          posting?_added s hs _ _ _ _ hr]
        have hfresh : c.document_id ∉ StdMap.keys s.documents_ :=
          fun hm => hr (Or.inr (Or.inl hm))
        by_cases hw : w ∈ indexedWords s c.document
        · simp only [hw, and_self, if_true]
        · simp only [hw, and_false, if_false]
          exact posting?_of_not_stored s hs w c.document_id hfresh
      · rw [ih _ hinv e, indexedWords_congr s
          (added s a.document_id (indexedWords s a.document) a.status a.ratings) c.document rfl]

theorem hasPosting_run (s₀ : SearchServer R) (hs : Inv s₀) (hempty : s₀.documents_ = [])
    (calls : List AddCall) (w : Str) (d : Int) :
    hasPosting (run s₀ calls) w d ↔
      ∃ c ∈ succeeded s₀ calls, c.document_id = d ∧ w ∈ indexedWords s₀ c.document := by
  rw [hasPosting_iff]
  constructor
  · intro h
    have hstored : d ∈ StdMap.keys (run s₀ calls).documents_ := by
      by_contra hn
      rw [posting?_of_not_stored _ (Inv_run s₀ hs calls) w d hn] at h
      cases h
    rcases (keys_documents_run s₀ hs calls d).1 hstored with h0 | ⟨c, hc, hid⟩
    · rw [hempty] at h0
      cases h0
    · refine ⟨c, hc, hid, ?_⟩
      subst hid
      rw [posting?_run s₀ hs calls w c hc] at h
      by_contra hw
      rw [if_neg hw] at h
      cases h
  · rintro ⟨c, hc, hid, hw⟩
    subst hid
    rw [posting?_run s₀ hs calls w c hc, if_pos hw]
    rfl

end PostingFacts

/-! ## Facts about the first loop of `FindAllDocuments` -/

section ScoreFacts

variable {R : Type} [LinearOrderedField R]

theorem admits_iff (s : SearchServer R) (p : Int → DocumentStatus → Int → Bool) (d : Int) :
    admits s p d = true ↔
      ∃ data, StdMap.find? s.documents_ d = some data ∧ p d data.status data.rating = true := by
  unfold admits
  cases StdMap.find? s.documents_ d with
  | none => simp
  | some data => simp

/-- The inner loop of the first loop of `FindAllDocuments`, over postings with
ascending ids that are all stored. -/
theorem foldlM_scorePosting (s : SearchServer R) (p : Int → DocumentStatus → Int → Bool)
    (idf : R) (postings : List (Int × R)) (b : List (Int × R)) (wfp : StdMap.WF postings)
    (hids : ∀ id ∈ StdMap.keys postings, id ∈ StdMap.keys s.documents_) (wfb : StdMap.WF b) :
    ∃ b', postings.foldlM (scorePosting s p idf) b = .ok b' ∧ StdMap.WF b' ∧
      ∀ d, StdMap.find? b' d
        = match StdMap.find? postings d with
          | some term_freq =>
            if admits s p d then some ((StdMap.find? b d).getD 0 + term_freq * idf)
            else StdMap.find? b d
          | none => StdMap.find? b d := by
  induction postings generalizing b with
  | nil => exact ⟨b, rfl, wfb, fun d => rfl⟩
  | cons e rest ih =>
    obtain ⟨id0, tf0⟩ := e
    have wf' := StdMap.WF_cons.1 wfp
    have hstored : id0 ∈ StdMap.keys s.documents_ := hids id0 (by simp [StdMap.keys])
    obtain ⟨data, hdata⟩ := Option.isSome_iff_exists.1
      ((StdMap.find?_isSome_iff _ _).2 hstored)
    have hat : StdMap.atKey s.documents_ id0 = .ok data :=
      (StdMap.atKey_eq_ok_iff _ _ _).2 hdata
    have hadm : admits s p id0 = p id0 data.status data.rating := by
      unfold admits
      rw [hdata]
    have hrest : StdMap.find? rest id0 = none := by
      rw [StdMap.find?_eq_none_iff]
      exact fun hm => lt_irrefl _ (wf'.1 id0 hm)
    have hids' : ∀ id ∈ StdMap.keys rest, id ∈ StdMap.keys s.documents_ :=
      fun id hid => hids id (by simp only [StdMap.keys, List.map_cons, List.mem_cons]; exact Or.inr hid)
    rw [List.foldlM_cons]
    by_cases hp : p id0 data.status data.rating = true
    · have hstep : scorePosting s p idf b (id0, tf0)
          = .ok (StdMap.modify id0 (fun relevance => relevance.getD 0 + tf0 * idf) b) := by
        unfold scorePosting
        simp only [hat, bind, Except.bind, hp, if_true]
        rfl
      rw [hstep]
      obtain ⟨b', hb', wfb', hfind⟩ := ih _ wf'.2 hids' (StdMap.WF_modify _ _ wfb)
      refine ⟨b', hb', wfb', ?_⟩
      intro d
      rw [hfind d]
      by_cases hd : d = id0
      · subst hd
        rw [hrest]
        simp only [StdMap.find?, if_true, hadm, hp]
        exact StdMap.find?_modify_self _ _ wfb
      · have hd' : ¬ id0 = d := fun e => hd e.symm
        rw [StdMap.find?_modify_ne _ _ _ hd]
        simp only [StdMap.find?, hd', if_false]
    · have hstep : scorePosting s p idf b (id0, tf0) = .ok b := by
        unfold scorePosting
        simp only [hat, bind, Except.bind, hp, Bool.false_eq_true, if_false]
        rfl
      rw [hstep]
      obtain ⟨b', hb', wfb', hfind⟩ := ih _ wf'.2 hids' wfb
      refine ⟨b', hb', wfb', ?_⟩
      intro d
      rw [hfind d]
      by_cases hd : d = id0
      · subst hd
        rw [hrest]
        simp only [StdMap.find?, if_true, hadm, hp, Bool.false_eq_true, if_false]
      · have hd' : ¬ id0 = d := fun e => hd e.symm
        simp only [StdMap.find?, hd', if_false]

/-- One pass of the first loop of `FindAllDocuments`, on a server that
satisfies the invariant. -/
theorem scoreWord_spec (log : R → R) (s : SearchServer R) (hs : Inv s)
    (p : Int → DocumentStatus → Int → Bool) (b : List (Int × R)) (w : Str)
    (wfb : StdMap.WF b) :
    ∃ b', scoreWord log s p b w = .ok b' ∧ StdMap.WF b' ∧
      ∀ d, StdMap.find? b' d
        = match contribution log s p w d with
          | some c => some ((StdMap.find? b d).getD 0 + c)
          | none => StdMap.find? b d := by
  unfold scoreWord contribution posting? postingCount ComputeWordInverseDocumentFreq
  cases hf : StdMap.find? s.word_to_document_freqs_ w with
  | none =>
    rw [if_pos ((StdMap.count_eq_zero_iff _ _).2 hf)]
    exact ⟨b, rfl, wfb, fun d => rfl⟩
  | some postings =>
    have hne : ¬ StdMap.count s.word_to_document_freqs_ w = 0 := by
      rw [StdMap.count_eq_zero_iff, hf]
      simp
    rw [if_neg hne, (StdMap.atKey_eq_ok_iff _ _ _).2 hf]
    obtain ⟨b', hb', wfb', hfind⟩ := foldlM_scorePosting s p
      (log ((GetDocumentCount s : R) * 1 / (postings.length : R))) postings b
      (hs.postings_wf w postings hf) (hs.postings_ids w postings hf) wfb
    refine ⟨b', hb', wfb', ?_⟩
    intro d
    rw [hfind d]
    dsimp only
    cases StdMap.find? postings d with
    | none => rfl
    | some tf =>
      dsimp only
      cases admits s p d <;> rfl

/-- The accumulation of the contributions of the plus-words for one document. -/
theorem foldlM_scoreWord (log : R → R) (s : SearchServer R) (hs : Inv s)
    (p : Int → DocumentStatus → Int → Bool) (words : List Str) (b : List (Int × R))
    (wfb : StdMap.WF b) :
    ∃ a, words.foldlM (scoreWord log s p) b = .ok a ∧ StdMap.WF a ∧
      ∀ d, StdMap.find? a d
        = words.foldl (fun o w =>
            match contribution log s p w d with
            | some c => some (o.getD 0 + c)
            | none => o) (StdMap.find? b d) := by
  induction words generalizing b with
  | nil => exact ⟨b, rfl, wfb, fun d => rfl⟩
  | cons w ws ih =>
    obtain ⟨b', hb', wfb', hfind⟩ := scoreWord_spec log s hs p b w wfb
    obtain ⟨a, ha, wfa, hfa⟩ := ih b' wfb'
    refine ⟨a, ?_, wfa, ?_⟩
    · rw [List.foldlM_cons, hb']
      exact ha
    · intro d
      rw [hfa d, hfind d, List.foldl_cons]

theorem contributions_isSome (log : R → R) (s : SearchServer R)
    (p : Int → DocumentStatus → Int → Bool) (words : List Str) (d : Int) (o : Option R) :
    (words.foldl (fun o w =>
        match contribution log s p w d with
        | some c => some (o.getD 0 + c)
        | none => o) o).isSome
      ↔ (o.isSome ∨ ∃ w ∈ words, (contribution log s p w d).isSome) := by
  induction words generalizing o with
  | nil => simp
  | cons w ws ih =>
    rw [List.foldl_cons, ih]
    cases hc : contribution log s p w d with
    | none => simp [hc]
    | some c => simp [hc]

theorem contributions_sum (log : R → R) (s : SearchServer R)
    (p : Int → DocumentStatus → Int → Bool) (words : List Str) (d : Int) (o : Option R) :
    (words.foldl (fun o w =>
        match contribution log s p w d with
        | some c => some (o.getD 0 + c)
        | none => o) o).getD 0
      = o.getD 0 + (words.map fun w => (contribution log s p w d).getD 0).sum := by
  induction words generalizing o with
  | nil => simp
  | cons w ws ih =>
    rw [List.foldl_cons, ih]
    cases hc : contribution log s p w d with
    | none => simp [hc]
    | some c =>
      simp only [Option.getD_some, List.map_cons, List.sum_cons, hc]
      ring

theorem contribution_isSome_iff (log : R → R) (s : SearchServer R)
    (p : Int → DocumentStatus → Int → Bool) (w : Str) (d : Int) :
    (contribution log s p w d).isSome ↔ (hasPosting s w d ∧ admits s p d = true) := by
  rw [hasPosting_iff]
  unfold contribution
  cases posting? s.word_to_document_freqs_ w d with
  | none => simp
  | some tf =>
    cases admits s p d <;> simp

theorem mapM_toDocument_ok (s : SearchServer R) (m : List (Int × R))
    (h : ∀ id ∈ StdMap.keys m, id ∈ StdMap.keys s.documents_) :
    ∃ docs, m.mapM (toDocument s) = .ok docs := by
  induction m with
  | nil => exact ⟨[], rfl⟩
  | cons e es ih =>
    obtain ⟨docs, hdocs⟩ := ih (fun id hid =>
      h id (by simp only [StdMap.keys, List.map_cons, List.mem_cons]; exact Or.inr hid))
    obtain ⟨data, hdata⟩ := Option.isSome_iff_exists.1
      ((StdMap.find?_isSome_iff _ _).2 (h e.1 (by simp [StdMap.keys])))
    refine ⟨{ id := e.1, relevance := e.2, rating := data.rating } :: docs, ?_⟩
    rw [List.mapM_cons, hdocs]
    unfold toDocument
    rw [(StdMap.atKey_eq_ok_iff _ _ _).2 hdata]
    rfl

/-- What `FindAllDocuments` returns on a server that satisfies the invariant:
it does not throw, and the entries of the result are the documents that have
a posting for a plus-word, pass the predicate and have no posting for a
minus-word, each with the sum of the contributions of the plus-words. -/
theorem FindAllDocuments_spec (log : R → R) (s : SearchServer R) (hs : Inv s) (query : Query)
    (p : Int → DocumentStatus → Int → Bool) :
    ∃ docs, FindAllDocuments log s query p = .ok docs ∧
      (docs.map fun d => d.id).Nodup ∧
      (∀ d, d ∈ (docs.map fun d => d.id) ↔
        ((∃ w ∈ query.plus_words, hasPosting s w d) ∧ admits s p d = true ∧
          ∀ w ∈ query.minus_words, ¬ hasPosting s w d)) ∧
      (∀ d ∈ docs, d.relevance
        = (query.plus_words.map fun w => (contribution log s p w d.id).getD 0).sum) := by
  obtain ⟨a, ha, wfa, hfa⟩ := foldlM_scoreWord log s hs p query.plus_words [] StdMap.WF_nil
  obtain ⟨wfv, hkeys, hvals⟩ := foldl_vetoed_spec s query.minus_words a wfa
  have hmem_a : ∀ d, d ∈ StdMap.keys a ↔
      ∃ w ∈ query.plus_words, (hasPosting s w d ∧ admits s p d = true) := by
    intro d
    rw [← StdMap.find?_isSome_iff, hfa d, contributions_isSome]
    simp only [StdMap.find?_nil, Option.isSome_none, Bool.false_eq_true, false_or,
      contribution_isSome_iff]
  have hstored : ∀ id ∈ StdMap.keys (query.minus_words.foldl (vetoed s) a),
      id ∈ StdMap.keys s.documents_ := by
    intro id hid
    obtain ⟨w, _, _, hadm⟩ := (hmem_a id).1 ((hkeys id).1 hid).1
    obtain ⟨data, hdata, _⟩ := (admits_iff s p id).1 hadm
    exact (StdMap.find?_isSome_iff _ _).1 (by rw [hdata]; rfl)
  obtain ⟨docs, hdocs⟩ := mapM_toDocument_ok s _ hstored
  have hall : FindAllDocuments log s query p = .ok docs := by
    rw [FindAllDocuments_eq, ha]
    simp only [bind, Except.bind]
    rw [foldlM_vetoWord]
    exact hdocs
  obtain ⟨hentries, _⟩ := mapM_toDocument s _ docs hdocs
  have hids := ids_eq_keys docs _ hentries
  refine ⟨docs, hall, ?_, ?_, ?_⟩
  · rw [hids]
    exact StdMap.keys_nodup wfv
  · intro d
    rw [hids, hkeys d, hmem_a d]
    constructor
    · rintro ⟨⟨w, hw, hp, hadm⟩, hm⟩
      exact ⟨⟨w, hw, hp⟩, hadm, hm⟩
    · rintro ⟨⟨w, hw, hp⟩, hadm, hm⟩
      exact ⟨⟨w, hw, hp, hadm⟩, hm⟩
  · intro d hd
    have hpair : (d.id, d.relevance) ∈ query.minus_words.foldl (vetoed s) a := by
      rw [← hentries]
      exact List.mem_map.2 ⟨d, hd, rfl⟩
    have hfind := StdMap.find?_of_mem wfv hpair
    have hkey : d.id ∈ StdMap.keys (query.minus_words.foldl (vetoed s) a) :=
      List.mem_map.2 ⟨_, hpair, rfl⟩
    rw [hvals d.id ((hkeys d.id).1 hkey).2, hfa d.id] at hfind
    have hsum := contributions_sum log s p query.plus_words d.id (StdMap.find? [] d.id)
    rw [hfind] at hsum
    simp only [Option.getD_some, StdMap.find?_nil, Option.getD_none, zero_add] at hsum
    exact hsum

end ScoreFacts

/-! ## C13, C17, C18, C20: the index and the scores -/

section IndexClaims

variable {R : Type} [LinearOrderedField R]

theorem mem_indexedWords_iff (s : SearchServer R) (document : Str) (w : Str) :
    w ∈ indexedWords s document ↔ (w ∈ SplitIntoWords document ∧ w ∉ s.stop_words_) := by
  unfold indexedWords
  rw [List.mem_filter, ← IsStopWord_eq_true_iff]
  cases IsStopWord s w <;> simp

theorem succeeded_ids_nodup (stop_words : List Str) (s₀ : SearchServer R) (calls : List AddCall)
    (h₀ : SearchServer.new stop_words = .ok s₀) :
    ((succeeded s₀ calls).map fun c => c.document_id).Nodup := by
  have hinv := Inv_run s₀ (Inv_new stop_words s₀ h₀) calls
  have hids : (run s₀ calls).document_ids_
      = (succeeded s₀ calls).map fun c => c.document_id := by
    rw [document_ids_run, (new_ok stop_words s₀ h₀).2.2]
    rfl
  rw [← hids]
  exact hinv.ids_perm.nodup_iff.2 (StdMap.keys_nodup hinv.documents_wf)

/-- C13: for a server built by the constructor and a sequence of `AddDocument`
calls, a word is a key of the index exactly when it is a token, not a stop
word, of the text of some call that returned; and a document is in the
posting list of a word exactly when the word is a token, not a stop word, of
the text of the call that returned with this id (there is at most one: the
ids of the calls that returned are pairwise distinct). -/
theorem C13_index_holds_the_indexed_words (stop_words : List Str) (s₀ : SearchServer R)
    (calls : List AddCall) (h₀ : SearchServer.new stop_words = .ok s₀) :
    (∀ w, w ∈ StdMap.keys (run s₀ calls).word_to_document_freqs_ ↔
      ∃ c ∈ succeeded s₀ calls, w ∈ SplitIntoWords c.document ∧ w ∉ s₀.stop_words_) ∧
    (∀ w d, hasPosting (run s₀ calls) w d ↔
      ∃ c ∈ succeeded s₀ calls,
        c.document_id = d ∧ w ∈ SplitIntoWords c.document ∧ w ∉ s₀.stop_words_) ∧
    ((succeeded s₀ calls).map fun c => c.document_id).Nodup ∧
    (run s₀ calls).stop_words_ = s₀.stop_words_ := by
  have hinv₀ := Inv_new stop_words s₀ h₀
  have hinv := Inv_run s₀ hinv₀ calls
  have hpost : ∀ w d, hasPosting (run s₀ calls) w d ↔
      ∃ c ∈ succeeded s₀ calls,
        c.document_id = d ∧ w ∈ SplitIntoWords c.document ∧ w ∉ s₀.stop_words_ := by
    intro w d
    rw [hasPosting_run s₀ hinv₀ (new_ok stop_words s₀ h₀).2.1 calls w d]
    simp only [mem_indexedWords_iff]
  refine ⟨?_, hpost, succeeded_ids_nodup stop_words s₀ calls h₀, stop_words_run s₀ calls⟩
  intro w
  constructor
  · intro hw
    obtain ⟨postings, hf⟩ := Option.isSome_iff_exists.1 ((StdMap.find?_isSome_iff _ _).2 hw)
    obtain ⟨e, he⟩ := List.exists_mem_of_ne_nil _ (hinv.postings_ne w postings hf)
    have hkey : e.1 ∈ StdMap.keys postings := List.mem_map.2 ⟨e, he, rfl⟩
    obtain ⟨c, hc, _, h1, h2⟩ := (hpost w e.1).1 ⟨postings, hf, hkey⟩
    exact ⟨c, hc, h1, h2⟩
  · rintro ⟨c, hc, h1, h2⟩
    obtain ⟨postings, hf, _⟩ := (hpost w c.document_id).2 ⟨c, hc, rfl, h1, h2⟩
    exact (StdMap.find?_isSome_iff _ _).1 (by rw [hf]; rfl)

/-- C17: on a reachable server, `FindAllDocuments` returns, and a document id is
in its output exactly when some plus-word of the query has a posting for the
document, the predicate holds on the id with the stored status and rating,
and no minus-word of the query has a posting for the document; each such id
is in the output exactly once, whatever its relevance. -/
theorem C17_FindAllDocuments_members (log : R → R) (s : SearchServer R) (query : Query)
    (p : Int → DocumentStatus → Int → Bool) (hs : Reachable s) :
    ∃ docs, FindAllDocuments log s query p = .ok docs ∧
      (∀ d, d ∈ (docs.map fun d => d.id) ↔
        ((∃ w ∈ query.plus_words, hasPosting s w d) ∧
          (∃ data, StdMap.find? s.documents_ d = some data ∧
            p d data.status data.rating = true) ∧
          ∀ w ∈ query.minus_words, ¬ hasPosting s w d)) ∧
      (docs.map fun d => d.id).Nodup := by
  obtain ⟨docs, hall, hnodup, hmem, _⟩ := FindAllDocuments_spec log s hs.inv query p
  refine ⟨docs, hall, ?_, hnodup⟩
  intro d
  rw [hmem d, admits_iff]

theorem sum_contributions (log : R → R) (s : SearchServer R)
    (p : Int → DocumentStatus → Int → Bool) (d : Int) (hadm : admits s p d = true)
    (words : List Str) :
    (words.map fun w => (contribution log s p w d).getD 0).sum
      = ((words.filter (postedIn s d)).map fun t =>
          (posting? s.word_to_document_freqs_ t d).getD 0
            * log ((GetDocumentCount s : R) / (postingCount s t : R))).sum := by
  induction words with
  | nil => rfl
  | cons w ws ih =>
    rw [List.map_cons, List.sum_cons, ih, List.filter_cons]
    have hval : (contribution log s p w d).getD 0
        = if postedIn s d w = true then
            (posting? s.word_to_document_freqs_ w d).getD 0
              * log ((GetDocumentCount s : R) / (postingCount s w : R))
          else 0 := by
      have hposted : postedIn s d w = (posting? s.word_to_document_freqs_ w d).isSome := by
        unfold postedIn posting?
        cases StdMap.find? s.word_to_document_freqs_ w <;> rfl
      unfold contribution
      rw [hposted, hadm]
      cases posting? s.word_to_document_freqs_ w d with
      | none => rfl
      | some tf =>
        simp only [if_true, Option.getD_some, Option.isSome_some, mul_one]
    rw [hval]
    by_cases hp : postedIn s d w = true
    · rw [if_pos hp, if_pos hp, List.map_cons, List.sum_cons]
    · rw [if_neg hp, if_neg hp, zero_add]

theorem postingCount_eq (s : SearchServer R) (hs : Inv s) (t : Str) :
    postingCount s t
      = ((StdMap.keys s.documents_).filter fun d => postedIn s d t).length := by
  unfold postingCount
  cases hf : StdMap.find? s.word_to_document_freqs_ t with
  | none =>
    have : ((StdMap.keys s.documents_).filter fun d => postedIn s d t) = [] := by
      rw [List.filter_eq_nil_iff]
      intro d _
      unfold postedIn
      rw [hf]
      simp
    rw [this]
    rfl
  | some postings =>
    have hperm : (StdMap.keys postings).Perm
        ((StdMap.keys s.documents_).filter fun d => postedIn s d t) := by
      rw [List.perm_ext_iff_of_nodup (StdMap.keys_nodup (hs.postings_wf t postings hf))
        ((StdMap.keys_nodup hs.documents_wf).filter _)]
      intro d
      rw [List.mem_filter]
      unfold postedIn
      rw [hf]
      simp only [StdMap.find?_isSome_iff]
      exact ⟨fun h => ⟨hs.postings_ids t postings hf d h, h⟩, fun h => h.2⟩
    have := hperm.length_eq
    simp only [StdMap.keys, List.length_map] at this
    simpa [StdMap.keys] using this

/-- C18: for a server built by the constructor and a sequence of `AddDocument`
calls, with `N` stored documents, the relevance of each document `d` in the
output of `FindAllDocuments` is the sum, over the plus-words `t` of the query
that have a posting for `d`, of `tf(t, d) * log (N / df(t))`. Here `tf(t, d)`
is the stored term frequency, which is the number of occurrences of `t`
among the tokens of the text of `d` that are not stop words, divided by the
number of these tokens; and `df(t)` is the size of the posting list of `t`,
which is the number of stored documents with a posting for `t`. -/
theorem C18_relevance_is_tf_idf (log : R → R) (stop_words : List Str) (s₀ : SearchServer R)
    (calls : List AddCall) (query : Query) (p : Int → DocumentStatus → Int → Bool)
    (docs : List (Document R)) (h₀ : SearchServer.new stop_words = .ok s₀)
    (hall : FindAllDocuments log (run s₀ calls) query p = .ok docs) :
    (∀ d ∈ docs, d.relevance
      = ((query.plus_words.filter (postedIn (run s₀ calls) d.id)).map fun t =>
          (posting? (run s₀ calls).word_to_document_freqs_ t d.id).getD 0
            * log ((GetDocumentCount (run s₀ calls) : R)
                / (postingCount (run s₀ calls) t : R))).sum) ∧
    (∀ c ∈ succeeded s₀ calls, ∀ t,
      (posting? (run s₀ calls).word_to_document_freqs_ t c.document_id).getD 0
        = ((indexedWords s₀ c.document).count t : R)
            / ((indexedWords s₀ c.document).length : R)) ∧
    (∀ t, postingCount (run s₀ calls) t
      = ((StdMap.keys (run s₀ calls).documents_).filter
          fun d => postedIn (run s₀ calls) d t).length) ∧
    (∀ d ∈ docs, ∃ c ∈ succeeded s₀ calls, c.document_id = d.id) := by
  have hinv₀ := Inv_new stop_words s₀ h₀
  have hinv := Inv_run s₀ hinv₀ calls
  obtain ⟨docs', hall', _, hmem, hrel⟩ := FindAllDocuments_spec log (run s₀ calls) hinv query p
  rw [hall] at hall'
  cases hall'
  have hadm : ∀ d ∈ docs, admits (run s₀ calls) p d.id = true :=
    fun d hd => ((hmem d.id).1 (List.mem_map.2 ⟨d, hd, rfl⟩)).2.1
  refine ⟨?_, ?_, fun t => postingCount_eq _ hinv t, ?_⟩
  · intro d hd
    rw [hrel d hd, sum_contributions log _ p d.id (hadm d hd)]
  · intro c hc t
    rw [posting?_run s₀ hinv₀ calls t c hc]
    by_cases ht : t ∈ indexedWords s₀ c.document
    · rw [if_pos ht, Option.getD_some, zero_add, mul_one_div]
    · rw [if_neg ht, Option.getD_none, List.count_eq_zero.2 ht, Nat.cast_zero, zero_div]
  · intro d hd
    obtain ⟨data, hdata, _⟩ := (admits_iff _ p d.id).1 (hadm d hd)
    rcases (documents_run s₀ hinv₀ calls d.id data).1 hdata with h | ⟨c, hc, hid, _⟩
    · rw [(new_ok stop_words s₀ h₀).2.1] at h
      cases h
    · exact ⟨c, hc, hid⟩

/-- C20: in every reachable server, every posting list of the index is
non-empty, holds only ids that are keys of the document store, and has at most
`GetDocumentCount()` entries. So for a query that parses and any predicate,
`FindTopDocuments` does not throw, every lookup `documents_.at(id)` of an id
of a posting list succeeds, and in `ComputeWordInverseDocumentFreq` the
divisor is not zero and the ratio is at least 1. -/
theorem C20_FindTopDocuments_never_fails (s : SearchServer R) (hs : Reachable s) :
    (∀ w postings, StdMap.find? s.word_to_document_freqs_ w = some postings →
      postings ≠ [] ∧
      (∀ id ∈ StdMap.keys postings, id ∈ StdMap.keys s.documents_) ∧
      (∀ id ∈ StdMap.keys postings, ∃ data, StdMap.atKey s.documents_ id = .ok data) ∧
      postings.length ≤ GetDocumentCount s ∧
      (postings.length : R) ≠ 0 ∧
      1 ≤ (GetDocumentCount s : R) * 1 / (postings.length : R)) ∧
    (∀ (log : R → R) (raw_query : Str) (query : Query) (p : Int → DocumentStatus → Int → Bool),
      ParseQuery s raw_query = .ok query →
      ∃ docs, FindTopDocuments log s raw_query p = .ok docs) := by
  have hinv := hs.inv
  constructor
  · intro w postings hf
    have hne := hinv.postings_ne w postings hf
    have hids := hinv.postings_ids w postings hf
    have hlen : postings.length ≤ GetDocumentCount s := by
      have hsub : (StdMap.keys postings).Subperm (StdMap.keys s.documents_) :=
        List.subperm_of_subset (StdMap.keys_nodup (hinv.postings_wf w postings hf)) hids
      have := hsub.length_le
      simpa [StdMap.keys, GetDocumentCount] using this
    have hpos : 0 < postings.length := List.length_pos.2 hne
    have hposR : (0 : R) < (postings.length : R) := Nat.cast_pos.2 hpos
    refine ⟨hne, hids, ?_, hlen, ne_of_gt hposR, ?_⟩
    · intro id hid
      obtain ⟨data, hdata⟩ := Option.isSome_iff_exists.1
        ((StdMap.find?_isSome_iff _ _).2 (hids id hid))
      exact ⟨data, (StdMap.atKey_eq_ok_iff _ _ _).2 hdata⟩
    · rw [mul_one, le_div_iff₀ hposR, one_mul]
      exact_mod_cast hlen
  · intro log raw_query query p hq
    obtain ⟨all, hall, _⟩ := FindAllDocuments_spec log s hinv query p
    exact ⟨_, FindTopDocuments_of_ok log s raw_query p query all hq hall⟩

end IndexClaims

/-! ## C12: the scenario of `main` -/

theorem referenceServer_reachable : Reachable (referenceServer ℝ) :=
  ⟨SplitIntoWords "and in at".toList, built ℝ "and in at".toList, _, rfl, rfl⟩

theorem referenceServer_query :
    ParseQuery (referenceServer ℝ) "curly dog".toList
      = .ok { plus_words := ["curly".toList, "dog".toList], minus_words := [] } := rfl

theorem referenceServer_all :
    FindAllDocuments Real.log (referenceServer ℝ)
        { plus_words := ["curly".toList, "dog".toList], minus_words := [] } actualOnly
      = .ok [referenceHit1 Real.log, referenceHit2 Real.log, referenceHit4 Real.log,
          referenceHit5 Real.log] := rfl

theorem reference_log_bounds :
    2 / 5 ≤ Real.log (((5 : ℕ) : ℝ) * 1 / ((3 : ℕ) : ℝ)) ∧
    Real.log (((5 : ℕ) : ℝ) * 1 / ((3 : ℕ) : ℝ)) + 1 / 3
      ≤ Real.log (((5 : ℕ) : ℝ) * 1 / ((2 : ℕ) : ℝ)) := by
  have e2 : (((5 : ℕ) : ℝ) * 1 / ((2 : ℕ) : ℝ)) = 5 / 2 := by norm_num
  have e3 : (((5 : ℕ) : ℝ) * 1 / ((3 : ℕ) : ℝ)) = 5 / 3 := by norm_num
  rw [e2, e3]
  constructor
  · have := Real.one_sub_inv_le_log_of_pos (show (0 : ℝ) < 5 / 3 by norm_num)
    norm_num at this
    linarith
  · have h := Real.one_sub_inv_le_log_of_pos (show (0 : ℝ) < 3 / 2 by norm_num)
    have hdiv : Real.log ((5 / 2) / (5 / 3)) = Real.log (5 / 2) - Real.log (5 / 3) :=
      Real.log_div (by norm_num) (by norm_num)
    have e : ((5 : ℝ) / 2) / (5 / 3) = 3 / 2 := by norm_num
    rw [e] at hdiv
    norm_num at h
    linarith

theorem referenceServer_top :
    FindTopDocuments Real.log (referenceServer ℝ) "curly dog".toList actualOnly
      = .ok [referenceHit1 Real.log, referenceHit2 Real.log, referenceHit4 Real.log,
          referenceHit5 Real.log] := by
  rw [FindTopDocuments_of_ok _ _ _ _ _ _ referenceServer_query referenceServer_all]
  obtain ⟨hb, hab⟩ := reference_log_bounds
  have h54 : compareDocuments (referenceHit5 Real.log) (referenceHit4 Real.log) = false := by
    unfold compareDocuments referenceHit5 referenceHit4
    simp only []
    rw [if_pos (by rw [sub_self, abs_zero]; norm_num)]
    decide
  have h42 : compareDocuments (referenceHit4 Real.log) (referenceHit2 Real.log) = false := by
    unfold compareDocuments referenceHit4 referenceHit2
    simp only []
    have hn : ¬ |(0 + (0 + 1 / ((4 : ℕ) : ℝ)) * Real.log (((5 : ℕ) : ℝ) * 1 / ((3 : ℕ) : ℝ)))
        - (0 + (0 + 1 / ((4 : ℕ) : ℝ)) * Real.log (((5 : ℕ) : ℝ) * 1 / ((2 : ℕ) : ℝ))
          + (0 + 1 / ((4 : ℕ) : ℝ)) * Real.log (((5 : ℕ) : ℝ) * 1 / ((3 : ℕ) : ℝ)))|
        < 1 / 1000000 := by
      rw [abs_lt, not_and_or]
      left
      push_cast
      linarith
    rw [if_neg hn]
    apply decide_eq_false
    push_cast
    linarith
  have h21 : compareDocuments (referenceHit2 Real.log) (referenceHit1 Real.log) = false := by
    unfold compareDocuments referenceHit2 referenceHit1
    simp only []
    have hn : ¬ |(0 + (0 + 1 / ((4 : ℕ) : ℝ)) * Real.log (((5 : ℕ) : ℝ) * 1 / ((2 : ℕ) : ℝ))
          + (0 + 1 / ((4 : ℕ) : ℝ)) * Real.log (((5 : ℕ) : ℝ) * 1 / ((3 : ℕ) : ℝ)))
        - (0 + (0 + 1 / ((4 : ℕ) : ℝ) + 1 / ((4 : ℕ) : ℝ))
          * Real.log (((5 : ℕ) : ℝ) * 1 / ((2 : ℕ) : ℝ)))|
        < 1 / 1000000 := by
      rw [abs_lt, not_and_or]
      left
      push_cast
      linarith
    rw [if_neg hn]
    apply decide_eq_false
    push_cast
    linarith
  simp only [sort, sort.place, h54, h42, h21, Bool.false_eq_true, if_false]
  rfl

/-- C12: in the scenario of `main`, `FindTopDocuments("curly dog")` returns the
documents 1, 2, 4, 5 in this order: document 1 comes right before document 2,
and its relevance exceeds that of document 2 by more than 1e-6. -/
theorem C12_reference_ranking :
    FindTopDocumentsActual Real.log (referenceServer ℝ) "curly dog".toList
      = .ok [referenceHit1 Real.log, referenceHit2 Real.log, referenceHit4 Real.log,
          referenceHit5 Real.log] ∧
    (referenceHit1 Real.log).id = 1 ∧ (referenceHit2 Real.log).id = 2 ∧
    (referenceHit2 Real.log).relevance + 1 / 1000000 < (referenceHit1 Real.log).relevance := by
  refine ⟨referenceServer_top, rfl, rfl, ?_⟩
  obtain ⟨hb, hab⟩ := reference_log_bounds
  unfold referenceHit1 referenceHit2
  simp only []
  push_cast
  linarith

/-! ## C11: the average rating -/

theorem wrapInt_of_range (x : Int) (h₁ : -2 ^ 31 ≤ x) (h₂ : x < 2 ^ 31) : wrapInt x = x := by
  unfold wrapInt
  omega

theorem wrapInt_add (a b : Int) : wrapInt (wrapInt a + b) = wrapInt (a + b) := by
  unfold wrapInt
  omega

theorem foldl_wrapInt (ratings : List Int) (a : Int) :
    ratings.foldl (fun rating_sum rating => wrapInt (rating_sum + rating)) (wrapInt a)
      = wrapInt (a + ratings.sum) := by
  induction ratings generalizing a with
  | nil => simp
  | cons r rs ih =>
    rw [List.foldl_cons, wrapInt_add, ih, List.sum_cons, add_assoc]

theorem ComputeAverageRating_of_ne_nil (ratings : List Int) (h : ratings ≠ []) :
    ComputeAverageRating ratings
      = Int.tdiv (wrapInt ratings.sum) (wrapInt ratings.length) := by
  unfold ComputeAverageRating
  have he : ratings.isEmpty = false := by
    cases ratings with
    | nil => exact absurd rfl h
    | cons a l => rfl
  rw [he]
  simp only [Bool.false_eq_true, if_false]
  have := foldl_wrapInt ratings 0
  rw [wrapInt_of_range 0 (by norm_num) (by norm_num), zero_add] at this
  rw [this]

section RatingClaims

variable {R : Type} [LinearOrderedField R]

/-- C11 (as amended): `ComputeAverageRating` returns 0 for no ratings, and
otherwise the sum of the ratings divided by their number with the quotient
truncated toward zero (the ratings -1 and -2 give -1), when the sum fits a
32-bit `int` and there are fewer than 2^31 ratings. The rating that
`FindTopDocuments` reports for a document is the one computed from the
ratings of the call of `AddDocument` that returned with the id of the
document. -/
theorem C11_average_rating :
    ComputeAverageRating [] = 0 ∧
    ComputeAverageRating [-1, -2] = -1 ∧
    (∀ ratings : List Int, ratings ≠ [] →
      -2 ^ 31 ≤ ratings.sum → ratings.sum < 2 ^ 31 → ratings.length < 2 ^ 31 →
      ComputeAverageRating ratings = Int.tdiv ratings.sum ratings.length) ∧
    (∀ (log : R → R) (stop_words : List Str) (s₀ : SearchServer R) (calls : List AddCall)
        (raw_query : Str) (p : Int → DocumentStatus → Int → Bool) (docs : List (Document R)),
        SearchServer.new stop_words = .ok s₀ →
        FindTopDocuments log (run s₀ calls) raw_query p = .ok docs →
        ∀ d ∈ docs, ∃ c ∈ succeeded s₀ calls,
          c.document_id = d.id ∧ d.rating = ComputeAverageRating c.ratings) := by
  refine ⟨rfl, by decide, ?_, ?_⟩
  · intro ratings hne h₁ h₂ hlen
    rw [ComputeAverageRating_of_ne_nil ratings hne, wrapInt_of_range _ h₁ h₂,
      wrapInt_of_range _ (by omega) (by exact_mod_cast hlen)]
  · intro log stop_words s₀ calls raw_query p docs h₀ h d hd
    obtain ⟨query, all, _, hall, rfl⟩ := FindTopDocuments_ok log _ raw_query p docs h
    have hmem : d ∈ all := (sort_perm compareDocuments all).subset (List.mem_of_mem_take hd)
    obtain ⟨_, _, _, _, hrating⟩ := FindAllDocuments_ok log _ query p all hall
    obtain ⟨data, hdata, hr⟩ := hrating d hmem
    rcases (documents_run s₀ (Inv_new stop_words s₀ h₀) calls d.id data).1 hdata with
      h0 | ⟨c, hc, hid, hdata'⟩
    · rw [(new_ok stop_words s₀ h₀).2.1] at h0
      cases h0
    · refine ⟨c, hc, hid, ?_⟩
      rw [hr, hdata']

end RatingClaims

/-- C11, counterexample: for 2^31 ratings that are all -1 the sum is -2^31,
which fits a 32-bit `int`, and the sum divided by the number of ratings is -1;
but the number of ratings converted to `int` is -2^31, and
`ComputeAverageRating` returns 1. -/
theorem C11_count_does_not_fit_int :
    (List.replicate 2147483648 (-1 : Int)).sum = -2147483648 ∧
    Int.tdiv (List.replicate 2147483648 (-1 : Int)).sum
      (List.replicate 2147483648 (-1 : Int)).length = -1 ∧
    ComputeAverageRating (List.replicate 2147483648 (-1 : Int)) = 1 := by
  have hsum : (List.replicate 2147483648 (-1 : Int)).sum = -2147483648 := by
    rw [List.sum_replicate]
    norm_num
  have hne : List.replicate 2147483648 (-1 : Int) ≠ [] := by
    intro h
    have := congrArg List.length h
    rw [List.length_replicate] at this
    exact absurd this (by norm_num)
  refine ⟨hsum, ?_, ?_⟩
  · rw [hsum, List.length_replicate]
    decide
  · rw [ComputeAverageRating_of_ne_nil _ hne, hsum, List.length_replicate]
    decide

/-- A use of C11 in the scenario of `main`: the ratings 7, 2, 7 of document 1
average to 5, the rating reported for document 1 by the query "curly dog". -/
theorem C11_average_rating_witness :
    ComputeAverageRating [7, 2, 7] = Int.tdiv ([7, 2, 7] : List Int).sum
      (([7, 2, 7] : List Int).length : Int) ∧
    (SearchServer.new (SplitIntoWords "and in at".toList) : Except Error (SearchServer ℝ))
        = .ok (built ℝ "and in at".toList) ∧
    FindTopDocuments Real.log (referenceServer ℝ) "curly dog".toList actualOnly
      = .ok [referenceHit1 Real.log, referenceHit2 Real.log, referenceHit4 Real.log,
          referenceHit5 Real.log] ∧
    ∀ d ∈ [referenceHit1 Real.log, referenceHit2 Real.log, referenceHit4 Real.log,
        referenceHit5 Real.log],
      ∃ c ∈ succeeded (built ℝ "and in at".toList)
        [ { document_id := 1, document := "curly cat curly tail".toList, status := .ACTUAL,
            ratings := [7, 2, 7] },
          { document_id := 2, document := "curly dog and fancy collar".toList,
            status := .ACTUAL, ratings := [1, 2, 3] },
          { document_id := 3, document := "big cat fancy collar ".toList, status := .ACTUAL,
            ratings := [1, 2, 8] },
          { document_id := 4, document := "big dog sparrow Eugene".toList, status := .ACTUAL,
            ratings := [1, 3, 2] },
          { document_id := 5, document := "big dog sparrow Vasiliy".toList, status := .ACTUAL,
            ratings := [1, 1, 1] } ],
        c.document_id = d.id ∧ d.rating = ComputeAverageRating c.ratings :=
  ⟨(@C11_average_rating ℝ _).2.2.1 [7, 2, 7] (by decide) (by decide) (by decide) (by decide),
    rfl, referenceServer_top,
    (@C11_average_rating ℝ _).2.2.2 Real.log (SplitIntoWords "and in at".toList)
      (built ℝ "and in at".toList) _ "curly dog".toList actualOnly _ rfl referenceServer_top⟩

/-! ## C15: `Paginate` -/

section PaginateFacts

variable {α : Type}

theorem fill_nil (page_size n : Nat) : fill page_size ([] : List α) n = List.replicate n [] := by
  induction n with
  | zero => rfl
  | succ n ih =>
    show List.take page_size [] :: fill page_size (List.drop page_size []) n = _
    rw [List.drop_nil, ih, List.take_nil]
    rfl

theorem length_fill (page_size : Nat) (l : List α) (n : Nat) :
    (fill page_size l n).length = n := by
  induction n generalizing l with
  | zero => rfl
  | succ n ih =>
    show (List.take page_size l :: fill page_size (List.drop page_size l) n).length = _
    rw [List.length_cons, ih]

theorem flatten_fill (page_size : Nat) (l : List α) (n : Nat)
    (h : l.length ≤ n * page_size) : (fill page_size l n).flatten = l := by
  induction n generalizing l with
  | zero =>
    have : l = [] := List.length_eq_zero.1 (by omega)
    rw [this]
    rfl
  | succ n ih =>
    show (List.take page_size l :: fill page_size (List.drop page_size l) n).flatten = _
    rw [List.flatten_cons, ih _ (by rw [List.length_drop, Nat.succ_mul] at *; omega),
      List.take_append_drop]

theorem get?_fill (page_size : Nat) (l : List α) (n i : Nat) (h : i < n) :
    (fill page_size l n).get? i = some ((l.drop (i * page_size)).take page_size) := by
  induction n generalizing l i with
  | zero => omega
  | succ n ih =>
    show (List.take page_size l :: fill page_size (List.drop page_size l) n).get? i = _
    cases i with
    | zero => simp
    | succ i =>
      rw [List.get?_cons_succ, ih _ i (by omega), List.drop_drop]
      congr 3
      rw [Nat.succ_mul]
      omega

theorem Paginator.get?_append_length (done : List (List α)) (cur : List α)
    (rest : List (List α)) : (done ++ cur :: rest).get? done.length = some cur := by
  induction done with
  | nil => rfl
  | cons a l ih => simpa using ih

theorem Paginator.set_append_length (done : List (List α)) (cur v : List α)
    (rest : List (List α)) : (done ++ cur :: rest).set done.length v = done ++ v :: rest := by
  induction done with
  | nil => rfl
  | cons a l ih => simp [ih]

theorem Paginator.insertAt_end (done : List (List α)) (cur : List α) (rest : List (List α))
    (doc : α) :
    Paginator.insertAt (done ++ cur :: rest) (done.length : Int) (cur.length : Int) doc
      = some (done ++ (cur ++ [doc]) :: rest) := by
  unfold Paginator.insertAt
  rw [if_pos ⟨Int.natCast_nonneg _, Int.natCast_nonneg _⟩, Int.toNat_natCast, Int.toNat_natCast,
    Paginator.get?_append_length]
  simp only [le_refl, if_true, List.take_length, List.drop_length]
  rw [Paginator.set_append_length]

/-- The loop of `Sort` fills the pages one after the other: `done` are the full
pages, `cur` is the page being filled and `k` empty pages follow. -/
theorem Paginator.Sort.loop_eq (page_size : Nat) (hpos : 0 < page_size)
    (hps : page_size < 2 ^ 31) (docs : List α) (done : List (List α)) (cur : List α) (k : Nat)
    (hcur : cur.length < page_size) (hcap : docs.length + cur.length ≤ (k + 1) * page_size)
    (hpages : done.length + k + 1 < 2 ^ 31) :
    Paginator.Sort.loop (page_size : Int) docs (cur.length : Int) (done.length : Int)
        (done ++ cur :: List.replicate k [])
      = some (done ++ fill page_size (cur ++ docs) (k + 1)) := by
  induction docs generalizing done cur k with
  | nil =>
    unfold Paginator.Sort.loop
    show _ = some (done ++ (List.take page_size (cur ++ [])
      :: fill page_size (List.drop page_size (cur ++ [])) k))
    rw [List.append_nil, List.take_of_length_le (le_of_lt hcur),
      List.drop_eq_nil_of_le (le_of_lt hcur), fill_nil]
  | cons d rest ih =>
    unfold Paginator.Sort.loop
    have hx : (cur.length : Int) < (page_size : Int) := by exact_mod_cast hcur
    have hw : wrapInt ((cur.length : Int) + 1) = ((cur ++ [d]).length : Int) := by
      rw [wrapInt_of_range _ (by omega) (by omega)]
      simp
    simp only [hx, if_true, Paginator.insertAt_end, hw]
    have hlen : (cur ++ [d]).length = cur.length + 1 := by simp
    rw [List.length_cons] at hcap
    by_cases hfull : cur.length + 1 = page_size
    · have hfull' : ((cur ++ [d]).length : Int) = (page_size : Int) := by
        rw [hlen]
        exact_mod_cast hfull
      rw [if_pos hfull']
      have hlists : wrapInt ((done.length : Int) + 1) = ((done ++ [cur ++ [d]]).length : Int) := by
        rw [wrapInt_of_range _ (by omega) (by omega)]
        simp
      rw [hlists]
      have htake : List.take page_size (cur ++ d :: rest) = cur ++ [d] := by
        have e : cur ++ d :: rest = (cur ++ [d]) ++ rest := by simp
        rw [e, List.take_left' (by rw [hlen, hfull])]
      have hdrop : List.drop page_size (cur ++ d :: rest) = rest := by
        have e : cur ++ d :: rest = (cur ++ [d]) ++ rest := by simp
        rw [e, List.drop_left' (by rw [hlen, hfull])]
      show _ = some (done ++ (List.take page_size (cur ++ d :: rest)
        :: fill page_size (List.drop page_size (cur ++ d :: rest)) k))
      rw [htake, hdrop]
      cases k with
      | zero =>
        have hrest : rest = [] := by
          apply List.length_eq_zero.1
          rw [Nat.zero_add, Nat.one_mul] at hcap
          omega
        rw [hrest]
        rfl
      | succ k =>
        have e : done ++ (cur ++ [d]) :: List.replicate (k + 1) ([] : List α)
            = (done ++ [cur ++ [d]]) ++ [] :: List.replicate k [] := by
          rw [List.replicate_succ]
          simp
        rw [e]
        have := ih (done ++ [cur ++ [d]]) [] k (by simp [hpos])
          (by
            rw [List.length_nil, Nat.add_zero]
            rw [Nat.succ_mul (k + 1)] at hcap
            omega)
          (by
            rw [List.length_append, List.length_singleton]
            omega)
        rw [List.length_nil] at this
        rw [Int.natCast_zero] at this
        rw [this]
        simp
    · have hne : ¬ ((cur ++ [d]).length : Int) = (page_size : Int) := by
        rw [hlen]
        exact_mod_cast hfull
      rw [if_neg hne]
      have := ih done (cur ++ [d]) k (by rw [hlen]; omega) (by rw [hlen]; omega) hpages
      rw [this]
      simp

theorem ceil_div_eq (n page_size : Nat) (hpos : 0 < page_size) :
    (if n % page_size ≠ 0 then n / page_size + 1 else n / page_size)
      = (n + page_size - 1) / page_size := by
  have hdm := Nat.div_add_mod n page_size
  have hlt := Nat.mod_lt n hpos
  by_cases h0 : n % page_size = 0
  · rw [if_neg (not_not.2 h0)]
    have e : n + page_size - 1 = (page_size - 1) + page_size * (n / page_size) := by
      rw [h0] at hdm
      omega
    rw [e, Nat.add_mul_div_left _ _ hpos,
      Nat.div_eq_of_lt (show page_size - 1 < page_size by omega), Nat.zero_add]
  · rw [if_pos h0]
    have e₁ : n + page_size - 1
        = (n % page_size - 1) + (page_size * (n / page_size) + page_size) := by
      omega
    have e₂ : page_size * (n / page_size) + page_size = page_size * (n / page_size + 1) := by
      rw [Nat.mul_add, Nat.mul_one]
    rw [e₁, e₂, Nat.add_mul_div_left _ _ hpos,
      Nat.div_eq_of_lt (show n % page_size - 1 < page_size by omega), Nat.zero_add]

theorem ceil_div_bounds (n page_size : Nat) (hpos : 0 < page_size) :
    n ≤ ((n + page_size - 1) / page_size) * page_size ∧
    (0 < n → ((n + page_size - 1) / page_size - 1) * page_size < n) ∧
    (0 < n → 0 < (n + page_size - 1) / page_size) ∧
    (n + page_size - 1) / page_size ≤ n := by
  rw [← ceil_div_eq n page_size hpos]
  have hdm := Nat.div_add_mod n page_size
  have hlt := Nat.mod_lt n hpos
  have hle : n / page_size ≤ n := Nat.div_le_self _ _
  have hcomm : page_size * (n / page_size) = n / page_size * page_size := Nat.mul_comm _ _
  by_cases h0 : n % page_size = 0
  · rw [if_neg (not_not.2 h0)]
    rw [h0, Nat.add_zero] at hdm
    refine ⟨by omega, ?_, ?_, hle⟩
    · intro hn
      have hq : 0 < n / page_size := by
        rcases Nat.eq_zero_or_pos (n / page_size) with h | h
        · rw [h] at hdm
          omega
        · exact h
      have : (n / page_size - 1) * page_size + page_size = n / page_size * page_size := by
        rw [← Nat.succ_mul]
        congr 1
        omega
      omega
    · intro hn
      rcases Nat.eq_zero_or_pos (n / page_size) with h | h
      · rw [h] at hdm
        omega
      · exact h
  · rw [if_pos h0]
    have hmul : (n / page_size + 1) * page_size = n / page_size * page_size + page_size := by
      rw [Nat.succ_mul]
    refine ⟨by omega, ?_, fun _ => Nat.succ_pos _, ?_⟩
    · intro _
      rw [Nat.add_sub_cancel]
      omega
    · have hq : n / page_size * page_size ≤ n := by omega
      have : n / page_size * 1 ≤ n / page_size * page_size := Nat.mul_le_mul_left _ hpos
      rcases Nat.lt_or_ge (n / page_size) n with h | h
      · omega
      · have hn : n / page_size = n := le_antisymm hle h
        rw [hn] at hdm
        have : page_size * n ≥ n := Nat.le_mul_of_pos_left n hpos
        omega

theorem toSizeT_natCast (m : Nat) (h : m < 2 ^ 31) : toSizeT (m : Int) = m := by
  unfold toSizeT
  omega

theorem wrapInt_natCast (m : Nat) (h : m < 2 ^ 31) : wrapInt (Int.ofNat m) = (m : Int) := by
  have e : Int.ofNat m = (m : Int) := rfl
  rw [e]
  exact wrapInt_of_range _ (by omega) (by omega)

theorem wrapInt_natCast_succ (m : Nat) (h : m + 1 < 2 ^ 31) :
    wrapInt (wrapInt (Int.ofNat m) + 1) = ((m + 1 : Nat) : Int) := by
  rw [wrapInt_natCast m (by omega), wrapInt_of_range _ (by omega) (by omega)]
  simp

theorem Paginator.new_docsort (c : List α) (page_size : Nat) (hpos : 0 < page_size)
    (hlen : c.length < 2 ^ 31) :
    (Paginator.new c page_size).docsort_
      = List.replicate ((c.length + page_size - 1) / page_size) [] := by
  obtain ⟨_, _, _, hle⟩ := ceil_div_bounds c.length page_size hpos
  have hceil := ceil_div_eq c.length page_size hpos
  have hsize : wrapInt (c.length : Int) = (c.length : Int) :=
    wrapInt_of_range _ (by omega) (by exact_mod_cast hlen)
  have hto : toSizeT (c.length : Int) = c.length := toSizeT_natCast _ hlen
  unfold Paginator.new
  simp only [hsize, hto]
  by_cases h0 : c.length % page_size ≠ 0
  · rw [if_pos h0] at hceil
    rw [if_pos h0, wrapInt_natCast_succ _ (by omega), toSizeT_natCast _ (by omega), hceil]
  · rw [if_neg h0] at hceil
    rw [if_neg h0, wrapInt_natCast _ (by omega), toSizeT_natCast _ (by omega), hceil]

theorem Paginate_eq_fill (c : List α) (page_size : Nat) (hpos : 0 < page_size)
    (hps : page_size < 2 ^ 31) (hlen : c.length < 2 ^ 31) :
    Paginate c page_size
      = some (fill page_size c ((c.length + page_size - 1) / page_size)) := by
  obtain ⟨hcap, _, _, hle⟩ := ceil_div_bounds c.length page_size hpos
  have hconv : wrapInt (page_size : Int) = (page_size : Int) :=
    wrapInt_of_range _ (by omega) (by exact_mod_cast hps)
  have hstart : Paginate c page_size
      = Paginator.Sort.loop (wrapInt (page_size : Int)) c 0 0
          (Paginator.new c page_size).docsort_ := rfl
  rw [hstart, Paginator.new_docsort c page_size hpos hlen, hconv]
  cases hn : (c.length + page_size - 1) / page_size with
  | zero =>
    rw [hn] at hcap
    have : c = [] := List.length_eq_zero.1 (by omega)
    rw [this]
    rfl
  | succ k =>
    rw [hn] at hcap hle
    have := Paginator.Sort.loop_eq page_size hpos hps c [] [] k (by simp [hpos])
      (by simpa using hcap) (by simp; omega)
    simpa using this

end PaginateFacts

/-- C15 (as amended): for every sequence `c` of fewer than 2^31 documents and
every `page_size` with `0 < page_size < 2^31`, `Paginate(c, page_size)` returns
`ceil(|c| / page_size)` pages whose concatenation, in order, is `c`; every
page except the last has exactly `page_size` elements, and the last page has
between 1 and `page_size` elements. -/
theorem C15_Paginate_pages {α : Type} (c : List α) (page_size : Nat) (hpos : 0 < page_size)
    (hps : page_size < 2 ^ 31) (hlen : c.length < 2 ^ 31) :
    ∃ pages, Paginate c page_size = some pages ∧
      pages.length = (c.length + page_size - 1) / page_size ∧
      pages.flatten = c ∧
      (∀ i page, pages.get? i = some page →
        (i + 1 < pages.length → page.length = page_size) ∧
        (i + 1 = pages.length → 1 ≤ page.length ∧ page.length ≤ page_size)) := by
  obtain ⟨hcap, hlast, hposn, _⟩ := ceil_div_bounds c.length page_size hpos
  refine ⟨_, Paginate_eq_fill c page_size hpos hps hlen, length_fill _ _ _,
    flatten_fill _ _ _ hcap, ?_⟩
  intro i page hpage
  rw [length_fill]
  have hi : i < (c.length + page_size - 1) / page_size := by
    have := List.get?_eq_some.1 hpage
    obtain ⟨h, _⟩ := this
    rw [length_fill] at h
    exact h
  rw [get?_fill _ _ _ _ hi] at hpage
  have hpl : page.length = min page_size (c.length - i * page_size) := by
    rw [← Option.some.inj hpage, List.length_take, List.length_drop]
  have hn : 0 < c.length := by
    rcases Nat.eq_zero_or_pos c.length with h | h
    · rw [h] at hi
      rw [Nat.zero_add, Nat.div_eq_of_lt (by omega)] at hi
      omega
    · exact h
  have hl := hlast hn
  constructor
  · intro hnext
    have : (i + 1) * page_size ≤ ((c.length + page_size - 1) / page_size - 1) * page_size :=
      Nat.mul_le_mul_right _ (by omega)
    rw [Nat.succ_mul] at this
    rw [hpl]
    omega
  · intro hend
    have hi' : i = (c.length + page_size - 1) / page_size - 1 := by omega
    rw [← hi'] at hl
    rw [hpl]
    omega

/-- C15, counterexample: with one document and the page size 2^31, which is a
`size_t`, the page size converted to `int` is negative, so the loop of `Sort`
inserts nothing: `Paginate` returns one empty page, and the concatenation of
the pages is not the input. -/
theorem C15_page_size_does_not_fit_int :
    Paginate [(7 : Nat)] 2147483648 = some [[]] ∧
    ([[]] : List (List Nat)).flatten ≠ [7] ∧
    ¬ (1 ≤ ([] : List Nat).length) := by
  refine ⟨by decide, by decide, by decide⟩

/-- A use of C15: five documents in pages of two. -/
theorem C15_Paginate_pages_witness :
    (0 < 2) ∧ (2 < 2 ^ 31) ∧ ([1, 2, 3, 4, 5] : List Nat).length < 2 ^ 31 ∧
    Paginate [(1 : Nat), 2, 3, 4, 5] 2 = some [[1, 2], [3, 4], [5]] ∧
    ∃ pages, Paginate [(1 : Nat), 2, 3, 4, 5] 2 = some pages ∧
      pages.length = (([1, 2, 3, 4, 5] : List Nat).length + 2 - 1) / 2 ∧
      pages.flatten = [1, 2, 3, 4, 5] ∧
      (∀ i page, pages.get? i = some page →
        (i + 1 < pages.length → page.length = 2) ∧
        (i + 1 = pages.length → 1 ≤ page.length ∧ page.length ≤ 2)) :=
  ⟨by decide, by decide, by decide, by decide,
    C15_Paginate_pages [1, 2, 3, 4, 5] 2 (by decide) (by decide) (by decide)⟩

/-! ## C14: `RequestQueue` -/

theorem lastN_of_length_le {α : Type} (n : Nat) (l : List α) (h : l.length ≤ n) :
    lastN n l = l := by
  unfold lastN
  rw [Nat.sub_eq_zero_of_le h]
  rfl

theorem length_lastN {α : Type} (n : Nat) (l : List α) : (lastN n l).length = min l.length n := by
  unfold lastN
  rw [List.length_drop]
  omega

theorem lastN_lastN_append {α : Type} (n : Nat) (a b : List α) :
    lastN n (lastN n a ++ b) = lastN n (a ++ b) := by
  unfold lastN
  have h : a.length - n ≤ a.length := Nat.sub_le _ _
  have e : List.drop (a.length - n) a ++ b = List.drop (a.length - n) (a ++ b) :=
    (List.drop_append_of_le_length h).symm
  rw [e, List.drop_drop, List.length_drop, List.length_append]
  congr 1
  omega

section QueueFacts

variable {R : Type} [LinearOrderedField R]

theorem hasResults_of_ok (log : R → R) (s : SearchServer R) (raw_query : Str)
    (a : List (Document R)) (h : FindTopDocumentsActual log s raw_query = .ok a) :
    hasResults log s raw_query = !a.isEmpty := by
  unfold hasResults
  rw [h]

theorem hasResults_of_all (log : R → R) (s : SearchServer R) (raw_query : Str) (query : Query)
    (all : List (Document R)) (hq : ParseQuery s raw_query = .ok query)
    (hall : FindAllDocuments log s query actualOnly = .ok all) :
    hasResults log s raw_query = !all.isEmpty := by
  have h : FindTopDocumentsActual log s raw_query
      = .ok ((sort compareDocuments all).take MAX_RESULT_DOCUMENT_COUNT) :=
    FindTopDocuments_of_ok log s raw_query actualOnly query all hq hall
  rw [hasResults_of_ok log s raw_query _ h]
  cases all with
  | nil => rfl
  | cons d l =>
    have hlen : ((sort compareDocuments (d :: l)).take MAX_RESULT_DOCUMENT_COUNT).length ≠ 0 := by
      rw [List.length_take, (sort_perm compareDocuments (d :: l)).length_eq]
      simp [MAX_RESULT_DOCUMENT_COUNT]
    cases hs : (sort compareDocuments (d :: l)).take MAX_RESULT_DOCUMENT_COUNT with
    | nil =>
      rw [hs] at hlen
      exact absurd rfl hlen
    | cons x xs => rfl

/-- One call of `AddFindRequest` that does not throw: the flag of the result is
appended, the oldest entry is dropped from a full window, and the counter
follows the number of `false` entries. -/
theorem AddFindRequest_ok (log : R → R) (s : SearchServer R) (q : RequestQueue)
    (raw_query : Str) (a : List (Document R)) (v : Int)
    (h : FindTopDocumentsActual log s raw_query = .ok a)
    (hv : -2 ^ 31 ≤ v ∧ v + 1440 < 2 ^ 31) (hlen : q.requests_.length ≤ 1440)
    (hcount : q.empty_req_ = v + (q.requests_.count false : Int)) :
    (RequestQueue.AddFindRequest log s q raw_query).1 = .ok () ∧
    (RequestQueue.AddFindRequest log s q raw_query).2.requests_
      = lastN 1440 (q.requests_ ++ [hasResults log s raw_query]) ∧
    (RequestQueue.AddFindRequest log s q raw_query).2.requests_.length ≤ 1440 ∧
    (RequestQueue.AddFindRequest log s q raw_query).2.empty_req_
      = v + ((RequestQueue.AddFindRequest log s q raw_query).2.requests_.count false : Int) := by
  have hflag := hasResults_of_ok log s raw_query a h
  have hcnt : q.requests_.count false ≤ q.requests_.length := List.count_le_length _ _
  have hempty : (a.isEmpty ∨ a.length = 0) ↔ a.isEmpty = true := by
    cases a <;> simp
  unfold RequestQueue.AddFindRequest
  by_cases hroom : q.requests_.isEmpty ∨ q.requests_.length < RequestQueue.min_in_day_
  · have hlt : q.requests_.length < 1440 := by
      rcases hroom with h0 | h0
      · rw [List.isEmpty_iff] at h0
        rw [h0]
        decide
      · exact h0
    rw [if_pos hroom, h]
    simp only []
    by_cases he : a.isEmpty = true
    · rw [if_pos (hempty.2 he)]
      rw [he] at hflag
      simp only [hflag, Bool.not_true]
      refine ⟨by trivial, ?_, ?_, ?_⟩
      · rw [lastN_of_length_le _ _ (by simp; omega)]
      · simp
        omega
      · rw [hcount, wrapInt_of_range _ (by omega) (by omega), List.count_append]
        simp
        ring
    · rw [if_neg (fun hh => he (hempty.1 hh))]
      have he' : a.isEmpty = false := by simpa using he
      rw [he'] at hflag
      simp only [hflag, Bool.not_false]
      refine ⟨by trivial, ?_, ?_, ?_⟩
      · rw [lastN_of_length_le _ _ (by simp; omega)]
      · simp
        omega
      · rw [hcount, List.count_append]
        simp
  · have hfull : q.requests_.length = 1440 := by
      have : ¬ q.requests_.length < 1440 := fun hh => hroom (Or.inr hh)
      omega
    rw [if_neg hroom, h]
    simp only []
    cases hreq : q.requests_ with
    | nil =>
      rw [hreq] at hfull
      exact absurd hfull (by decide)
    | cons x t =>
      rw [hreq] at hfull hcount hcnt
      have htl : t.length = 1439 := by
        rw [List.length_cons] at hfull
        omega
      have hct : t.count false ≤ t.length := List.count_le_length _ _
      have hdrop : ∀ f : Bool, lastN 1440 ((x :: t) ++ [f]) = t ++ [f] := by
        intro f
        unfold lastN
        have : ((x :: t) ++ [f]).length - 1440 = 1 := by
          simp
          omega
        rw [this]
        rfl
      have hfront : (if (x :: t).head? = some false then wrapInt (v + ((x :: t).count false : Int) - 1)
          else v + ((x :: t).count false : Int)) = v + (t.count false : Int) := by
        cases x with
        | false =>
          simp only [List.head?_cons, if_true, List.count_cons_self, Nat.cast_add, Nat.cast_one]
          rw [wrapInt_of_range _ (by omega) (by omega)]
          ring
        | true =>
          have : (true :: t).count false = t.count false := by
            rw [List.count_cons]
            simp
          simp only [List.head?_cons, Option.some.injEq, Bool.true_eq_false, if_false, this]
      simp only [hcount, hfront, List.tail_cons]
      by_cases he : a.isEmpty = true
      · rw [if_pos (hempty.2 he)]
        rw [he] at hflag
        simp only [hflag, Bool.not_true, hdrop]
        refine ⟨by trivial, by trivial, ?_, ?_⟩
        · simp
          omega
        · rw [wrapInt_of_range _ (by omega) (by omega), List.count_append]
          simp
          ring
      · rw [if_neg (fun hh => he (hempty.1 hh))]
        have he' : a.isEmpty = false := by simpa using he
        rw [he'] at hflag
        simp only [hflag, Bool.not_false, hdrop]
        refine ⟨by trivial, by trivial, ?_, ?_⟩
        · simp
          omega
        · rw [List.count_append]
          simp

/-- The queue after a sequence of calls that do not throw, from a queue whose
counter is `v` plus the number of `false` entries of its window. -/
theorem runRequests_spec (log : R → R) (s : SearchServer R) (v : Int)
    (hv : -2 ^ 31 ≤ v ∧ v + 1440 < 2 ^ 31) (queries : List Str)
    (hq : ∀ raw ∈ queries, ∃ a, FindTopDocumentsActual log s raw = .ok a) (q : RequestQueue)
    (hlen : q.requests_.length ≤ 1440)
    (hcount : q.empty_req_ = v + (q.requests_.count false : Int)) :
    (runRequests log s q queries).requests_
      = lastN 1440 (q.requests_ ++ queries.map (hasResults log s)) ∧
    (runRequests log s q queries).empty_req_
      = v + ((runRequests log s q queries).requests_.count false : Int) := by
  induction queries generalizing q with
  | nil =>
    refine ⟨?_, hcount⟩
    show q.requests_ = _
    rw [List.map_nil, List.append_nil, lastN_of_length_le _ _ hlen]
  | cons raw rest ih =>
    obtain ⟨a, ha⟩ := hq raw (List.mem_cons_self _ _)
    obtain ⟨_, hreq, hlen', hcount'⟩ := AddFindRequest_ok log s q raw a v ha hv hlen hcount
    obtain ⟨h1, h2⟩ := ih (fun r hr => hq r (List.mem_cons_of_mem _ hr)) _ hlen' hcount'
    refine ⟨?_, h2⟩
    show (runRequests log s (RequestQueue.AddFindRequest log s q raw).2 rest).requests_ = _
    rw [h1, hreq, lastN_lastN_append, List.map_cons, List.append_assoc]
    rfl

theorem length_AddFindRequest_le (log : R → R) (s : SearchServer R) (q : RequestQueue)
    (raw_query : Str) (hlen : q.requests_.length ≤ 1440) :
    (RequestQueue.AddFindRequest log s q raw_query).2.requests_.length ≤ 1440 := by
  unfold RequestQueue.AddFindRequest
  by_cases hroom : q.requests_.isEmpty ∨ q.requests_.length < RequestQueue.min_in_day_
  · have hlt : q.requests_.length < 1440 := by
      rcases hroom with h0 | h0
      · rw [List.isEmpty_iff] at h0
        rw [h0]
        decide
      · exact h0
    rw [if_pos hroom]
    cases FindTopDocumentsActual log s raw_query with
    | error e => exact hlen
    | ok a =>
      simp only []
      split
      · simp
        omega
      · simp
        omega
  · rw [if_neg hroom]
    have htail : q.requests_.tail.length + 1 ≤ 1440 := by
      cases hreq : q.requests_ with
      | nil =>
        rw [hreq] at hroom
        exact absurd (Or.inl rfl) hroom
      | cons x t =>
        rw [hreq] at hlen
        simpa using hlen
    cases FindTopDocumentsActual log s raw_query with
    | error e =>
      simp only []
      omega
    | ok a =>
      simp only []
      split
      · simp
        omega
      · simp
        omega

theorem length_runRequests_le (log : R → R) (s : SearchServer R) (queries : List Str)
    (q : RequestQueue) (hlen : q.requests_.length ≤ 1440) :
    (runRequests log s q queries).requests_.length ≤ 1440 := by
  induction queries generalizing q with
  | nil => exact hlen
  | cons raw rest ih => exact ih _ (length_AddFindRequest_le log s q raw hlen)

end QueueFacts

section QueueClaim

variable {R : Type} [LinearOrderedField R]

/-- C14 (what the code does): the constructor of `RequestQueue` leaves
`empty_req_` without a value, so for the value `v` that it happens to hold,
`GetNoResultRequests()` of a fresh queue is `v`, not 0. After any sequence of
`AddFindRequest` calls with queries that parse, on a reachable server, the
window holds the flags of the most recent `min(n, 1440)` calls, never more
than 1440, and `GetNoResultRequests()` is `v` plus the number of these calls
whose result was empty. -/
theorem C14_counter_is_not_initialised (log : R → R) (s : SearchServer R) (v : Int)
    (queries : List Str) (hs : Reachable s)
    (hq : ∀ raw ∈ queries, ∃ query, ParseQuery s raw = .ok query)
    (hv : -2 ^ 31 ≤ v ∧ v + 1440 < 2 ^ 31) :
    RequestQueue.GetNoResultRequests (RequestQueue.new v) = v ∧
    (runRequests log s (RequestQueue.new v) queries).requests_
      = lastN 1440 (queries.map (hasResults log s)) ∧
    (runRequests log s (RequestQueue.new v) queries).requests_.length
      = min queries.length 1440 ∧
    (runRequests log s (RequestQueue.new v) queries).requests_.length ≤ 1440 ∧
    RequestQueue.GetNoResultRequests (runRequests log s (RequestQueue.new v) queries)
      = v + ((lastN 1440 (queries.map (hasResults log s))).count false : Int) := by
  have hok : ∀ raw ∈ queries, ∃ a, FindTopDocumentsActual log s raw = .ok a := by
    intro raw hraw
    obtain ⟨query, hquery⟩ := hq raw hraw
    obtain ⟨all, hall, _⟩ := FindAllDocuments_spec log s hs.inv query actualOnly
    exact ⟨_, FindTopDocuments_of_ok log s raw actualOnly query all hquery hall⟩
  obtain ⟨h1, h2⟩ := runRequests_spec log s v hv queries hok (RequestQueue.new v)
    (by simp [RequestQueue.new]) (by simp [RequestQueue.new])
  have h1' : (runRequests log s (RequestQueue.new v) queries).requests_
      = lastN 1440 (queries.map (hasResults log s)) := by
    rw [h1]
    rfl
  refine ⟨rfl, h1', ?_, ?_, ?_⟩
  · rw [h1', length_lastN, List.length_map]
  · rw [h1', length_lastN]
    exact min_le_right _ _
  · show (runRequests log s (RequestQueue.new v) queries).empty_req_ = _
    rw [h2, h1']

end QueueClaim

theorem referenceServer_flags :
    mainQueries.map (hasResults Real.log (referenceServer ℝ))
      = List.replicate 1439 false ++ [true, true, true] := by
  have h0 : hasResults Real.log (referenceServer ℝ) "empty request".toList = false :=
    hasResults_of_all Real.log (referenceServer ℝ) "empty request".toList
      { plus_words := ["empty".toList, "request".toList], minus_words := [] } [] rfl rfl
  have h1 : hasResults Real.log (referenceServer ℝ) "curly dog".toList = true :=
    hasResults_of_all Real.log (referenceServer ℝ) "curly dog".toList _ _
      referenceServer_query referenceServer_all
  have h2 : hasResults Real.log (referenceServer ℝ) "big collar".toList = true := by
    have : ∃ d l, FindAllDocuments Real.log (referenceServer ℝ)
        { plus_words := ["big".toList, "collar".toList], minus_words := [] } actualOnly
        = .ok (d :: l) := ⟨_, _, rfl⟩
    obtain ⟨d, l, hall⟩ := this
    exact hasResults_of_all Real.log (referenceServer ℝ) "big collar".toList _ _ rfl hall
  have h3 : hasResults Real.log (referenceServer ℝ) "sparrow".toList = true := by
    have : ∃ d l, FindAllDocuments Real.log (referenceServer ℝ)
        { plus_words := ["sparrow".toList], minus_words := [] } actualOnly
        = .ok (d :: l) := ⟨_, _, rfl⟩
    obtain ⟨d, l, hall⟩ := this
    exact hasResults_of_all Real.log (referenceServer ℝ) "sparrow".toList _ _ rfl hall
  unfold mainQueries
  rw [List.map_append, List.map_replicate, h0]
  simp only [List.map_cons, List.map_nil, h1, h2, h3]

theorem referenceServer_window :
    (lastN 1440 (mainQueries.map (hasResults Real.log (referenceServer ℝ)))).count false
      = 1437 := by
  rw [referenceServer_flags]
  unfold lastN
  have hlen : (List.replicate 1439 false ++ [true, true, true]).length - 1440 = 2 := by
    rw [List.length_append, List.length_replicate]
    rfl
  rw [hlen, List.drop_append_of_le_length (by rw [List.length_replicate]; decide),
    List.drop_replicate, List.count_append, List.count_replicate_self]
  rfl

theorem mainQueries_parse :
    ∀ raw ∈ mainQueries, ∃ query, ParseQuery (referenceServer ℝ) raw = .ok query := by
  intro raw hraw
  unfold mainQueries at hraw
  rcases List.mem_append.1 hraw with h | h
  · rw [List.eq_of_mem_replicate h]
    exact ⟨_, rfl⟩
  · simp only [List.mem_cons, List.mem_singleton, List.not_mem_nil, or_false] at h
    rcases h with h | h | h
    · rw [h]; exact ⟨_, rfl⟩
    · rw [h]; exact ⟨_, rfl⟩
    · rw [h]; exact ⟨_, rfl⟩

/-- A use of C14 in the scenario of `main`: when the counter starts at 7, the
calls of `main` end with `GetNoResultRequests() = 1444`, although 1437 of the
calls of the window had no result; only when it starts at 0 is the result
1437. -/
theorem C14_counter_is_not_initialised_witness :
    Reachable (referenceServer ℝ) ∧
    (∀ raw ∈ mainQueries, ∃ query, ParseQuery (referenceServer ℝ) raw = .ok query) ∧
    (-2 ^ 31 ≤ (7 : Int) ∧ (7 : Int) + 1440 < 2 ^ 31) ∧
    (lastN 1440 (mainQueries.map (hasResults Real.log (referenceServer ℝ)))).count false
      = 1437 ∧
    RequestQueue.GetNoResultRequests
      (runRequests Real.log (referenceServer ℝ) (RequestQueue.new 7) mainQueries) = 1444 ∧
    RequestQueue.GetNoResultRequests
      (runRequests Real.log (referenceServer ℝ) (RequestQueue.new 0) mainQueries) = 1437 := by
  refine ⟨referenceServer_reachable, mainQueries_parse, by decide, referenceServer_window, ?_, ?_⟩
  · rw [(C14_counter_is_not_initialised Real.log (referenceServer ℝ) 7 mainQueries
      referenceServer_reachable mainQueries_parse (by decide)).2.2.2.2, referenceServer_window]
    rfl
  · rw [(C14_counter_is_not_initialised Real.log (referenceServer ℝ) 0 mainQueries
      referenceServer_reachable mainQueries_parse (by decide)).2.2.2.2, referenceServer_window]
    rfl

/-! ## Uses of the theorems on the index and the scores -/

theorem catDogServer_reachable : Reachable (catDogServer ℝ) :=
  ⟨[], built ℝ [], _, rfl, rfl⟩

theorem catDogServer_all :
    FindAllDocuments Real.log (catDogServer ℝ)
        { plus_words := ["dog".toList], minus_words := [] } actualOnly
      = .ok (catDogBoth Real.log) := rfl

theorem catDogServer_succeeded :
    succeeded (built ℝ []) [catDogCall1, catDogCall2] = [catDogCall1, catDogCall2] := rfl

/-- A use of C13 on the documents 1 "cat dog" and 2 "dog": the word "cat" is a
key of the index, with a posting for document 1 and none for document 2. -/
theorem C13_index_holds_the_indexed_words_witness :
    (SearchServer.new [] : Except Error (SearchServer ℝ)) = .ok (built ℝ []) ∧
    hasPosting (catDogServer ℝ) "cat".toList 1 ∧
    ¬ hasPosting (catDogServer ℝ) "cat".toList 2 ∧
    "cat".toList ∈ StdMap.keys (catDogServer ℝ).word_to_document_freqs_ := by
  have h := C13_index_holds_the_indexed_words [] (built ℝ []) [catDogCall1, catDogCall2] rfl
  rw [catDogServer_succeeded] at h
  refine ⟨rfl, ?_, ?_, ?_⟩
  · exact (h.2.1 "cat".toList 1).2 ⟨catDogCall1, List.mem_cons_self _ _, rfl, by decide, by decide⟩
  · intro hp
    obtain ⟨c, hc, hid, hw, _⟩ := (h.2.1 "cat".toList 2).1 hp
    simp only [List.mem_cons, List.mem_singleton, List.not_mem_nil, or_false] at hc
    rcases hc with e | e
    · rw [e] at hid
      exact absurd hid (by decide)
    · rw [e] at hw
      exact absurd hw (by decide)
  · exact (h.1 "cat".toList).2 ⟨catDogCall1, List.mem_cons_self _ _, by decide, by decide⟩

/-- A use of C17 on the documents 1 "cat dog" and 2 "dog" with the plus-word
"dog": both documents have the word, so `log (2 / 2) = 0` and both relevances
are 0, and both documents are in the output. -/
theorem C17_FindAllDocuments_members_witness :
    Reachable (catDogServer ℝ) ∧
    FindAllDocuments Real.log (catDogServer ℝ)
        { plus_words := ["dog".toList], minus_words := [] } actualOnly
      = .ok (catDogBoth Real.log) ∧
    (∀ d ∈ catDogBoth Real.log, d.relevance = 0) ∧
    ∃ docs, FindAllDocuments Real.log (catDogServer ℝ)
        { plus_words := ["dog".toList], minus_words := [] } actualOnly = .ok docs ∧
      (∀ d, d ∈ (docs.map fun d => d.id) ↔
        ((∃ w ∈ ["dog".toList], hasPosting (catDogServer ℝ) w d) ∧
          (∃ data, StdMap.find? (catDogServer ℝ).documents_ d = some data ∧
            actualOnly d data.status data.rating = true) ∧
          ∀ w ∈ ([] : List Str), ¬ hasPosting (catDogServer ℝ) w d)) ∧
      (docs.map fun d => d.id).Nodup := by
  refine ⟨catDogServer_reachable, catDogServer_all, ?_,
    C17_FindAllDocuments_members Real.log (catDogServer ℝ)
      { plus_words := ["dog".toList], minus_words := [] } actualOnly catDogServer_reachable⟩
  intro d hd
  unfold catDogBoth at hd
  simp only [List.mem_cons, List.mem_singleton, List.not_mem_nil, or_false] at hd
  rcases hd with e | e
  · rw [e]
    norm_num
  · rw [e]
    norm_num

/-- A use of C18 on the documents 1 "cat dog" and 2 "dog" with the plus-word
"dog". -/
theorem C18_relevance_is_tf_idf_witness :
    (SearchServer.new [] : Except Error (SearchServer ℝ)) = .ok (built ℝ []) ∧
    FindAllDocuments Real.log (catDogServer ℝ)
        { plus_words := ["dog".toList], minus_words := [] } actualOnly
      = .ok (catDogBoth Real.log) ∧
    (∀ d ∈ catDogBoth Real.log, d.relevance
      = ((["dog".toList].filter (postedIn (catDogServer ℝ) d.id)).map fun t =>
          (posting? (catDogServer ℝ).word_to_document_freqs_ t d.id).getD 0
            * Real.log ((GetDocumentCount (catDogServer ℝ) : ℝ)
                / (postingCount (catDogServer ℝ) t : ℝ))).sum) ∧
    (posting? (catDogServer ℝ).word_to_document_freqs_ "dog".toList 1).getD 0
      = ((indexedWords (built ℝ []) "cat dog".toList).count "dog".toList : ℝ)
          / ((indexedWords (built ℝ []) "cat dog".toList).length : ℝ) :=
  ⟨rfl, catDogServer_all,
    (C18_relevance_is_tf_idf Real.log [] (built ℝ [])
      [catDogCall1, catDogCall2]
      { plus_words := ["dog".toList], minus_words := [] } actualOnly (catDogBoth Real.log)
      rfl catDogServer_all).1,
    (C18_relevance_is_tf_idf Real.log [] (built ℝ [])
      [catDogCall1, catDogCall2]
      { plus_words := ["dog".toList], minus_words := [] } actualOnly (catDogBoth Real.log)
      rfl catDogServer_all).2.1
      catDogCall1 (catDogServer_succeeded ▸ List.mem_cons_self _ _) "dog".toList⟩

/-- A use of C20 in the scenario of `main`: the query "curly dog" parses and
`FindTopDocuments` returns. -/
theorem C20_FindTopDocuments_never_fails_witness :
    Reachable (referenceServer ℝ) ∧
    ParseQuery (referenceServer ℝ) "curly dog".toList
      = .ok { plus_words := ["curly".toList, "dog".toList], minus_words := [] } ∧
    ∃ docs, FindTopDocuments Real.log (referenceServer ℝ) "curly dog".toList actualOnly
      = .ok docs :=
  ⟨referenceServer_reachable, rfl,
    (C20_FindTopDocuments_never_fails (referenceServer ℝ) referenceServer_reachable).2
      Real.log "curly dog".toList
      { plus_words := ["curly".toList, "dog".toList], minus_words := [] } actualOnly rfl⟩

end Leet
